import Mathlib

/-!
# cli-calculator: a shallow embedding of `main.go`

A Go `string` is a sequence of bytes.  It is represented here by a `List Char`
holding one `Char` per byte; ASCII text is represented by itself.  The program
reads its input one byte at a time and compares every byte with ASCII
characters only.

The unsigned 64-bit accumulator is a `Nat` kept below `2 ^ 64` by explicit
reductions; `int64` values are `Int`.

Three functions of the Go standard library are modelled from their sources:
`strings.Reader` (`Read`, `UnreadByte`), `strconv.ParseInt`/`ParseUint`, and the
part of `fmt.Sprintf` that the program's format strings use.
-/

namespace Calc

/-! ## `strings.Reader` -/

/-- A `strings.Reader` over the string `before.reverse ++ after`, positioned at
index `before.length`: `before` holds the bytes already read, the most recent
first, and `after` the bytes still to be read. -/
structure Reader where
  before : List Char
  after : List Char
deriving DecidableEq, Repr

/-- The constructor `strings.NewReader(s)`. -/
def NewReader (s : List Char) : Reader := ⟨[], s⟩

/-- The method `(*strings.Reader).UnreadByte`: at index 0 it only returns an error
(which every caller drops); otherwise it moves the index back by one, whether
or not the previous read succeeded. -/
def Reader.UnreadByte (r : Reader) : Reader :=
  match r.before with
  | [] => r
  | c :: b => ⟨b, c :: r.after⟩

/-- The errors of `readSymbolsFromStream`. -/
inductive ReadError where
  | EOF
  | readNotFull
deriving DecidableEq, Repr

/-- The function `readSymbolsFromStream(input, count)`: one `Read` into a buffer of
`count` bytes.  At the end of the string `Read` reports `io.EOF`; otherwise it
copies what is there, and a short read is the error "read not full". -/
def readSymbolsFromStream (input : Reader) (count : Nat) :
    Except ReadError (List Char) × Reader :=
  match input.after with
  | [] => (.error .EOF, input)
  | _ :: _ =>
    let buffer := input.after.take count
    let input1 : Reader := ⟨buffer.reverse ++ input.before, input.after.drop count⟩
    if buffer.length ≠ count then (.error .readNotFull, input1) else (.ok buffer, input1)

/-! ## Operand and operation types -/

/-- The Go type `OperationType` with its five constants. -/
inductive OperationType where
  | Unknown
  | Add
  | Subtract
  | Multiply
  | Divide
deriving DecidableEq, Repr

/-- The conversion `uint64(x)` of an `int64`. -/
def toUint64 (x : Int) : Nat := (x % 2 ^ 64).toNat

/-- The conversion `int64(x)` of a `uint64`. -/
def toInt64 (x : Nat) : Int :=
  if x % 2 ^ 64 < 2 ^ 63 then (x % 2 ^ 64 : Nat) else (x % 2 ^ 64 : Nat) - 2 ^ 64

/-! ## The literal reader -/

/-- The alphabet of `collectValue`; it is the same for every operand type. -/
def alphabet : List Char := "0123456789abcdefABCDEF+-".toList

/-- The loop of `collectValue`, by recursion on the unread bytes.  `before` is the
read part of the reader and `value` the literal collected so far.  Each
iteration reads one byte with `readSymbolsFromStream(input, 1)`:
* at the end of the input (`io.EOF`) it calls `UnreadByte` and returns;
* a sign met when `value` is not empty is unread and ends the scan;
* a byte of the alphabet is appended, any other byte is unread and ends the
  scan.
The test `symbol == ""` of the source cannot succeed after a one-byte read that
is not at the end of the input. -/
def collectValueLoop : List Char → List Char → List Char → List Char × Reader
  | [], before, value => (value, (Reader.mk before []).UnreadByte)
  | c :: rest, before, value =>
    if value ≠ [] ∧ (c = '+' ∨ c = '-') then
      (value, (Reader.mk (c :: before) rest).UnreadByte)
    else if c ∈ alphabet then
      collectValueLoop rest (c :: before) (value ++ [c])
    else
      (value, (Reader.mk (c :: before) rest).UnreadByte)

/-- The function `collectValue(input)`: the collected literal and the reader after
the scan. -/
def collectValue (input : Reader) : List Char × Reader :=
  collectValueLoop input.after input.before []

/-! ## `strconv.ParseInt` -/

/-- The two errors `strconv.ErrSyntax` and `strconv.ErrRange`. -/
inductive NumError where
  | ErrSyntax
  | ErrRange
deriving DecidableEq, Repr

/-- The constant `maxUint64` of `strconv`. -/
def maxUint64 : Nat := 2 ^ 64 - 1

/-- The digit value `ParseUint` gives a byte: `c - '0'` for a decimal digit,
`lower(c) - 'a' + 10` for a letter, where `lower(c) = c | 0x20`. -/
def digitVal (c : Char) : Option Nat :=
  if 48 ≤ c.toNat ∧ c.toNat ≤ 57 then some (c.toNat - 48)
  else if 97 ≤ (c.toNat ||| 32) ∧ (c.toNat ||| 32) ≤ 122 then some ((c.toNat ||| 32) - 97 + 10)
  else none

/-- The digit loop of `strconv.ParseUint(s, base, 64)` for `2 ≤ base ≤ 36`, from
the running value `n`. -/
def parseUintLoop (base : Nat) : List Char → Nat → Nat × Option NumError
  | [], n => (n, none)
  | c :: cs, n =>
    match digitVal c with
    | none => (0, some .ErrSyntax)
    | some d =>
      if d ≥ base then (0, some .ErrSyntax)
      else if n ≥ maxUint64 / base + 1 then (maxUint64, some .ErrRange)
      else
        let n0 := n * base
        let n1 := (n0 + d) % 2 ^ 64
        if n1 < n0 ∨ n1 > maxUint64 then (maxUint64, some .ErrRange)
        else parseUintLoop base cs n1

/-- The function `strconv.ParseUint(s, base, 64)` for `2 ≤ base ≤ 36`. -/
def ParseUint (s : List Char) (base : Nat) : Nat × Option NumError :=
  if s = [] then (0, some .ErrSyntax) else parseUintLoop base s 0

/-- The function `strconv.ParseInt(s, base, 64)` for `2 ≤ base ≤ 36`: the value and
the error.  A syntax error gives 0; a range error gives the nearest bound. -/
def ParseInt (s : List Char) (base : Nat) : Int × Option NumError :=
  match s with
  | [] => (0, some .ErrSyntax)
  | c :: t =>
    let neg := decide (c = '-')
    let s1 := if c = '+' ∨ c = '-' then t else s
    let r := ParseUint s1 base
    if r.2 = some .ErrSyntax then (0, some .ErrSyntax)
    else if !neg ∧ r.1 ≥ 2 ^ 63 then (2 ^ 63 - 1, some .ErrRange)
    else if neg ∧ r.1 > 2 ^ 63 then (-(2 ^ 63), some .ErrRange)
    else (if neg then -(r.1 : Int) else (r.1 : Int), none)

/-- The function `readValue(reader, opType)`: the literal is collected first, then
parsed in the base of `opType`; the parse error is dropped, and an `opType`
other than b, o, d, h leaves the value 0. -/
def readValue (reader : Reader) (opType : List Char) : Int × Reader :=
  let r := collectValue reader
  let value : Int :=
    if opType = ['b'] then (ParseInt r.1 2).1
    else if opType = ['o'] then (ParseInt r.1 8).1
    else if opType = ['d'] then (ParseInt r.1 10).1
    else if opType = ['h'] then (ParseInt r.1 16).1
    else 0
  (value, r.2)

/-! ## Arithmetic -/

/-- A Go run-time panic. -/
inductive Panic where
  | integerDivideByZero
deriving DecidableEq, Repr

/-- The function `doSingleOperation(op1, opType, op2)` on `uint64`: addition,
subtraction and multiplication wrap around; division by zero is the run-time
panic "integer divide by zero". -/
def doSingleOperation (op1 : Nat) (opType : OperationType) (op2 : Nat) : Except Panic Nat :=
  match opType with
  | .Add => .ok ((op1 + op2) % 2 ^ 64)
  | .Subtract => .ok ((op1 + 2 ^ 64 - op2 % 2 ^ 64) % 2 ^ 64)
  | .Multiply => .ok ((op1 * op2) % 2 ^ 64)
  | .Divide => if op2 = 0 then .error .integerDivideByZero else .ok (op1 / op2)
  | .Unknown => .ok 0

/-! ## The format reader -/

/-- The Go struct `OutFormat`.  The field `prefixStr` is the field `prefix` of the
source. -/
structure OutFormat where
  prefixStr : List Char
  padding : Bool
  fmt : List Char
  sign : Bool
  format : Bool
  color : Bool
  bitmaskWidth : Nat
deriving DecidableEq, Repr

/-- The value `stru` that `collectOutputFmt` starts from. -/
def defaultOutFormat : OutFormat :=
  { prefixStr := [], padding := false, fmt := [], sign := false, format := false,
    color := false, bitmaskWidth := 64 }

/-- The loop of `collectOutputFmt`, by recursion on the unread bytes: every byte up
to the end of the input is read, and the `switch` updates `stru` or appends a
decimal digit to `bitmaskStr`. -/
def collectOutputFmtLoop :
    List Char → List Char → OutFormat → List Char → OutFormat × List Char × Reader
  | [], before, stru, bitmaskStr => (stru, bitmaskStr, Reader.mk before [])
  | c :: rest, before, stru, bitmaskStr =>
    if c = 'b' then
      collectOutputFmtLoop rest (c :: before)
        { stru with prefixStr := ['0', 'b'], fmt := ['b'] } bitmaskStr
    else if c = 'o' then
      collectOutputFmtLoop rest (c :: before) { stru with fmt := ['o'] } bitmaskStr
    else if c = 'd' then
      collectOutputFmtLoop rest (c :: before) { stru with fmt := ['d'] } bitmaskStr
    else if c = 'h' then
      collectOutputFmtLoop rest (c :: before)
        { stru with prefixStr := ['0', 'x'], fmt := ['X'] } bitmaskStr
    else if c = 's' then
      collectOutputFmtLoop rest (c :: before) { stru with sign := true } bitmaskStr
    else if c = 'f' then
      collectOutputFmtLoop rest (c :: before) { stru with format := true } bitmaskStr
    else if c = 'c' then
      collectOutputFmtLoop rest (c :: before) { stru with color := true } bitmaskStr
    else if c = 'p' then
      collectOutputFmtLoop rest (c :: before) { stru with padding := true } bitmaskStr
    else if c ∈ ['0', '1', '2', '3', '4', '5', '6', '7', '8', '9'] then
      collectOutputFmtLoop rest (c :: before) stru (bitmaskStr ++ [c])
    else
      collectOutputFmtLoop rest (c :: before) stru bitmaskStr

/-- The function `collectOutputFmt(reader)`: the format and the reader after the
scan.  The error of `ParseInt` is dropped. -/
def collectOutputFmt (reader : Reader) : OutFormat × Reader :=
  let r := collectOutputFmtLoop reader.after reader.before defaultOutFormat []
  let stru := r.1
  let bitmaskStr := r.2.1
  if bitmaskStr ≠ [] then
    ({ stru with bitmaskWidth := toUint64 (ParseInt bitmaskStr 10).1 }, r.2.2)
  else (stru, r.2.2)

/-! ## `fmt.Sprintf` with one `uint64` operand

The model follows `doPrintf` of package `fmt` for format strings made of literal
text and of directives `%`, flag `0`, decimal width, verb.  The flags `#`, `+`,
`-`, space, precisions, `*` widths, argument indexes and the verbs `O`, `c`,
`q`, `U` are outside the model (such a byte is handled as an unknown verb).  No
format string that `formatValue` builds from a result of `collectOutputFmt`
contains them.
-/

/-- The digit strings `ldigits` and `udigits` of package `fmt`. -/
def ldigits : List Char := "0123456789abcdefx".toList

/-- See `ldigits`. -/
def udigits : List Char := "0123456789ABCDEFX".toList

/-- The digit loop of `(*fmt).fmtInteger`: the digits of `u` in `base` are written
from the right in front of `buf`.  The first argument bounds the number of
iterations; `u + 1` is always enough. -/
def fmtDigits (base : Nat) (digits : List Char) : Nat → Nat → List Char → List Char
  | 0, _, buf => buf
  | fuel + 1, u, buf =>
    if u ≥ base then
      fmtDigits base digits fuel (u / base) (digits.getD (u % base) '0' :: buf)
    else digits.getD u '0' :: buf

/-- The method `(*fmt).fmtInteger` for an unsigned operand without precision: with
the flag `0` and a width the digits are padded with zeros to the width;
a width without the flag pads with spaces on the left. -/
def fmtInteger (zero widPresent : Bool) (wid : Nat) (u base : Nat) (digits : List Char) :
    List Char :=
  let body := fmtDigits base digits (u + 1) u []
  let prec := if zero ∧ widPresent then wid else 0
  let buf := List.replicate (prec - body.length) '0' ++ body
  if widPresent then List.replicate (wid - buf.length) ' ' ++ buf else buf

/-- The method `(*pp).printArg` for a `uint64` operand, with `badVerb` for a verb it
does not know. -/
def printArg (zero widPresent : Bool) (wid : Nat) (arg : Nat) (verb : Char) : List Char :=
  if verb = 'v' ∨ verb = 'd' then fmtInteger zero widPresent wid arg 10 ldigits
  else if verb = 'b' then fmtInteger zero widPresent wid arg 2 ldigits
  else if verb = 'o' then fmtInteger zero widPresent wid arg 8 ldigits
  else if verb = 'x' then fmtInteger zero widPresent wid arg 16 ldigits
  else if verb = 'X' then fmtInteger zero widPresent wid arg 16 udigits
  else "%!".toList ++ [verb] ++ "(uint64=".toList
    ++ fmtInteger zero widPresent wid arg 10 ldigits ++ ")".toList

/-- What `doPrintf` appends after the format when the operand was not used. -/
def extraArg (used : Bool) (arg : Nat) : List Char :=
  if used then []
  else "%!(EXTRA uint64=".toList ++ fmtInteger false false 0 arg 10 ldigits ++ ")".toList

/-- The text written for a verb: `%` for the verb `%`, `%!verb(MISSING)` when the
operand is already used, and the operand otherwise; with the new `used`. -/
def verbStep (zero widPresent : Bool) (wid : Nat) (arg : Nat) (used : Bool) (verb : Char) :
    List Char × Bool :=
  if verb = '%' then (['%'], used)
  else if used then ("%!".toList ++ [verb] ++ "(MISSING)".toList, used)
  else (printArg zero widPresent wid arg verb, true)

/-- Where `doPrintf` stands in the format: in literal text, after a `%` among the
flags, or inside a decimal width. -/
inductive PrintfState where
  | text
  | flags (zero : Bool)
  | width (zero : Bool) (num : Nat)
deriving DecidableEq, Repr

/-- The function `doPrintf` as a scan of the format.  A format that ends inside a
directive gives `%!(NOVERB)`; so does a width above what `tooLarge` allows,
which ends the scan. -/
def doPrintf (arg : Nat) : List Char → PrintfState → Bool → List Char
  | [], .text, used => extraArg used arg
  | [], .flags _, used => "%!(NOVERB)".toList ++ extraArg used arg
  | [], .width _ _, used => "%!(NOVERB)".toList ++ extraArg used arg
  | c :: cs, .text, used =>
    if c = '%' then doPrintf arg cs (.flags false) used
    else c :: doPrintf arg cs .text used
  | c :: cs, .flags zero, used =>
    if c = '0' then doPrintf arg cs (.flags true) used
    else if 49 ≤ c.toNat ∧ c.toNat ≤ 57 then doPrintf arg cs (.width zero (c.toNat - 48)) used
    else
      let r := verbStep zero false 0 arg used c
      r.1 ++ doPrintf arg cs .text r.2
  | c :: cs, .width zero num, used =>
    if 48 ≤ c.toNat ∧ c.toNat ≤ 57 then
      if num > 1000000 then "%!(NOVERB)".toList ++ extraArg used arg
      else doPrintf arg cs (.width zero (num * 10 + (c.toNat - 48))) used
    else
      let r := verbStep zero true num arg used c
      r.1 ++ doPrintf arg cs .text r.2

/-- The call `fmt.Sprintf(format, arg)` with one `uint64` operand. -/
def Sprintf (format : List Char) (arg : Nat) : List Char :=
  doPrintf arg format .text false

/-! ## The formatter -/

/-- The mask loop of `formatValue`, `for i < limit { bitmask |= 1 << i; i++ }`, by
recursion on the number of iterations left.  In `uint64` the shift `1 << i` is
0 from `i = 64` on. -/
def bitmaskLoop : Nat → Nat → Nat → Nat
  | 0, _, bitmask => bitmask
  | n + 1, i, bitmask => bitmaskLoop n (i + 1) (bitmask ||| (1 <<< i) % 2 ^ 64)

/-- The function `formatValue(input, cfg)`.  The loop bound is
`int64(cfg.bitmaskWidth)`, so the loop does not run when that is negative. -/
def formatValue (input : Nat) (cfg : OutFormat) : List Char :=
  let padding : List Char :=
    if cfg.padding then
      if cfg.fmt = ['b'] then '0' :: Sprintf "%d".toList cfg.bitmaskWidth
      else if cfg.fmt = ['o'] then '0' :: Sprintf "%d".toList cfg.bitmaskWidth
      else if cfg.fmt = ['d'] then '0' :: Sprintf "%d".toList cfg.bitmaskWidth
      else if cfg.fmt = ['X'] then '0' :: Sprintf "%d".toList (cfg.bitmaskWidth / 4)
      else []
    else []
  let bitmask := bitmaskLoop (toInt64 cfg.bitmaskWidth).toNat 0 0
  Sprintf (cfg.prefixStr ++ "%".toList ++ padding ++ cfg.fmt) (input &&& bitmask)

/-! ## The evaluator -/

/-- How a run of Go code ends: normally with a value, with a run-time panic, or (in
the model only) by using up the iteration bound given to the loop. -/
inductive Run (α : Type) where
  | done (a : α)
  | panicked (p : Panic)
  | outOfFuel
deriving DecidableEq, Repr

/-- The local variables of `evaluateExpr` that its loop reads and writes. -/
structure LoopState where
  reader : Reader
  accumulator : Nat
  operationType : OperationType
  formattedData : List Char
deriving DecidableEq, Repr

/-- What one iteration of the loop of `evaluateExpr` does: it goes on to the next
iteration, leaves the loop, or panics. -/
inductive Step where
  | next (s : LoopState)
  | exit (s : LoopState)
  | panic (p : Panic)
deriving DecidableEq, Repr

/-- One iteration of the loop of `evaluateExpr`.  It reads one byte: `io.EOF` leaves
the loop, an operator sets `operationType`, `t` reads the operand type and a
value and applies the pending operation, `=` reads the output format and
formats the accumulator (the `break` there leaves the `switch` only), and any
other byte is skipped. -/
def loopBody (s : LoopState) : Step :=
  match readSymbolsFromStream s.reader 1 with
  | (.error .EOF, _) => .exit s
  | (.error .readNotFull, reader1) => .next { s with reader := reader1 }
  | (.ok symbol, reader1) =>
    if symbol = ['+'] then .next { s with reader := reader1, operationType := .Add }
    else if symbol = ['-'] then .next { s with reader := reader1, operationType := .Subtract }
    else if symbol = ['*'] then .next { s with reader := reader1, operationType := .Multiply }
    else if symbol = ['/'] then .next { s with reader := reader1, operationType := .Divide }
    else if symbol = ['t'] then
      match readSymbolsFromStream reader1 1 with
      | (.error .EOF, reader2) => .next { s with reader := reader2 }
      | (r, reader2) =>
        let opType : List Char := match r with
          | .ok o => o
          | .error _ => []
        let v := readValue reader2 opType
        let tempValue := toUint64 v.1
        if s.operationType ≠ .Unknown then
          match doSingleOperation s.accumulator s.operationType tempValue with
          | .error p => .panic p
          | .ok a => .next { s with reader := v.2, accumulator := a, operationType := .Unknown }
        else .next { s with reader := v.2, accumulator := tempValue }
    else if symbol = ['='] then
      let r := collectOutputFmt reader1
      .next { s with reader := r.2, formattedData := formatValue s.accumulator r.1 }
    else .next { s with reader := reader1 }

/-- The loop of `evaluateExpr`; the first argument bounds the number of
iterations. -/
def evalLoop : Nat → LoopState → Run LoopState
  | 0, _ => .outOfFuel
  | fuel + 1, s =>
    match loopBody s with
    | .next s1 => evalLoop fuel s1
    | .exit s1 => .done s1
    | .panic p => .panicked p

/-- What a call of `evaluateExpr` does: the text it writes to standard output and
the string it returns. -/
structure EvalResult where
  stdout : List Char
  result : List Char
deriving DecidableEq, Repr

/-- The call `fmt.Println(s)` with one string operand. -/
def Println (s : List Char) : List Char := s ++ ['\n']

/-- The state of the loop of `evaluateExpr(input)` before its first iteration: the
spaces are removed from the input, the accumulator is 0, no operation is
pending and `formattedData` is empty. -/
def initialState (input : List Char) : LoopState :=
  { reader := NewReader (input.filter (fun c => c ≠ ' ')), accumulator := 0,
    operationType := .Unknown, formattedData := [] }

/-- The function `evaluateExpr(input)`: the loop runs over the input without its
spaces (one iteration per byte at most, and one more for the end of the
input), `formattedData` is printed and the empty string is returned. -/
def evaluateExpr (input : List Char) : Run EvalResult :=
  match evalLoop ((input.filter (fun c => c ≠ ' ')).length + 1) (initialState input) with
  | .done s => .done ⟨Println s.formattedData, []⟩
  | .panicked p => .panicked p
  | .outOfFuel => .outOfFuel

/-- The function `main`: the text written to standard output. -/
def main : Run (List Char) :=
  match evaluateExpr "td10+td20+td50=hfp16".toList with
  | .done r => .done (r.stdout ++ Println r.result)
  | .panicked p => .panicked p
  | .outOfFuel => .outOfFuel

/-- The state after `k` iterations of the loop from `s`, when there are that many
and none of them leaves the loop or panics. -/
def runSteps : Nat → LoopState → Option LoopState
  | 0, s => some s
  | k + 1, s =>
    match loopBody s with
    | .next s1 => runSteps k s1
    | _ => none

/-! ## Expressions given by their parts

The shape `t<c1><lit1> op2 t<c2><lit2> ... opk t<ck><litk>` of an expression, and
what the specification says such an expression means.
-/

/-- A typed literal of an expression: the operand type code, the sign (empty, `+`
or `-`) and the digits. -/
structure Literal where
  code : Char
  sign : List Char
  digits : List Char
deriving DecidableEq, Repr

/-- The numeric base that an operand type code stands for. -/
def baseOf (code : Char) : Nat :=
  if code = 'b' then 2 else if code = 'o' then 8 else if code = 'd' then 10 else 16

/-- The digit alphabet of an operand type: `01`, `0-7`, `0-9`, `0-9a-fA-F`. -/
def digitAlphabet (code : Char) : List Char :=
  if code = 'b' then "01".toList
  else if code = 'o' then "01234567".toList
  else if code = 'd' then "0123456789".toList
  else "0123456789abcdefABCDEF".toList

/-- The value of a digit character. -/
def digitValue (c : Char) : Nat :=
  if c.toNat ≤ 57 then c.toNat - 48 else if c.toNat ≤ 70 then c.toNat - 55 else c.toNat - 87

/-- The number that a string of digits denotes in a base. -/
def digitsValue (base : Nat) (ds : List Char) : Nat :=
  ds.foldl (fun n c => n * base + digitValue c) 0

/-- The integer that a literal denotes. -/
def Literal.value (l : Literal) : Int :=
  if l.sign = ['-'] then -(digitsValue (baseOf l.code) l.digits : Int)
  else (digitsValue (baseOf l.code) l.digits : Int)

/-- A literal is well formed when its code is one of b, o, d, h, its sign is empty,
`+` or `-`, its digits are a non-empty string over the alphabet of its code,
and its value is in the signed 64-bit range. -/
def Literal.WellFormed (l : Literal) : Prop :=
  l.code ∈ ['b', 'o', 'd', 'h'] ∧ l.sign ∈ [[], ['+'], ['-']] ∧ l.digits ≠ [] ∧
    (∀ c ∈ l.digits, c ∈ digitAlphabet l.code) ∧ -(2 ^ 63) ≤ l.value ∧ l.value < 2 ^ 63

instance (l : Literal) : Decidable l.WellFormed := by
  unfold Literal.WellFormed
  infer_instance

/-- The text of a literal in an expression. -/
def Literal.text (l : Literal) : List Char := 't' :: l.code :: (l.sign ++ l.digits)

/-- The text of a chain of operators, each followed by a literal. -/
def chainText : List (Char × Literal) → List Char
  | [] => []
  | p :: ps => p.1 :: (p.2.text ++ chainText ps)

/-- The operation on unsigned 64-bit numbers that an operator character names:
addition, subtraction and multiplication modulo `2 ^ 64`, truncating
division. -/
def applyOperator (op : Char) (a b : Nat) : Nat :=
  if op = '+' then (a + b) % 2 ^ 64
  else if op = '-' then (((a : Int) - (b : Int)) % 2 ^ 64).toNat
  else if op = '*' then (a * b) % 2 ^ 64
  else a / b

/-- The left fold `(((v1 op2 v2) op3 v3) ... opk vk)` of a chain, each literal taken
modulo `2 ^ 64`. -/
def leftFold (l1 : Literal) (rest : List (Char × Literal)) : Nat :=
  rest.foldl (fun acc p => applyOperator p.1 acc ((p.2.value % 2 ^ 64).toNat))
    ((l1.value % 2 ^ 64).toNat)

/-- A chain is well formed when every operator is one of `+ - * /`, every literal is
well formed, and no literal after `/` is zero. -/
def ChainWellFormed (rest : List (Char × Literal)) : Prop :=
  ∀ p ∈ rest, p.1 ∈ ['+', '-', '*', '/'] ∧ p.2.WellFormed ∧ (p.1 = '/' → p.2.value ≠ 0)

instance (rest : List (Char × Literal)) : Decidable (ChainWellFormed rest) := by
  unfold ChainWellFormed
  infer_instance

/-- The hexadecimal digits: the alphabet of `collectValue` without the signs. -/
def hexDigits : List Char := "0123456789abcdefABCDEF".toList

/-- The `OperationType` that the loop of `evaluateExpr` sets for an operator
character. -/
def operationOf (c : Char) : OperationType :=
  if c = '+' then .Add else if c = '-' then .Subtract
  else if c = '*' then .Multiply else if c = '/' then .Divide else .Unknown

/-- The whole string that a reader is reading. -/
def Reader.content (r : Reader) : List Char := r.before.reverse ++ r.after

/-! ## The format directive, as the specification reads it -/

/-- What one character of a format directive does to the format: `b` selects
binary and the prefix `0b`, `o` octal, `d` decimal, `h` upper-case hexadecimal
and the prefix `0x`; `s`, `f`, `c`, `p` set the flags for signed display,
verbose, colour and zero padding; any other character changes nothing. -/
def specFormatStep (f : OutFormat) (c : Char) : OutFormat :=
  if c = 'b' then { f with fmt := ['b'], prefixStr := ['0', 'b'] }
  else if c = 'o' then { f with fmt := ['o'] }
  else if c = 'd' then { f with fmt := ['d'] }
  else if c = 'h' then { f with fmt := ['X'], prefixStr := ['0', 'x'] }
  else if c = 's' then { f with sign := true }
  else if c = 'f' then { f with format := true }
  else if c = 'c' then { f with color := true }
  else if c = 'p' then { f with padding := true }
  else f

/-- Whether a character is a decimal digit. -/
def isDecimalDigit (c : Char) : Bool := decide (c ∈ "0123456789".toList)

/-- The bit width that a format directive asks for: the decimal value of its digit
characters taken together in order, or 64 when it has none. -/
def specBitWidth (s : List Char) : Nat :=
  if s.filter isDecimalDigit = [] then 64 else digitsValue 10 (s.filter isDecimalDigit)

/-- The format that a directive stands for: the fold of `specFormatStep` over its
characters from the default format, with the bit width of `specBitWidth`. -/
def specOutFormat (s : List Char) : OutFormat :=
  { s.foldl specFormatStep defaultOutFormat with bitmaskWidth := specBitWidth s }

/-- The upper-case hexadecimal digit of a number below 16. -/
def hexDigitUpper (d : Nat) : Char := "0123456789ABCDEF".toList.getD d '0'

/-- The verb that `collectOutputFmt` stores in `fmt` for a base character: `X` for
`h`, the character itself for `b`, `o`, `d`. -/
def fmtOf (code : Char) : List Char := if code = 'h' then ['X'] else [code]

/-- The digit string that `printArg` uses for the verb of a base character. -/
def digitsOf (code : Char) : List Char := if code = 'h' then udigits else ldigits

/-! ## Spaces -/

/-- The relation between an expression and the strings obtained from it by
inserting or deleting space characters, any number of times, at any
positions. -/
inductive SpaceEdit : List Char → List Char → Prop where
  | refl (e : List Char) : SpaceEdit e e
  | insert (e a b : List Char) : SpaceEdit e (a ++ b) → SpaceEdit e (a ++ ' ' :: b)
  | delete (e a b : List Char) : SpaceEdit e (a ++ ' ' :: b) → SpaceEdit e (a ++ b)

/-- The fields of a format that the specification says rendering depends on:
prefix, zero padding, base code and bit width. -/
def OutFormat.renderFields (f : OutFormat) : List Char × Bool × List Char × Nat :=
  (f.prefixStr, f.padding, f.fmt, f.bitmaskWidth)

/-- Whether a character is none of the directive characters `s`, `f`, `c`. -/
def notFlagChar (c : Char) : Bool := decide (c ∉ ['s', 'f', 'c'])

/-! ## Counting the reads

The number of calls of `readSymbolsFromStream` that each loop makes, following
the same branches as the loops themselves.
-/

/-- The number of reads of the loop of `collectValue`: one per byte collected, and one
for the read that ends the scan (the end of the input, or the byte that is
unread). -/
def collectValueReads : List Char → List Char → Nat
  | [], _ => 1
  | c :: rest, value =>
    if value ≠ [] ∧ (c = '+' ∨ c = '-') then 1
    else if c ∈ alphabet then 1 + collectValueReads rest (value ++ [c])
    else 1

/-- The number of reads of the loop of `collectOutputFmt`: one per byte left, and one
for the end of the input. -/
def collectOutputFmtReads : List Char → Nat
  | [] => 1
  | _ :: rest => 1 + collectOutputFmtReads rest

/-- The number of reads of one iteration of the loop of `evaluateExpr`: the read of the
symbol, then for `t` the read of the operand type and the reads of
`collectValue`, for `=` the reads of `collectOutputFmt`. -/
def loopBodyReads (s : LoopState) : Nat :=
  match readSymbolsFromStream s.reader 1 with
  | (.ok symbol, reader1) =>
    if symbol = ['t'] then
      match readSymbolsFromStream reader1 1 with
      | (.error .EOF, _) => 2
      | (_, reader2) => 2 + collectValueReads reader2.after []
    else if symbol = ['='] then 1 + collectOutputFmtReads reader1.after
    else 1
  | (.error _, _) => 1

/-- The number of reads of the loop of `evaluateExpr` from a state, within the given
number of iterations. -/
def evalLoopReads : Nat → LoopState → Nat
  | 0, _ => 0
  | fuel + 1, s =>
    loopBodyReads s +
      match loopBody s with
      | .next s1 => evalLoopReads fuel s1
      | .exit _ => 0
      | .panic _ => 0

/-! ## The pending operator -/

/-- The operator characters. -/
def operators : List Char := ['+', '-', '*', '/']

/-- The operation that is pending after a string of characters, from the one that
was pending before it: the one named by the last operator character of the
string, and the former one when the string has no operator character. -/
def pendingAfter (op0 : OperationType) (w : List Char) : OperationType :=
  w.foldl (fun op c => if c ∈ operators then operationOf c else op) op0

/-- A literal has valid digits when its code is one of b, o, d, h, its sign is empty,
`+` or `-`, and its digits are a non-empty string over the alphabet of its
code; its value may lie outside the signed 64-bit range. -/
def Literal.ValidDigits (l : Literal) : Prop :=
  l.code ∈ ['b', 'o', 'd', 'h'] ∧ l.sign ∈ [[], ['+'], ['-']] ∧ l.digits ≠ [] ∧
    (∀ c ∈ l.digits, c ∈ digitAlphabet l.code)

instance (l : Literal) : Decidable l.ValidDigits := by
  unfold Literal.ValidDigits
  infer_instance

/-! ## The prefix and the base of a directive -/

/-- The prefix that the last `b` or `h` of a directive stands for: `0b` for `b`, `0x`
for `h`, and none when the directive has neither. -/
def stickyPrefix (s : List Char) : List Char :=
  match s.reverse.find? (fun c => decide (c = 'b' ∨ c = 'h')) with
  | some c => if c = 'b' then ['0', 'b'] else ['0', 'x']
  | none => []

/-- The verb that the last base character (`b`, `o`, `d`, `h`) of a directive stands
for, and none when the directive has no base character. -/
def lastBase (s : List Char) : List Char :=
  match s.reverse.find? (fun c => decide (c ∈ ['b', 'o', 'd', 'h'])) with
  | some c => fmtOf c
  | none => []

/-- The loop of `evaluateExpr(input)` comes to apply a pending Divide to a literal
read as 0: after some iterations, none of which leaves the loop, the pending
operation is Divide and the next bytes are `t`, an operand type and a literal
whose value, as `readValue` gives it, is 0. -/
def DividesByZero (input : List Char) : Prop :=
  ∃ (k : Nat) (s : LoopState) (code : Char) (rest : List Char),
    runSteps k (initialState input) = some s ∧ s.operationType = .Divide ∧
      s.reader.after = 't' :: code :: rest ∧
      toUint64 (readValue ⟨code :: 't' :: s.reader.before, rest⟩ [code]).1 = 0

/-! # Theorems -/

/-! ## The reader and one iteration of the loop -/

theorem readSymbolsFromStream_nil (b : List Char) :
    readSymbolsFromStream ⟨b, []⟩ 1 = (.error .EOF, ⟨b, []⟩) := rfl

theorem readSymbolsFromStream_cons (b : List Char) (c : Char) (a : List Char) :
    readSymbolsFromStream ⟨b, c :: a⟩ 1 = (.ok [c], ⟨c :: b, a⟩) := rfl

theorem unreadByte_cons (b : List Char) (c : Char) (a : List Char) :
    (Reader.mk (c :: b) a).UnreadByte = ⟨b, c :: a⟩ := rfl

theorem evalLoop_succ (fuel : Nat) (s : LoopState) :
    evalLoop (fuel + 1) s =
      match loopBody s with
      | .next s1 => evalLoop fuel s1
      | .exit s1 => .done s1
      | .panic p => .panicked p := rfl

theorem loopBody_eof (b : List Char) (acc : Nat) (op : OperationType) (fd : List Char) :
    loopBody ⟨⟨b, []⟩, acc, op, fd⟩ = .exit ⟨⟨b, []⟩, acc, op, fd⟩ := rfl

/-! ## Collecting a literal -/

theorem hexDigits_facts : ∀ c ∈ hexDigits, c ∈ alphabet ∧ c ≠ '+' ∧ c ≠ '-' := by decide

theorem digitAlphabet_sub (code : Char) : ∀ c ∈ digitAlphabet code, c ∈ hexDigits := by
  unfold digitAlphabet
  split_ifs
  · decide
  · decide
  · decide
  · decide

/-- A string of hexadecimal digits in front of a byte that is outside the alphabet,
or is a sign while something has been collected, is collected whole, and that
byte is left unread. -/
theorem collectValueLoop_stop (ds : List Char) (hds : ∀ c ∈ ds, c ∈ hexDigits) :
    ∀ (before value : List Char) (c : Char) (r : List Char),
      (c ∉ alphabet ∨ ((c = '+' ∨ c = '-') ∧ value ++ ds ≠ [])) →
      collectValueLoop (ds ++ c :: r) before value
        = (value ++ ds, ⟨ds.reverse ++ before, c :: r⟩) := by
  induction ds with
  | nil =>
    intro before value c r hc
    simp only [List.nil_append, List.append_nil, List.reverse_nil]
    unfold collectValueLoop
    rcases hc with hc | ⟨hs, hv⟩
    · have h1 : ¬ (c = '+' ∨ c = '-') := by
        rintro (h | h) <;> subst h <;> exact hc (by decide)
      simp [h1, hc, unreadByte_cons]
    · simp only [List.append_nil] at hv
      simp [hs, hv, unreadByte_cons]
  | cons d ds ih =>
    intro before value c r hc
    have hd := hexDigits_facts d (hds d (List.mem_cons_self _ _))
    have hds1 : ∀ c ∈ ds, c ∈ hexDigits := fun c h => hds c (List.mem_cons_of_mem _ h)
    simp only [List.cons_append]
    unfold collectValueLoop
    have h1 : ¬ (d = '+' ∨ d = '-') := by
      rintro (h | h)
      · exact hd.2.1 h
      · exact hd.2.2 h
    simp only [h1, and_false, if_false, hd.1, if_true]
    rw [ih hds1]
    · simp
    · rcases hc with hc | ⟨hs, _⟩
      · exact Or.inl hc
      · exact Or.inr ⟨hs, by simp⟩

/-- A string of hexadecimal digits that reaches the end of the input is collected
whole. -/
theorem collectValueLoop_eof (ds : List Char) (hds : ∀ c ∈ ds, c ∈ hexDigits) :
    ∀ (before value : List Char), (collectValueLoop ds before value).1 = value ++ ds := by
  induction ds with
  | nil => intro before value; simp [collectValueLoop]
  | cons d ds ih =>
    intro before value
    have hd := hexDigits_facts d (hds d (List.mem_cons_self _ _))
    have hds1 : ∀ c ∈ ds, c ∈ hexDigits := fun c h => hds c (List.mem_cons_of_mem _ h)
    unfold collectValueLoop
    have h1 : ¬ (d = '+' ∨ d = '-') := by
      rintro (h | h)
      · exact hd.2.1 h
      · exact hd.2.2 h
    simp only [h1, and_false, if_false, hd.1, if_true]
    rw [ih hds1]
    simp

/-! ## Parsing a literal -/

theorem digitAlphabet_digitVal (code : Char) (hcode : code ∈ ['b', 'o', 'd', 'h']) :
    ∀ c ∈ digitAlphabet code, digitVal c = some (digitValue c) ∧ digitValue c < baseOf code := by
  simp only [List.mem_cons, List.mem_singleton, List.not_mem_nil, or_false] at hcode
  rcases hcode with rfl | rfl | rfl | rfl <;> decide

theorem baseOf_pos (code : Char) : 2 ≤ baseOf code := by
  unfold baseOf
  split_ifs <;> omega

theorem foldl_digits_ge (base : Nat) (hb : 0 < base) (ds : List Char) :
    ∀ n, n ≤ ds.foldl (fun n c => n * base + digitValue c) n := by
  induction ds with
  | nil => intro n; simp
  | cons d ds ih =>
    intro n
    simp only [List.foldl_cons]
    have h1 : n ≤ n * base := Nat.le_mul_of_pos_right n hb
    exact le_trans (le_trans h1 (Nat.le_add_right _ _)) (ih _)

/-- The digit loop of `ParseUint` on valid digits computes the value of the string,
as long as that value fits 64 bits. -/
theorem parseUintLoop_valid (base : Nat) (hb : 0 < base) (ds : List Char)
    (hds : ∀ c ∈ ds, digitVal c = some (digitValue c) ∧ digitValue c < base) :
    ∀ n, ds.foldl (fun n c => n * base + digitValue c) n ≤ maxUint64 →
      parseUintLoop base ds n = (ds.foldl (fun n c => n * base + digitValue c) n, none) := by
  induction ds with
  | nil => intro n _; simp [parseUintLoop]
  | cons d ds ih =>
    intro n hn
    have hd := hds d (List.mem_cons_self _ _)
    have hds1 : ∀ c ∈ ds, digitVal c = some (digitValue c) ∧ digitValue c < base :=
      fun c h => hds c (List.mem_cons_of_mem _ h)
    simp only [List.foldl_cons] at hn ⊢
    have h1 := foldl_digits_ge base hb ds (n * base + digitValue d)
    have h2 : n * base + digitValue d ≤ maxUint64 := le_trans h1 hn
    have h3 : n ≤ maxUint64 / base := (Nat.le_div_iff_mul_le hb).2 (by omega)
    have h4 : (n * base + digitValue d) % 2 ^ 64 = n * base + digitValue d :=
      Nat.mod_eq_of_lt (by unfold maxUint64 at h2; omega)
    unfold parseUintLoop
    simp only [hd.1]
    have h5 : ¬ digitValue d ≥ base := by omega
    have h6 : ¬ n ≥ maxUint64 / base + 1 := by omega
    simp only [h5, h6, if_false, h4]
    have h7 : ¬ (n * base + digitValue d < n * base ∨ n * base + digitValue d > maxUint64) := by
      omega
    simp only [h7, if_false]
    exact ih hds1 _ hn

theorem ParseUint_valid (base : Nat) (hb : 0 < base) (ds : List Char) (hne : ds ≠ [])
    (hds : ∀ c ∈ ds, digitVal c = some (digitValue c) ∧ digitValue c < base)
    (hle : digitsValue base ds ≤ maxUint64) :
    ParseUint ds base = (digitsValue base ds, none) := by
  unfold ParseUint
  simp only [hne, if_false]
  exact parseUintLoop_valid _ hb _ hds 0 hle

/-- The function `ParseInt` on unsigned valid digits below `2 ^ 63`. -/
theorem ParseInt_unsigned (base : Nat) (hb : 0 < base) (ds : List Char) (hne : ds ≠ [])
    (hds : ∀ c ∈ ds, digitVal c = some (digitValue c) ∧ digitValue c < base)
    (hns : ∀ c ∈ ds, c ≠ '+' ∧ c ≠ '-')
    (hle : digitsValue base ds < 2 ^ 63) :
    ParseInt ds base = (((digitsValue base ds : Nat) : Int), none) := by
  have hU := ParseUint_valid base hb ds hne hds (by unfold maxUint64; omega)
  obtain ⟨d, t, hd⟩ := List.exists_cons_of_ne_nil hne
  have hdn := hns d (by rw [hd]; exact List.mem_cons_self _ _)
  subst hd
  unfold ParseInt
  have h1 : ¬ (2 ^ 63 ≤ digitsValue base (d :: t)) := by omega
  simp [hdn.1, hdn.2, hU]
  omega

/-- The function `ParseInt` on valid digits below `2 ^ 63` after a plus sign. -/
theorem ParseInt_plus (base : Nat) (hb : 0 < base) (ds : List Char) (hne : ds ≠ [])
    (hds : ∀ c ∈ ds, digitVal c = some (digitValue c) ∧ digitValue c < base)
    (hle : digitsValue base ds < 2 ^ 63) :
    ParseInt ('+' :: ds) base = (((digitsValue base ds : Nat) : Int), none) := by
  have hU := ParseUint_valid base hb ds hne hds (by unfold maxUint64; omega)
  unfold ParseInt
  simp [hU]
  omega

/-- The function `ParseInt` on valid digits up to `2 ^ 63` after a minus sign. -/
theorem ParseInt_minus (base : Nat) (hb : 0 < base) (ds : List Char) (hne : ds ≠ [])
    (hds : ∀ c ∈ ds, digitVal c = some (digitValue c) ∧ digitValue c < base)
    (hle : digitsValue base ds ≤ 2 ^ 63) :
    ParseInt ('-' :: ds) base = (-((digitsValue base ds : Nat) : Int), none) := by
  have hU := ParseUint_valid base hb ds hne hds (by unfold maxUint64; omega)
  unfold ParseInt
  have h1 : ¬ (2 ^ 63 < digitsValue base ds) := by omega
  have h2 : ¬ (9223372036854775808 < digitsValue base ds) := by omega
  simp [hU, h2]

/-- The function `ParseInt` on the text of a well-formed literal returns the value of
the literal and no error. -/
theorem ParseInt_wellFormed (l : Literal) (h : l.WellFormed) :
    ParseInt (l.sign ++ l.digits) (baseOf l.code) = (l.value, none) := by
  obtain ⟨hcode, hsign, hne, hds, hlo, hhi⟩ := h
  have hb := baseOf_pos l.code
  have hv : ∀ c ∈ l.digits, digitVal c = some (digitValue c) ∧ digitValue c < baseOf l.code :=
    fun c hc => digitAlphabet_digitVal l.code hcode c (hds c hc)
  have hnosign : ∀ c ∈ l.digits, c ≠ '+' ∧ c ≠ '-' := fun c hc =>
    (hexDigits_facts c (digitAlphabet_sub l.code c (hds c hc))).2
  simp only [List.mem_cons, List.mem_singleton, List.not_mem_nil, or_false] at hsign
  unfold Literal.value at hlo hhi ⊢
  rcases hsign with hs | hs | hs
  · rw [hs] at hlo hhi ⊢
    have hle : digitsValue (baseOf l.code) l.digits < 2 ^ 63 := by
      simp at hhi; exact_mod_cast hhi
    simpa using ParseInt_unsigned _ (by omega) _ hne hv hnosign hle
  · rw [hs] at hlo hhi ⊢
    have hle : digitsValue (baseOf l.code) l.digits < 2 ^ 63 := by
      simp at hhi; exact_mod_cast hhi
    simpa using ParseInt_plus _ (by omega) _ hne hv hle
  · rw [hs] at hlo hhi ⊢
    have hle : digitsValue (baseOf l.code) l.digits ≤ 2 ^ 63 := by
      simp at hlo; exact_mod_cast hlo
    simpa using ParseInt_minus _ (by omega) _ hne hv hle

/-! ## The bit mask -/

theorem mask_step (i : Nat) :
    (2 ^ min i 64 - 1) ||| (1 <<< i) % 2 ^ 64 = 2 ^ min (i + 1) 64 - 1 := by
  rcases Nat.lt_or_ge i 64 with h | h
  · have h1 : min i 64 = i := by omega
    have h2 : min (i + 1) 64 = i + 1 := by omega
    rw [h1, h2]
    interval_cases i <;> rfl
  · have h1 : min i 64 = 64 := by omega
    have h2 : min (i + 1) 64 = 64 := by omega
    rw [h1, h2, Nat.one_shiftLeft, Nat.mod_eq_zero_of_dvd (pow_dvd_pow 2 h), Nat.or_zero]

/-- After `n` more iterations from index `i`, the mask has the low `min (i + n) 64`
bits set. -/
theorem bitmaskLoop_eq (n : Nat) :
    ∀ i, bitmaskLoop n i (2 ^ min i 64 - 1) = 2 ^ min (i + n) 64 - 1 := by
  induction n with
  | zero => intro i; rfl
  | succ n ih =>
    intro i
    unfold bitmaskLoop
    rw [mask_step, ih (i + 1)]
    congr 3
    omega

/-- The mask that `formatValue` builds for a width below `2 ^ 63` has the low
`min W 64` bits set. -/
theorem bitmask_of_width (W : Nat) (hW : W < 2 ^ 63) :
    bitmaskLoop (toInt64 W).toNat 0 0 = 2 ^ min W 64 - 1 := by
  have h1 : toInt64 W = (W : Int) := by
    unfold toInt64
    have : W % 2 ^ 64 = W := Nat.mod_eq_of_lt (by omega)
    rw [this]
    have h3 : W < 2 ^ 63 := hW
    simp only [h3, if_true]
  rw [h1, Int.toNat_ofNat]
  have := bitmaskLoop_eq W 0
  simpa using this

/-- The mask for a width that is negative as an `int64` is 0. -/
theorem bitmask_of_big_width (W : Nat) (hW : 2 ^ 63 ≤ W) (hW2 : W < 2 ^ 64) :
    bitmaskLoop (toInt64 W).toNat 0 0 = 0 := by
  have h1 : (toInt64 W).toNat = 0 := by
    unfold toInt64
    have : W % 2 ^ 64 = W := Nat.mod_eq_of_lt hW2
    rw [this]
    have h2 : ¬ W < 2 ^ 63 := by omega
    simp only [h2, if_false]
    omega
  rw [h1]
  rfl

/-! ## Rendering a number -/

/-- The digits of a number as `fmtInteger` writes them do not depend on the bound,
as long as it is above the number. -/
theorem fmtDigits_fuel (base : Nat) (hb : 2 ≤ base) (digits : List Char) :
    ∀ (f1 f2 u : Nat) (buf : List Char), u < f1 → u < f2 →
      fmtDigits base digits f1 u buf = fmtDigits base digits f2 u buf := by
  intro f1
  induction f1 with
  | zero => intro f2 u buf h; omega
  | succ n ih =>
    intro f2 u buf h1 h2
    cases f2 with
    | zero => omega
    | succ m =>
      unfold fmtDigits
      by_cases hu : u ≥ base
      · simp only [hu, if_true]
        have h3 : u / base < u := Nat.div_lt_self (by omega) (by omega)
        exact ih m (u / base) _ (by omega) (by omega)
      · simp only [hu, if_false]

theorem fmtDigits_lt (base : Nat) (digits : List Char) (u : Nat) (buf : List Char)
    (h : u < base) : fmtDigits base digits (u + 1) u buf = digits.getD u '0' :: buf := by
  unfold fmtDigits
  have : ¬ u ≥ base := by omega
  simp only [this, if_false]

theorem fmtDigits_ge (base : Nat) (hb : 2 ≤ base) (digits : List Char) (u : Nat)
    (buf : List Char) (h : base ≤ u) :
    fmtDigits base digits (u + 1) u buf
      = fmtDigits base digits (u / base + 1) (u / base) (digits.getD (u % base) '0' :: buf) := by
  have h1 : u / base < u := Nat.div_lt_self (by omega) (by omega)
  conv_lhs => unfold fmtDigits
  have : u ≥ base := h
  simp only [this, if_true]
  exact fmtDigits_fuel base hb digits u (u / base + 1) (u / base) _ h1 (by omega)

theorem ldigits_digitChar (d : Nat) (h : d < 10) : ldigits.getD d '0' = Nat.digitChar d := by
  interval_cases d <;> rfl

/-- In base 10 the digits written by `fmtInteger` are those of `Nat.toDigits`. -/
theorem fmtDigits_ten (fuel : Nat) :
    ∀ (u : Nat) (buf : List Char),
      fmtDigits 10 ldigits fuel u buf = Nat.toDigitsCore 10 fuel u buf := by
  induction fuel with
  | zero => intro u buf; rfl
  | succ n ih =>
    intro u buf
    unfold fmtDigits Nat.toDigitsCore
    by_cases hu : u ≥ 10
    · have h1 : ¬ u / 10 = 0 := by omega
      simp only [hu, if_true, h1, if_false]
      rw [ih, ldigits_digitChar _ (Nat.mod_lt _ (by omega))]
    · have h1 : u / 10 = 0 := by omega
      have h2 : u % 10 = u := by omega
      simp only [hu, if_false, h1, if_true, h2]
      rw [ldigits_digitChar _ (by omega)]

/-- The call `Sprintf("%d", v)` gives the decimal digits of `v`. -/
theorem Sprintf_d (v : Nat) : Sprintf "%d".toList v = Nat.toDigits 10 v := by
  show doPrintf v ['%', 'd'] .text false = _
  simp [doPrintf, verbStep, printArg, fmtInteger, extraArg, fmtDigits_ten, Nat.toDigits]

/-- Formatting with the directive `d` alone gives the decimal digits of the
accumulator. -/
theorem formatValue_decimal (acc : Nat) (hacc : acc < 2 ^ 64) :
    formatValue acc { defaultOutFormat with fmt := ['d'] } = Nat.toDigits 10 acc := by
  have hm := bitmask_of_width 64 (by norm_num)
  unfold formatValue
  simp only [defaultOutFormat, hm]
  have h1 : acc &&& (2 ^ min 64 64 - 1) = acc := by
    rw [show min 64 64 = 64 from rfl, Nat.and_pow_two_sub_one_eq_mod, Nat.mod_eq_of_lt hacc]
  rw [h1]
  exact Sprintf_d acc

/-! ## The loop on the parts of an expression -/

theorem readValue_code (reader : Reader) (code : Char) (h : code ∈ ['b', 'o', 'd', 'h']) :
    readValue reader [code]
      = ((ParseInt (collectValue reader).1 (baseOf code)).1, (collectValue reader).2) := by
  simp only [List.mem_cons, List.mem_singleton, List.not_mem_nil, or_false] at h
  rcases h with rfl | rfl | rfl | rfl <;> rfl

/-- The text of a well-formed literal in front of an operator or `=` is collected
whole and that byte is left unread. -/
theorem collectValue_literal (l : Literal) (h : l.WellFormed) (before : List Char) (c : Char)
    (r : List Char) (hc : c ∈ ['+', '-', '*', '/', '=']) :
    collectValue ⟨before, l.sign ++ l.digits ++ c :: r⟩
      = (l.sign ++ l.digits, ⟨(l.sign ++ l.digits).reverse ++ before, c :: r⟩) := by
  obtain ⟨_, hsign, hne, hds, _, _⟩ := h
  have hhex : ∀ c ∈ l.digits, c ∈ hexDigits := fun c hc => digitAlphabet_sub l.code c (hds c hc)
  have hstop : ∀ value : List Char, value ++ l.digits ≠ [] →
      (c ∉ alphabet ∨ ((c = '+' ∨ c = '-') ∧ value ++ l.digits ≠ [])) := by
    intro value hv
    simp only [List.mem_cons, List.mem_singleton, List.not_mem_nil, or_false] at hc
    rcases hc with rfl | rfl | rfl | rfl | rfl
    · exact Or.inr ⟨Or.inl rfl, hv⟩
    · exact Or.inr ⟨Or.inr rfl, hv⟩
    · exact Or.inl (by decide)
    · exact Or.inl (by decide)
    · exact Or.inl (by decide)
  simp only [List.mem_cons, List.mem_singleton, List.not_mem_nil, or_false] at hsign
  unfold collectValue
  rcases hsign with hs | hs | hs
  · rw [hs]
    simp only [List.nil_append]
    rw [collectValueLoop_stop l.digits hhex before [] c r (hstop [] (by simpa using hne))]
    simp
  · rw [hs]
    simp only [List.cons_append, List.nil_append]
    unfold collectValueLoop
    have h1 : ('+' : Char) ∈ alphabet := by decide
    simp only [ne_eq, not_true_eq_false, false_and, if_false, h1, if_true, List.nil_append]
    rw [collectValueLoop_stop l.digits hhex _ ['+'] c r (hstop ['+'] (by simp))]
    simp
  · rw [hs]
    simp only [List.cons_append, List.nil_append]
    unfold collectValueLoop
    have h1 : ('-' : Char) ∈ alphabet := by decide
    simp only [ne_eq, not_true_eq_false, false_and, if_false, h1, if_true, List.nil_append]
    rw [collectValueLoop_stop l.digits hhex _ ['-'] c r (hstop ['-'] (by simp))]
    simp

/-- Reading a well-formed literal in front of an operator or `=` gives its value. -/
theorem readValue_literal (l : Literal) (h : l.WellFormed) (before : List Char) (c : Char)
    (r : List Char) (hc : c ∈ ['+', '-', '*', '/', '=']) :
    readValue ⟨before, l.sign ++ l.digits ++ c :: r⟩ [l.code]
      = (l.value, ⟨(l.sign ++ l.digits).reverse ++ before, c :: r⟩) := by
  rw [readValue_code _ _ h.1, collectValue_literal l h before c r hc, ParseInt_wellFormed l h]

theorem toUint64_lt (x : Int) : toUint64 x < 2 ^ 64 := by
  unfold toUint64
  omega

theorem doSingleOperation_eq (opc : Char) (hop : opc ∈ ['+', '-', '*', '/']) (a v : Nat)
    (hv : v < 2 ^ 64) (h0 : opc = '/' → v ≠ 0) :
    doSingleOperation a (operationOf opc) v = .ok (applyOperator opc a v) := by
  simp only [List.mem_cons, List.mem_singleton, List.not_mem_nil, or_false] at hop
  rcases hop with rfl | rfl | rfl | rfl
  · rfl
  · simp only [operationOf, applyOperator, doSingleOperation]
    simp
    omega
  · rfl
  · have := h0 rfl
    simp [operationOf, applyOperator, doSingleOperation, this]

theorem applyOperator_lt (opc : Char) (a v : Nat) (ha : a < 2 ^ 64) :
    applyOperator opc a v < 2 ^ 64 := by
  unfold applyOperator
  split_ifs
  · omega
  · omega
  · omega
  · exact lt_of_le_of_lt (Nat.div_le_self a v) ha

theorem operationOf_ne (opc : Char) (hop : opc ∈ ['+', '-', '*', '/']) :
    operationOf opc ≠ .Unknown := by
  simp only [List.mem_cons, List.mem_singleton, List.not_mem_nil, or_false] at hop
  rcases hop with rfl | rfl | rfl | rfl <;> decide

/-- An operator character sets the pending operation. -/
theorem loopBody_operator (opc : Char) (hop : opc ∈ ['+', '-', '*', '/']) (b a : List Char)
    (acc : Nat) (op : OperationType) (fd : List Char) :
    loopBody ⟨⟨b, opc :: a⟩, acc, op, fd⟩ = .next ⟨⟨opc :: b, a⟩, acc, operationOf opc, fd⟩ := by
  simp only [List.mem_cons, List.mem_singleton, List.not_mem_nil, or_false] at hop
  rcases hop with rfl | rfl | rfl | rfl <;> rfl

/-- One iteration on the `t` of a typed value. -/
theorem loopBody_t (b : List Char) (code : Char) (a : List Char) (acc : Nat)
    (op : OperationType) (fd : List Char) :
    loopBody ⟨⟨b, 't' :: code :: a⟩, acc, op, fd⟩ =
      if op ≠ .Unknown then
        match doSingleOperation acc op (toUint64 (readValue ⟨code :: 't' :: b, a⟩ [code]).1) with
        | .error p => .panic p
        | .ok x => .next ⟨(readValue ⟨code :: 't' :: b, a⟩ [code]).2, x, .Unknown, fd⟩
      else .next ⟨(readValue ⟨code :: 't' :: b, a⟩ [code]).2,
        toUint64 (readValue ⟨code :: 't' :: b, a⟩ [code]).1, op, fd⟩ := by
  unfold loopBody
  simp only [readSymbolsFromStream_cons]
  simp

/-- Two iterations on an operator and a well-formed literal apply the operator. -/
theorem evalLoop_op_literal (n : Nat) (opc : Char) (l : Literal) (hop : opc ∈ ['+', '-', '*', '/'])
    (hl : l.WellFormed) (h0 : opc = '/' → l.value ≠ 0) (b : List Char) (c : Char) (r : List Char)
    (hc : c ∈ ['+', '-', '*', '/', '=']) (acc : Nat) (op : OperationType) (fd : List Char) :
    evalLoop (n + 2) ⟨⟨b, opc :: (l.text ++ c :: r)⟩, acc, op, fd⟩
      = evalLoop n ⟨⟨(opc :: l.text).reverse ++ b, c :: r⟩,
          applyOperator opc acc ((l.value % 2 ^ 64).toNat), .Unknown, fd⟩ := by
  rw [evalLoop_succ, loopBody_operator opc hop]
  simp only
  rw [evalLoop_succ]
  have ht : l.text ++ c :: r = 't' :: l.code :: (l.sign ++ l.digits ++ c :: r) := by
    simp [Literal.text]
  rw [ht, loopBody_t, readValue_literal l hl _ c r hc]
  have hne := operationOf_ne opc hop
  have h0' : opc = '/' → toUint64 l.value ≠ 0 := by
    intro h
    have h1 := h0 h
    have h2 := hl.2.2.2.2
    unfold toUint64
    omega
  simp only [hne, ne_eq, not_false_eq_true, if_true,
    doSingleOperation_eq opc hop acc _ (toUint64_lt _) h0']
  simp [Literal.text, toUint64]

/-- One iteration on a well-formed literal with no pending operation loads it. -/
theorem evalLoop_first_literal (n : Nat) (l : Literal) (hl : l.WellFormed) (b : List Char)
    (c : Char) (r : List Char) (hc : c ∈ ['+', '-', '*', '/', '=']) (acc : Nat)
    (fd : List Char) :
    evalLoop (n + 1) ⟨⟨b, l.text ++ c :: r⟩, acc, .Unknown, fd⟩
      = evalLoop n ⟨⟨l.text.reverse ++ b, c :: r⟩, (l.value % 2 ^ 64).toNat, .Unknown, fd⟩ := by
  rw [evalLoop_succ]
  have ht : l.text ++ c :: r = 't' :: l.code :: (l.sign ++ l.digits ++ c :: r) := by
    simp [Literal.text]
  rw [ht, loopBody_t, readValue_literal l hl _ c r hc]
  simp [Literal.text, toUint64]

/-- What follows a literal in a chain that ends in `=`: an operator or the `=`. -/
theorem chainText_head (rest : List (Char × Literal)) (hrest : ChainWellFormed rest)
    (tail : List Char) :
    ∃ c r, chainText rest ++ '=' :: tail = c :: r ∧ c ∈ ['+', '-', '*', '/', '='] := by
  cases rest with
  | nil => exact ⟨'=', tail, rfl, by decide⟩
  | cons p ps =>
    refine ⟨p.1, p.2.text ++ chainText ps ++ '=' :: tail, by simp [chainText], ?_⟩
    have := (hrest p (List.mem_cons_self _ _)).1
    simp only [List.mem_cons, List.mem_singleton, List.not_mem_nil, or_false] at this ⊢
    tauto

/-- The loop over a well-formed chain folds it from the left. -/
theorem evalLoop_chain (rest : List (Char × Literal)) (hrest : ChainWellFormed rest)
    (tail : List Char) :
    ∀ (n : Nat) (b : List Char) (acc : Nat) (fd : List Char),
      evalLoop (2 * rest.length + n) ⟨⟨b, chainText rest ++ '=' :: tail⟩, acc, .Unknown, fd⟩
        = evalLoop n ⟨⟨(chainText rest).reverse ++ b, '=' :: tail⟩,
            rest.foldl (fun acc p => applyOperator p.1 acc ((p.2.value % 2 ^ 64).toNat)) acc,
            .Unknown, fd⟩ := by
  induction rest with
  | nil => intro n b acc fd; simp [chainText]
  | cons p ps ih =>
    intro n b acc fd
    have hp := hrest p (List.mem_cons_self _ _)
    have hps : ChainWellFormed ps := fun q hq => hrest q (List.mem_cons_of_mem _ hq)
    obtain ⟨c, r, hcr, hc⟩ := chainText_head ps hps tail
    have e1 : 2 * (p :: ps).length + n = (2 * ps.length + n) + 2 := by
      simp only [List.length_cons]; omega
    have e2 : chainText (p :: ps) ++ '=' :: tail = p.1 :: (p.2.text ++ c :: r) := by
      simp [chainText, ← hcr]
    rw [e1, e2, evalLoop_op_literal _ p.1 p.2 hp.1 hp.2.1 hp.2.2 b c r hc, ← hcr, ih hps]
    simp [chainText]

theorem loopBody_eq_d (b : List Char) (acc : Nat) (op : OperationType) (fd : List Char) :
    loopBody ⟨⟨b, ['=', 'd']⟩, acc, op, fd⟩
      = .next ⟨⟨['d', '='] ++ b, []⟩, acc, op,
          formatValue acc { defaultOutFormat with fmt := ['d'] }⟩ := rfl

theorem literal_text_no_space (l : Literal) (h : l.WellFormed) : ∀ c ∈ l.text, c ≠ ' ' := by
  obtain ⟨hcode, hsign, _, hds, _, _⟩ := h
  intro c hc
  simp only [Literal.text, List.mem_cons, List.mem_append] at hc
  rcases hc with rfl | rfl | hc | hc
  · decide
  · revert hcode; generalize l.code = x; intro hx
    simp only [List.mem_cons, List.mem_singleton, List.not_mem_nil, or_false] at hx
    rcases hx with rfl | rfl | rfl | rfl <;> decide
  · simp only [List.mem_cons, List.mem_singleton, List.not_mem_nil, or_false] at hsign
    rcases hsign with hs | hs | hs <;> rw [hs] at hc <;> simp at hc <;> subst hc <;> decide
  · have := digitAlphabet_sub l.code c (hds c hc)
    intro h
    subst h
    revert this
    decide

theorem chainText_no_space (rest : List (Char × Literal)) (hrest : ChainWellFormed rest) :
    ∀ c ∈ chainText rest, c ≠ ' ' := by
  induction rest with
  | nil => intro c hc; simp [chainText] at hc
  | cons p ps ih =>
    intro c hc
    have hp := hrest p (List.mem_cons_self _ _)
    have hps : ChainWellFormed ps := fun q hq => hrest q (List.mem_cons_of_mem _ hq)
    simp only [chainText, List.mem_cons, List.mem_append] at hc
    rcases hc with rfl | hc | hc
    · have := hp.1
      intro h
      rw [h] at this
      revert this
      decide
    · exact literal_text_no_space p.2 hp.2.1 c hc
    · exact ih hps c hc

theorem chainText_length (rest : List (Char × Literal)) :
    2 * rest.length ≤ (chainText rest).length := by
  induction rest with
  | nil => simp
  | cons p ps ih =>
    simp only [chainText, Literal.text, List.length_cons, List.length_append]
    omega

/-- C1: For every expression `t<c1><lit1> op2 t<c2><lit2> ... opk t<ck><litk> =d` whose
literals are well formed (code b, o, d or h, optional sign, non-empty digits
valid for the base, value in the signed 64-bit range), whose operators are
among `+ - * /` and in which no literal after `/` is zero, `evaluateExpr` ends
normally and the text it formats and prints is the decimal rendering of the
left fold `(((v1 op2 v2) op3 v3) ... opk vk)` in unsigned 64-bit arithmetic. -/
theorem evaluateExpr_left_fold (l1 : Literal) (rest : List (Char × Literal))
    (h1 : l1.WellFormed) (hrest : ChainWellFormed rest) :
    evaluateExpr (l1.text ++ chainText rest ++ "=d".toList)
      = .done ⟨Nat.toDigits 10 (leftFold l1 rest) ++ ['\n'], []⟩ := by
  have hfilter : (l1.text ++ chainText rest ++ "=d".toList).filter (fun c => c ≠ ' ')
      = l1.text ++ chainText rest ++ "=d".toList := by
    rw [List.filter_eq_self]
    intro c hc
    simp only [List.mem_append] at hc
    rcases hc with (hc | hc) | hc
    · simpa using literal_text_no_space l1 h1 c hc
    · simpa using chainText_no_space rest hrest c hc
    · have : c = '=' ∨ c = 'd' := by simpa using hc
      rcases this with rfl | rfl <;> decide
  obtain ⟨c, r, hcr, hc⟩ := chainText_head rest hrest ['d']
  have hlen : ∃ m, (l1.text ++ chainText rest ++ "=d".toList).length + 1
      = (2 * rest.length + (m + 2)) + 1 := by
    have := chainText_length rest
    refine ⟨(l1.text ++ chainText rest ++ "=d".toList).length - 2 * rest.length - 2, ?_⟩
    simp only [List.length_append, Literal.text, List.length_cons] at this ⊢
    simp
    omega
  obtain ⟨m, hm⟩ := hlen
  have htext : l1.text ++ chainText rest ++ "=d".toList = l1.text ++ c :: r := by
    rw [List.append_assoc, ← hcr]
    rfl
  unfold evaluateExpr initialState
  rw [hfilter, hm, htext, NewReader, evalLoop_first_literal _ l1 h1 [] c r hc, ← hcr,
    evalLoop_chain rest hrest ['d'], evalLoop_succ, loopBody_eq_d]
  simp only
  rw [evalLoop_succ, loopBody_eof]
  simp only
  rw [formatValue_decimal]
  · rfl
  · have hacc : ∀ (ps : List (Char × Literal)) (a : Nat), a < 2 ^ 64 →
        ps.foldl (fun acc p => applyOperator p.1 acc ((p.2.value % 2 ^ 64).toNat)) a < 2 ^ 64 := by
      intro ps
      induction ps with
      | nil => intro a ha; simpa using ha
      | cons p ps ih => intro a ha; exact ih _ (applyOperator_lt _ _ _ ha)
    exact hacc rest _ (toUint64_lt l1.value)

/-- The expressions `td1+td2+td3=d`, `th1A*td2=d` and `td0=d` meet the conditions of
`evaluateExpr_left_fold`, which gives the outputs 6, 52 and 0. -/
theorem evaluateExpr_left_fold_witness :
    ((Literal.mk 'd' [] ['1']).WellFormed ∧
      ChainWellFormed [('+', Literal.mk 'd' [] ['2']), ('+', Literal.mk 'd' [] ['3'])] ∧
      evaluateExpr "td1+td2+td3=d".toList = .done ⟨"6\n".toList, []⟩) ∧
    ((Literal.mk 'h' [] ['1', 'A']).WellFormed ∧
      ChainWellFormed [('*', Literal.mk 'd' [] ['2'])] ∧
      evaluateExpr "th1A*td2=d".toList = .done ⟨"52\n".toList, []⟩) ∧
    ((Literal.mk 'd' [] ['0']).WellFormed ∧ ChainWellFormed [] ∧
      evaluateExpr "td0=d".toList = .done ⟨"0\n".toList, []⟩) :=
  ⟨⟨by decide, by decide,
      evaluateExpr_left_fold (Literal.mk 'd' [] ['1'])
        [('+', Literal.mk 'd' [] ['2']), ('+', Literal.mk 'd' [] ['3'])] (by decide) (by decide)⟩,
    ⟨by decide, by decide,
      evaluateExpr_left_fold (Literal.mk 'h' [] ['1', 'A']) [('*', Literal.mk 'd' [] ['2'])]
        (by decide) (by decide)⟩,
    ⟨by decide, by decide,
      evaluateExpr_left_fold (Literal.mk 'd' [] ['0']) [] (by decide) (by decide)⟩⟩

/-! ## The example of `main` -/

/-- C2: On `td10+td20+td50=hfp16` the loop reads 10, then adds 20, then adds 50: the
accumulator is 10 after one iteration, 30 after three and 80 after five, with
`=hfp16` left to read; `evaluateExpr` then prints `0x0050` and returns the empty
string, so `main` prints that line and an empty line. -/
theorem evaluateExpr_main_example :
    (runSteps 1 (initialState "td10+td20+td50=hfp16".toList)).map
        (fun s => (s.accumulator, s.reader.after)) = some (10, "+td20+td50=hfp16".toList) ∧
    (runSteps 3 (initialState "td10+td20+td50=hfp16".toList)).map
        (fun s => (s.accumulator, s.reader.after)) = some (30, "+td50=hfp16".toList) ∧
    (runSteps 5 (initialState "td10+td20+td50=hfp16".toList)).map
        (fun s => (s.accumulator, s.reader.after)) = some (80, "=hfp16".toList) ∧
    evaluateExpr "td10+td20+td50=hfp16".toList = .done ⟨"0x0050\n".toList, []⟩ ∧
    main = .done "0x0050\n\n".toList := by
  refine ⟨by decide, by decide, by decide, by decide, by decide⟩

/-! ## Every iteration of the loop moves the reader forward -/

theorem unreadByte_content (r : Reader) : r.UnreadByte.content = r.content := by
  obtain ⟨b, a⟩ := r
  cases b with
  | nil => rfl
  | cons c b => simp [Reader.UnreadByte, Reader.content]

theorem unreadByte_after_length (r : Reader) : r.UnreadByte.after.length ≤ r.after.length + 1 := by
  obtain ⟨b, a⟩ := r
  cases b with
  | nil => simp [Reader.UnreadByte]
  | cons c b => simp [Reader.UnreadByte]

/-- The scan of `collectValue` leaves the string of the reader as it is. -/
theorem collectValueLoop_content (after : List Char) :
    ∀ (before value : List Char),
      (collectValueLoop after before value).2.content = (Reader.mk before after).content := by
  induction after with
  | nil => intro before value; simp [collectValueLoop, unreadByte_content]
  | cons c rest ih =>
    intro before value
    unfold collectValueLoop
    split_ifs
    · rfl
    · rw [ih]; simp [Reader.content]
    · rfl

/-- After the scan of `collectValue` no more is left to read than before, except
that one byte is left when the scan starts at the end of the input. -/
theorem collectValueLoop_after_length (after : List Char) :
    ∀ (before value : List Char),
      (collectValueLoop after before value).2.after.length ≤ max after.length 1 := by
  induction after with
  | nil =>
    intro before value
    have := unreadByte_after_length (Reader.mk before [])
    simpa [collectValueLoop] using this
  | cons c rest ih =>
    intro before value
    unfold collectValueLoop
    split_ifs
    · simp [unreadByte_cons]
    · have := ih (c :: before) (value ++ [c])
      simp only [List.length_cons]
      omega
    · simp [unreadByte_cons]

theorem readValue_reader (reader : Reader) (opType : List Char) :
    (readValue reader opType).2 = (collectValue reader).2 := rfl

/-- The scan of `collectOutputFmt` reads every byte up to the end of the input. -/
theorem collectOutputFmtLoop_reader (after : List Char) :
    ∀ (before : List Char) (stru : OutFormat) (bitmaskStr : List Char),
      (collectOutputFmtLoop after before stru bitmaskStr).2.2 = ⟨after.reverse ++ before, []⟩ := by
  induction after with
  | nil => intro before stru bitmaskStr; rfl
  | cons c rest ih =>
    intro before stru bitmaskStr
    unfold collectOutputFmtLoop
    split_ifs <;> simp [ih]

theorem collectOutputFmt_reader (reader : Reader) :
    (collectOutputFmt reader).2 = ⟨reader.after.reverse ++ reader.before, []⟩ := by
  unfold collectOutputFmt
  simp only
  split_ifs <;> simp [collectOutputFmtLoop_reader]

/-- The cases of one iteration of the loop, by the bytes that are left to read. -/
theorem loopBody_cases (s : LoopState) :
    (s.reader.after = [] ∧ loopBody s = .exit s) ∨
    (∃ c a, s.reader.after = c :: a ∧ c ∈ ['+', '-', '*', '/'] ∧
      loopBody s = .next { s with reader := ⟨c :: s.reader.before, a⟩,
                                  operationType := operationOf c }) ∨
    (s.reader.after = ['t'] ∧
      loopBody s = .next { s with reader := ⟨'t' :: s.reader.before, []⟩ }) ∨
    (∃ code a, s.reader.after = 't' :: code :: a ∧
      loopBody s =
        if s.operationType ≠ .Unknown then
          match doSingleOperation s.accumulator s.operationType
              (toUint64 (readValue ⟨code :: 't' :: s.reader.before, a⟩ [code]).1) with
          | .error p => .panic p
          | .ok x => .next ⟨(readValue ⟨code :: 't' :: s.reader.before, a⟩ [code]).2, x,
              .Unknown, s.formattedData⟩
        else .next ⟨(readValue ⟨code :: 't' :: s.reader.before, a⟩ [code]).2,
          toUint64 (readValue ⟨code :: 't' :: s.reader.before, a⟩ [code]).1,
          s.operationType, s.formattedData⟩) ∨
    (∃ a, s.reader.after = '=' :: a ∧
      loopBody s = .next { s with
        reader := (collectOutputFmt ⟨'=' :: s.reader.before, a⟩).2,
        formattedData :=
          formatValue s.accumulator (collectOutputFmt ⟨'=' :: s.reader.before, a⟩).1 }) ∨
    (∃ c a, s.reader.after = c :: a ∧ c ∉ ['+', '-', '*', '/', 't', '='] ∧
      loopBody s = .next { s with reader := ⟨c :: s.reader.before, a⟩ }) := by
  obtain ⟨⟨b, after⟩, acc, op, fd⟩ := s
  cases after with
  | nil => exact Or.inl ⟨rfl, rfl⟩
  | cons c a =>
    right
    by_cases h1 : c ∈ ['+', '-', '*', '/']
    · exact Or.inl ⟨c, a, rfl, h1, loopBody_operator c h1 b a acc op fd⟩
    · right
      by_cases h2 : c = 't'
      · subst h2
        cases a with
        | nil => exact Or.inl ⟨rfl, rfl⟩
        | cons code a => exact Or.inr (Or.inl ⟨code, a, rfl, loopBody_t b code a acc op fd⟩)
      · right; right
        by_cases h3 : c = '='
        · subst h3
          exact Or.inl ⟨a, rfl, rfl⟩
        · right
          refine ⟨c, a, rfl, ?_, ?_⟩
          · simp only [List.mem_cons, List.mem_singleton, List.not_mem_nil, or_false] at h1 ⊢
            tauto
          · simp only [List.mem_cons, List.mem_singleton, List.not_mem_nil, or_false,
              not_or] at h1
            unfold loopBody
            simp [readSymbolsFromStream_cons, h1.1, h1.2.1, h1.2.2.1, h1.2.2.2, h2, h3]

/-- An iteration that goes on leaves strictly less to read. -/
theorem loopBody_progress (s s1 : LoopState) (h : loopBody s = .next s1) :
    s1.reader.after.length < s.reader.after.length := by
  rcases loopBody_cases s with ⟨_, h1⟩ | ⟨c, a, ha, _, h1⟩ | ⟨ha, h1⟩ | ⟨code, a, ha, h1⟩ |
    ⟨a, ha, h1⟩ | ⟨c, a, ha, _, h1⟩
  · rw [h1] at h; cases h
  · rw [h1] at h; cases h; simp [ha]
  · rw [h1] at h; cases h; simp [ha]
  · have hlen := collectValueLoop_after_length a (code :: 't' :: s.reader.before) []
    have hr : (readValue ⟨code :: 't' :: s.reader.before, a⟩ [code]).2.after.length
        ≤ max a.length 1 := hlen
    rw [h1] at h
    split_ifs at h
    · split at h
      · cases h
      · cases h
        simp only [ha, List.length_cons]
        omega
    · cases h
      simp only [ha, List.length_cons]
      omega
  · rw [h1] at h; cases h; simp [ha, collectOutputFmt_reader]
  · rw [h1] at h; cases h; simp [ha]

/-- An iteration that goes on leaves the string of the reader as it is. -/
theorem loopBody_content (s s1 : LoopState) (h : loopBody s = .next s1) :
    s1.reader.content = s.reader.content := by
  have hc : ∀ (c : Char) (a : List Char), s.reader.after = c :: a →
      (Reader.mk (c :: s.reader.before) a).content = s.reader.content := by
    intro c a ha
    simp [Reader.content, ha]
  rcases loopBody_cases s with ⟨_, h1⟩ | ⟨c, a, ha, _, h1⟩ | ⟨ha, h1⟩ | ⟨code, a, ha, h1⟩ |
    ⟨a, ha, h1⟩ | ⟨c, a, ha, _, h1⟩
  · rw [h1] at h; cases h
  · rw [h1] at h; cases h; exact hc c a ha
  · rw [h1] at h; cases h; exact hc 't' [] ha
  · have hr : (readValue ⟨code :: 't' :: s.reader.before, a⟩ [code]).2.content
        = s.reader.content := by
      rw [readValue_reader]
      unfold collectValue
      rw [collectValueLoop_content]
      simp [Reader.content, ha]
    rw [h1] at h
    split_ifs at h
    · split at h
      · cases h
      · cases h; exact hr
    · cases h; exact hr
  · rw [h1] at h; cases h
    simp [collectOutputFmt_reader, Reader.content, ha]
  · rw [h1] at h; cases h; exact hc c a ha

/-- The loop ends within one iteration per byte left to read, and one more. -/
theorem evalLoop_total (fuel : Nat) :
    ∀ s : LoopState, s.reader.after.length < fuel → evalLoop fuel s ≠ .outOfFuel := by
  induction fuel with
  | zero => intro s h; omega
  | succ n ih =>
    intro s h
    rw [evalLoop_succ]
    cases hb : loopBody s with
    | next s1 =>
      have := loopBody_progress s s1 hb
      exact ih s1 (by omega)
    | exit s1 => simp
    | panic p => simp

/-- The result of the loop does not depend on the bound, once the bound is above
the number of bytes left to read. -/
theorem evalLoop_fuel (f1 : Nat) :
    ∀ (f2 : Nat) (s : LoopState), s.reader.after.length < f1 → s.reader.after.length < f2 →
      evalLoop f1 s = evalLoop f2 s := by
  induction f1 with
  | zero => intro f2 s h; omega
  | succ n ih =>
    intro f2 s h1 h2
    cases f2 with
    | zero => omega
    | succ m =>
      rw [evalLoop_succ, evalLoop_succ]
      cases hb : loopBody s with
      | next s1 =>
        have := loopBody_progress s s1 hb
        exact ih m s1 (by omega) (by omega)
      | exit s1 => rfl
      | panic p => rfl

/-- The loop from a state equals the loop from any state reached from it. -/
theorem evalLoop_runSteps (k : Nat) :
    ∀ (n : Nat) (s s1 : LoopState), runSteps k s = some s1 → evalLoop (k + n) s = evalLoop n s1 := by
  induction k with
  | zero => intro n s s1 h; simp [runSteps] at h; subst h; simp
  | succ k ih =>
    intro n s s1 h
    have e : k + 1 + n = (k + n) + 1 := by omega
    rw [e, evalLoop_succ]
    unfold runSteps at h
    cases hb : loopBody s with
    | next s2 => rw [hb] at h; exact ih n s2 s1 h
    | exit s2 => rw [hb] at h; cases h
    | panic p => rw [hb] at h; cases h

/-- Each iteration reads at least one byte. -/
theorem runSteps_progress (k : Nat) :
    ∀ (s s1 : LoopState), runSteps k s = some s1 →
      s1.reader.after.length + k ≤ s.reader.after.length := by
  induction k with
  | zero => intro s s1 h; simp [runSteps] at h; subst h; simp
  | succ k ih =>
    intro s s1 h
    unfold runSteps at h
    cases hb : loopBody s with
    | next s2 =>
      rw [hb] at h
      have := ih s2 s1 h
      have := loopBody_progress s s2 hb
      omega
    | exit s2 => rw [hb] at h; cases h
    | panic p => rw [hb] at h; cases h

/-! ## Division by zero -/

/-- C3 as stated fails: on `td5/td0=d` the evaluation does not end with an error
result; it is cut short by the run-time panic of the division. -/
theorem divide_by_zero_counterexample :
    evaluateExpr "td5/td0=d".toList = .panicked .integerDivideByZero := by decide

/-- C3 (amended): for every input, when the loop reaches a state in which the pending
operation is Divide and the next bytes are `t`, an operand type and a literal
that is read as 0, the evaluation is cut short by the run-time panic
"integer divide by zero": nothing is formatted or printed and nothing is
returned. -/
theorem evaluateExpr_divide_by_zero (input : List Char) (k : Nat) (s : LoopState)
    (code : Char) (rest : List Char)
    (hreach : runSteps k (initialState input) = some s)
    (hop : s.operationType = .Divide)
    (hafter : s.reader.after = 't' :: code :: rest)
    (hzero : toUint64 (readValue ⟨code :: 't' :: s.reader.before, rest⟩ [code]).1 = 0) :
    evaluateExpr input = .panicked .integerDivideByZero := by
  have hp := runSteps_progress k _ _ hreach
  have hlen : (initialState input).reader.after.length
      = (input.filter (fun c => c ≠ ' ')).length := rfl
  rw [hafter, hlen] at hp
  simp only [List.length_cons] at hp
  obtain ⟨n, hn⟩ : ∃ n, (input.filter (fun c => c ≠ ' ')).length + 1 = k + (n + 1) :=
    ⟨(input.filter (fun c => c ≠ ' ')).length - k, by omega⟩
  unfold evaluateExpr
  rw [hn, evalLoop_runSteps k (n + 1) _ s hreach, evalLoop_succ]
  obtain ⟨⟨b, after⟩, acc, op, fd⟩ := s
  simp only at hop hafter hzero
  subst hop hafter
  rw [loopBody_t]
  simp [hzero, doSingleOperation]

/-- On `td5/td0=d` the loop reaches, after two iterations, a state that meets the
conditions of `evaluateExpr_divide_by_zero`. -/
theorem evaluateExpr_divide_by_zero_witness :
    runSteps 2 (initialState "td5/td0=d".toList)
        = some ⟨⟨"/5dt".toList, "td0=d".toList⟩, 5, .Divide, []⟩ ∧
    toUint64 (readValue ⟨'d' :: 't' :: "/5dt".toList, "0=d".toList⟩ ['d']).1 = 0 ∧
    evaluateExpr "td5/td0=d".toList = .panicked .integerDivideByZero :=
  ⟨by decide, by decide,
    evaluateExpr_divide_by_zero "td5/td0=d".toList 2
      ⟨⟨"/5dt".toList, "td0=d".toList⟩, 5, .Divide, []⟩ 'd' "0=d".toList
      (by decide) rfl rfl (by decide)⟩

/-! ## Input without `=` -/

theorem loopBody_exit (s s1 : LoopState) (h : loopBody s = .exit s1) : s1 = s := by
  rcases loopBody_cases s with ⟨_, h1⟩ | ⟨c, a, ha, _, h1⟩ | ⟨ha, h1⟩ | ⟨code, a, ha, h1⟩ |
    ⟨a, ha, h1⟩ | ⟨c, a, ha, _, h1⟩
  · rw [h1] at h; cases h; rfl
  · rw [h1] at h; cases h
  · rw [h1] at h; cases h
  · rw [h1] at h
    split_ifs at h
    split at h <;> cases h
  · rw [h1] at h; cases h
  · rw [h1] at h; cases h

/-- An iteration panics only when the pending operation is Divide. -/
theorem loopBody_panic (s : LoopState) (p : Panic) (h : loopBody s = .panic p) :
    s.operationType = .Divide := by
  rcases loopBody_cases s with ⟨_, h1⟩ | ⟨c, a, ha, _, h1⟩ | ⟨ha, h1⟩ | ⟨code, a, ha, h1⟩ |
    ⟨a, ha, h1⟩ | ⟨c, a, ha, _, h1⟩
  · rw [h1] at h; cases h
  · rw [h1] at h; cases h
  · rw [h1] at h; cases h
  · rw [h1] at h
    split_ifs at h
    · cases hop : s.operationType with
      | Divide => rfl
      | Unknown => rw [hop] at h; simp [doSingleOperation] at h
      | Add => rw [hop] at h; simp [doSingleOperation] at h
      | Subtract => rw [hop] at h; simp [doSingleOperation] at h
      | Multiply => rw [hop] at h; simp [doSingleOperation] at h
  · rw [h1] at h; cases h
  · rw [h1] at h; cases h

/-- An iteration that does not read `=` leaves `formattedData` as it is. -/
theorem loopBody_formattedData (s s1 : LoopState) (h : loopBody s = .next s1)
    (hno : '=' ∉ s.reader.after) : s1.formattedData = s.formattedData := by
  rcases loopBody_cases s with ⟨_, h1⟩ | ⟨c, a, ha, _, h1⟩ | ⟨ha, h1⟩ | ⟨code, a, ha, h1⟩ |
    ⟨a, ha, h1⟩ | ⟨c, a, ha, _, h1⟩
  · rw [h1] at h; cases h
  · rw [h1] at h; cases h; rfl
  · rw [h1] at h; cases h; rfl
  · rw [h1] at h
    split_ifs at h
    · split at h
      · cases h
      · cases h; rfl
    · cases h; rfl
  · rw [ha] at hno; simp at hno
  · rw [h1] at h; cases h; rfl

/-- An iteration that does not read `/` does not make Divide the pending
operation. -/
theorem loopBody_not_divide (s s1 : LoopState) (h : loopBody s = .next s1)
    (hno : '/' ∉ s.reader.after) (hop : s.operationType ≠ .Divide) :
    s1.operationType ≠ .Divide := by
  rcases loopBody_cases s with ⟨_, h1⟩ | ⟨c, a, ha, hc, h1⟩ | ⟨ha, h1⟩ | ⟨code, a, ha, h1⟩ |
    ⟨a, ha, h1⟩ | ⟨c, a, ha, _, h1⟩
  · rw [h1] at h; cases h
  · rw [h1] at h; cases h
    have hc2 : c ≠ '/' := by
      intro e; rw [ha, e] at hno; simp at hno
    simp only [List.mem_cons, List.mem_singleton, List.not_mem_nil, or_false] at hc
    rcases hc with rfl | rfl | rfl | rfl
    · show operationOf '+' ≠ .Divide
      decide
    · show operationOf '-' ≠ .Divide
      decide
    · show operationOf '*' ≠ .Divide
      decide
    · exact absurd rfl hc2
  · rw [h1] at h; cases h; exact hop
  · rw [h1] at h
    split_ifs at h
    · split at h
      · cases h
      · cases h; simp
    · cases h; exact hop
  · rw [h1] at h; cases h; exact hop
  · rw [h1] at h; cases h; exact hop

theorem mem_content_of_mem_after (r : Reader) (c : Char) (h : c ∈ r.after) : c ∈ r.content := by
  simp [Reader.content, h]

/-- While the string of the reader has no `=`, the loop formats nothing: it ends
with `formattedData` as it was, or it panics. -/
theorem evalLoop_no_eq (fuel : Nat) :
    ∀ s : LoopState, '=' ∉ s.reader.content → s.reader.after.length < fuel →
      (∃ s1, evalLoop fuel s = .done s1 ∧ s1.formattedData = s.formattedData) ∨
        evalLoop fuel s = .panicked .integerDivideByZero := by
  induction fuel with
  | zero => intro s _ h; omega
  | succ n ih =>
    intro s hno hlen
    rw [evalLoop_succ]
    cases hb : loopBody s with
    | next s1 =>
      have h1 := loopBody_progress s s1 hb
      have h2 := loopBody_content s s1 hb
      have h3 := loopBody_formattedData s s1 hb
        (fun h => hno (mem_content_of_mem_after _ _ h))
      simp only
      rcases ih s1 (by rw [h2]; exact hno) (by omega) with ⟨s2, e, hfd⟩ | e
      · exact Or.inl ⟨s2, e, by rw [hfd, h3]⟩
      · exact Or.inr e
    | exit s1 =>
      have := loopBody_exit s s1 hb
      subst this
      exact Or.inl ⟨s1, rfl, rfl⟩
    | panic p =>
      cases p
      exact Or.inr rfl

/-- While the string of the reader has neither `=` nor `/` and the pending operation
is not Divide, the loop ends normally with `formattedData` as it was. -/
theorem evalLoop_no_eq_no_div (fuel : Nat) :
    ∀ s : LoopState, '=' ∉ s.reader.content → '/' ∉ s.reader.content →
      s.operationType ≠ .Divide → s.reader.after.length < fuel →
      ∃ s1, evalLoop fuel s = .done s1 ∧ s1.formattedData = s.formattedData := by
  induction fuel with
  | zero => intro s _ _ _ h; omega
  | succ n ih =>
    intro s hno hnd hop hlen
    rw [evalLoop_succ]
    cases hb : loopBody s with
    | next s1 =>
      have h1 := loopBody_progress s s1 hb
      have h2 := loopBody_content s s1 hb
      have h3 := loopBody_formattedData s s1 hb
        (fun h => hno (mem_content_of_mem_after _ _ h))
      have h4 := loopBody_not_divide s s1 hb
        (fun h => hnd (mem_content_of_mem_after _ _ h)) hop
      simp only
      obtain ⟨s2, e, hfd⟩ := ih s1 (by rw [h2]; exact hno) (by rw [h2]; exact hnd) h4 (by omega)
      exact ⟨s2, e, by rw [hfd, h3]⟩
    | exit s1 =>
      have := loopBody_exit s s1 hb
      subst this
      exact ⟨s1, rfl, rfl⟩
    | panic p => exact absurd (loopBody_panic s p hb) hop

/-- An iteration panics only when the pending operation is Divide and the next
bytes are `t`, an operand type and a literal that is read as 0. -/
theorem loopBody_panic_state (s : LoopState) (p : Panic) (h : loopBody s = .panic p) :
    s.operationType = .Divide ∧ ∃ code rest, s.reader.after = 't' :: code :: rest ∧
      toUint64 (readValue ⟨code :: 't' :: s.reader.before, rest⟩ [code]).1 = 0 := by
  have hop := loopBody_panic s p h
  refine ⟨hop, ?_⟩
  rcases loopBody_cases s with ⟨_, h1⟩ | ⟨c, a, ha, _, h1⟩ | ⟨ha, h1⟩ | ⟨code, a, ha, h1⟩ |
    ⟨a, ha, h1⟩ | ⟨c, a, ha, _, h1⟩
  · rw [h1] at h; cases h
  · rw [h1] at h; cases h
  · rw [h1] at h; cases h
  · refine ⟨code, a, ha, ?_⟩
    by_contra hz
    rw [h1, hop] at h
    simp [doSingleOperation, hz] at h
  · rw [h1] at h; cases h
  · rw [h1] at h; cases h

/-- A loop that panics has reached, after some iterations, a state whose
iteration panics. -/
theorem evalLoop_panicked (fuel : Nat) :
    ∀ (s : LoopState) (p : Panic), evalLoop fuel s = .panicked p →
      ∃ k s1, runSteps k s = some s1 ∧ loopBody s1 = .panic p := by
  induction fuel with
  | zero => intro s p h; simp [evalLoop] at h
  | succ n ih =>
    intro s p h
    rw [evalLoop_succ] at h
    cases hb : loopBody s with
    | next s1 =>
      rw [hb] at h
      obtain ⟨k, s2, hk, hp⟩ := ih s1 p h
      exact ⟨k + 1, s2, by simp [runSteps, hb, hk], hp⟩
    | exit s1 => rw [hb] at h; cases h
    | panic q =>
      rw [hb] at h
      cases h
      exact ⟨0, s, rfl, hb⟩

/-- An evaluation whose loop comes to apply a pending Divide to a literal read as
0 is cut short by the panic. -/
theorem panicked_of_dividesByZero (input : List Char) (h : DividesByZero input) :
    evaluateExpr input = .panicked .integerDivideByZero := by
  obtain ⟨k, s, code, rest, hreach, hop, hafter, hzero⟩ := h
  have hp := runSteps_progress k _ _ hreach
  have hlen : (initialState input).reader.after.length
      = (input.filter (fun c => c ≠ ' ')).length := rfl
  rw [hafter, hlen] at hp
  simp only [List.length_cons] at hp
  obtain ⟨n, hn⟩ : ∃ n, (input.filter (fun c => c ≠ ' ')).length + 1 = k + (n + 1) :=
    ⟨(input.filter (fun c => c ≠ ' ')).length - k, by omega⟩
  unfold evaluateExpr
  rw [hn, evalLoop_runSteps k (n + 1) _ s hreach, evalLoop_succ]
  obtain ⟨⟨b, after⟩, acc, op, fd⟩ := s
  simp only at hop hafter hzero
  subst hop hafter
  rw [loopBody_t]
  simp [hzero, doSingleOperation]

/-- An evaluation that is cut short by the panic has come to apply a pending
Divide to a literal read as 0. -/
theorem dividesByZero_of_panicked (input : List Char)
    (h : evaluateExpr input = .panicked .integerDivideByZero) : DividesByZero input := by
  unfold evaluateExpr at h
  cases e : evalLoop ((input.filter (fun c => c ≠ ' ')).length + 1) (initialState input) with
  | done s => rw [e] at h; cases h
  | outOfFuel => rw [e] at h; cases h
  | panicked p =>
    obtain ⟨k, s1, hk, hp⟩ := evalLoop_panicked _ _ _ e
    obtain ⟨hop, code, rest, ha, hz⟩ := loopBody_panic_state s1 p hp
    exact ⟨k, s1, code, rest, hk, hop, ha, hz⟩

/-- The loop of `td6/td2` never applies a pending Divide to a literal read as 0:
the one Divide that it applies is to the literal `2`, and no later state has
an operation pending. -/
theorem not_dividesByZero_td6_td2 : ¬ DividesByZero "td6/td2".toList := by
  rintro ⟨k, s, code, rest, hr, hop, ha, hz⟩
  have hk := runSteps_progress k _ _ hr
  have hlen : (initialState "td6/td2".toList).reader.after.length = 7 := by decide
  rw [ha, hlen] at hk
  simp only [List.length_cons] at hk
  have hk5 : k ≤ 5 := by omega
  interval_cases k
  · have e : runSteps 0 (initialState "td6/td2".toList)
        = some ⟨⟨[], "td6/td2".toList⟩, 0, .Unknown, []⟩ := by decide
    rw [e] at hr; cases hr; cases hop
  · have e : runSteps 1 (initialState "td6/td2".toList)
        = some ⟨⟨"6dt".toList, "/td2".toList⟩, 6, .Unknown, []⟩ := by decide
    rw [e] at hr; cases hr; cases hop
  · have e : runSteps 2 (initialState "td6/td2".toList)
        = some ⟨⟨"/6dt".toList, "td2".toList⟩, 6, .Divide, []⟩ := by decide
    rw [e] at hr; cases hr
    cases ha
    exact absurd hz (by decide)
  · have e : runSteps 3 (initialState "td6/td2".toList)
        = some ⟨⟨"dt/6dt".toList, "2".toList⟩, 3, .Unknown, []⟩ := by decide
    rw [e] at hr; cases hr; cases hop
  · have e : runSteps 4 (initialState "td6/td2".toList)
        = some ⟨⟨"2dt/6dt".toList, []⟩, 3, .Unknown, []⟩ := by decide
    rw [e] at hr; cases hr; cases hop
  · have e : runSteps 5 (initialState "td6/td2".toList) = none := by decide
    rw [e] at hr; cases hr

/-- C5 as stated fails: `td5/td0` has no `=`, and its evaluation does not end
normally; it panics. -/
theorem no_eq_counterexample :
    '=' ∉ "td5/td0".toList ∧
      evaluateExpr "td5/td0".toList = .panicked .integerDivideByZero := by decide

/-- C5 (amended): for every input without `=`, the evaluation formats nothing and
ends normally, printing an empty line and returning the empty string, except
exactly when the loop comes to apply a pending Divide to a literal read as 0
(`DividesByZero`): then, and only then, it is cut short by the divide-by-zero
panic.  In particular an input without `=` and without `/` ends normally. -/
theorem evaluateExpr_no_eq (input : List Char) (h : '=' ∉ input) :
    (evaluateExpr input = .panicked .integerDivideByZero ↔ DividesByZero input) ∧
      (evaluateExpr input = .done ⟨['\n'], []⟩ ↔ ¬ DividesByZero input) ∧
      ('/' ∉ input → evaluateExpr input = .done ⟨['\n'], []⟩) := by
  have hc : ∀ c, c ∉ input → c ∉ (initialState input).reader.content := by
    intro c hc hmem
    simp only [initialState, NewReader, Reader.content, List.reverse_nil, List.nil_append,
      List.mem_filter] at hmem
    exact hc hmem.1
  have hlen : (initialState input).reader.after.length
      < (input.filter (fun c => c ≠ ' ')).length + 1 := by
    simp [initialState, NewReader]
  have hA : evaluateExpr input = .done ⟨['\n'], []⟩ ∨
      evaluateExpr input = .panicked .integerDivideByZero := by
    rcases evalLoop_no_eq _ (initialState input) (hc _ h) hlen with ⟨s1, e, hfd⟩ | e
    · left
      unfold evaluateExpr
      rw [e]
      simp only [hfd]
      rfl
    · right
      unfold evaluateExpr
      rw [e]
  refine ⟨⟨dividesByZero_of_panicked input, panicked_of_dividesByZero input⟩, ⟨?_, ?_⟩, ?_⟩
  · intro hd hz
    rw [panicked_of_dividesByZero input hz] at hd
    cases hd
  · intro hn
    exact hA.resolve_right (fun hp => hn (dividesByZero_of_panicked input hp))
  · intro hd
    obtain ⟨s1, e, hfd⟩ := evalLoop_no_eq_no_div _ (initialState input) (hc _ h) (hc _ hd)
      (by simp [initialState]) hlen
    unfold evaluateExpr
    rw [e]
    simp only [hfd]
    rfl

/-- The input `td6/td2` has no `=`: its loop applies the pending Divide to a literal
read as 2 and never to one read as 0, so by `evaluateExpr_no_eq` it ends
normally with an empty line; the loop of `td5/td0`, which has no `=` either,
panics, so by the same theorem it applies a pending Divide to a literal read
as 0; `td5+td7` has neither `=` nor `/` and ends normally. -/
theorem evaluateExpr_no_eq_witness :
    ('=' ∉ "td6/td2".toList ∧ ¬ DividesByZero "td6/td2".toList ∧
      evaluateExpr "td6/td2".toList = .done ⟨['\n'], []⟩) ∧
    ('=' ∉ "td5/td0".toList ∧ DividesByZero "td5/td0".toList) ∧
    ('=' ∉ "td5+td7".toList ∧ '/' ∉ "td5+td7".toList ∧
      evaluateExpr "td5+td7".toList = .done ⟨['\n'], []⟩) :=
  ⟨⟨by decide, not_dividesByZero_td6_td2,
      (evaluateExpr_no_eq "td6/td2".toList (by decide)).2.1.mpr not_dividesByZero_td6_td2⟩,
    ⟨by decide, (evaluateExpr_no_eq "td5/td0".toList (by decide)).1.mp (by decide)⟩,
    ⟨by decide, by decide, (evaluateExpr_no_eq "td5+td7".toList (by decide)).2.2 (by decide)⟩⟩

/-! ## The format reader -/

/-- The loop of `collectOutputFmt` folds `specFormatStep` over the bytes left to
read, collects their decimal digits, and reads to the end. -/
theorem collectOutputFmtLoop_eq (after : List Char) :
    ∀ (before : List Char) (stru : OutFormat) (bitmaskStr : List Char),
      collectOutputFmtLoop after before stru bitmaskStr
        = (after.foldl specFormatStep stru, bitmaskStr ++ after.filter isDecimalDigit,
            ⟨after.reverse ++ before, []⟩) := by
  induction after with
  | nil => intro before stru bitmaskStr; simp [collectOutputFmtLoop]
  | cons c rest ih =>
    intro before stru bitmaskStr
    unfold collectOutputFmtLoop
    simp only [List.foldl_cons, List.filter_cons, List.reverse_cons, List.append_assoc,
      List.singleton_append]
    by_cases hb : c = 'b'
    · subst hb; simp [ih, specFormatStep, isDecimalDigit]
    by_cases ho : c = 'o'
    · subst ho; simp [ih, specFormatStep, isDecimalDigit]
    by_cases hd : c = 'd'
    · subst hd; simp [ih, specFormatStep, isDecimalDigit]
    by_cases hh : c = 'h'
    · subst hh; simp [ih, specFormatStep, isDecimalDigit]
    by_cases hs : c = 's'
    · subst hs; simp [ih, specFormatStep, isDecimalDigit]
    by_cases hf : c = 'f'
    · subst hf; simp [ih, specFormatStep, isDecimalDigit]
    by_cases hc : c = 'c'
    · subst hc; simp [ih, specFormatStep, isDecimalDigit]
    by_cases hp : c = 'p'
    · subst hp; simp [ih, specFormatStep, isDecimalDigit]
    have hstep : specFormatStep stru c = stru := by
      simp [specFormatStep, hb, ho, hd, hh, hs, hf, hc, hp]
    simp only [hb, ho, hd, hh, hs, hf, hc, hp, if_false, hstep]
    by_cases hdig : c ∈ ['0', '1', '2', '3', '4', '5', '6', '7', '8', '9']
    · have h1 : isDecimalDigit c = true := by
        simpa [isDecimalDigit] using hdig
      simp only [hdig, if_true, h1, ih]
      simp
    · have h1 : isDecimalDigit c = false := by
        simpa [isDecimalDigit] using hdig
      simp only [hdig, if_false, h1, ih]
      simp

theorem decimalDigit_facts :
    ∀ c ∈ "0123456789".toList,
      (digitVal c = some (digitValue c) ∧ digitValue c < 10) ∧ c ≠ '+' ∧ c ≠ '-' := by
  decide

theorem mem_filter_decimalDigit (s : List Char) (c : Char)
    (h : c ∈ s.filter isDecimalDigit) : c ∈ "0123456789".toList := by
  have := (List.mem_filter.1 h).2
  simpa [isDecimalDigit] using this

/-- The value `ParseInt` returns for a string that does not start with `-` is
between 0 and `2 ^ 63 - 1`, whatever the error. -/
theorem ParseInt_range (s : List Char) (base : Nat) (h : ∀ t, s ≠ '-' :: t) :
    0 ≤ (ParseInt s base).1 ∧ (ParseInt s base).1 < 2 ^ 63 := by
  cases s with
  | nil => simp [ParseInt]
  | cons c t =>
    have hc : c ≠ '-' := by
      intro e
      exact h t (by rw [e])
    unfold ParseInt
    simp only [hc, decide_False, Bool.not_false, Bool.false_eq_true, false_and, if_false,
      true_and, or_false]
    generalize ParseUint (if c = '+' then t else c :: t) base = r
    by_cases h1 : r.2 = some .ErrSyntax
    · simp [h1]
    · by_cases h2 : r.1 ≥ 2 ^ 63
      · simp only [h1, h2, if_false, if_true]
        omega
      · simp only [h1, h2, if_false]
        omega

theorem foldl_specFormatStep_width (l : List Char) :
    ∀ f : OutFormat, (l.foldl specFormatStep f).bitmaskWidth = f.bitmaskWidth := by
  induction l with
  | nil => intro f; rfl
  | cons c l ih =>
    intro f
    rw [List.foldl_cons, ih]
    unfold specFormatStep
    split_ifs <;> rfl

theorem outFormat_width_eta (f : OutFormat) (w : Nat) (h : f.bitmaskWidth = w) :
    { f with bitmaskWidth := w } = f := by
  cases f
  simp_all

/-- C9: For every directive `s`, `collectOutputFmt` reads all of `s`, up to the end of
the input, and returns the format that the specification gives `s`: the fold
of the per-character updates from the default format, with the bit width the
decimal value of the digits of `s` in order (64 without digits), provided that
value fits a signed 64-bit integer. -/
theorem collectOutputFmt_spec (before s : List Char)
    (h : digitsValue 10 (s.filter isDecimalDigit) < 2 ^ 63) :
    collectOutputFmt ⟨before, s⟩ = (specOutFormat s, ⟨s.reverse ++ before, []⟩) := by
  unfold collectOutputFmt specOutFormat specBitWidth
  simp only [collectOutputFmtLoop_eq, List.nil_append]
  by_cases hd : s.filter isDecimalDigit = []
  · simp only [hd, ne_eq, not_true_eq_false, if_false, if_true]
    rw [outFormat_width_eta _ 64 (foldl_specFormatStep_width s defaultOutFormat)]
  · have hp := ParseInt_unsigned 10 (by norm_num) (s.filter isDecimalDigit) hd
      (fun c hc => (decimalDigit_facts c (mem_filter_decimalDigit s c hc)).1)
      (fun c hc => (decimalDigit_facts c (mem_filter_decimalDigit s c hc)).2) h
    simp only [hd, ne_eq, not_false_eq_true, if_true, if_false, hp]
    have : toUint64 ((digitsValue 10 (s.filter isDecimalDigit) : Nat) : Int)
        = digitsValue 10 (s.filter isDecimalDigit) := by
      unfold toUint64
      omega
    rw [this]

/-- The directive `hfp16` meets the condition of `collectOutputFmt_spec`: it is read
whole and gives upper-case hexadecimal, prefix `0x`, padding, the verbose flag
and width 16. -/
theorem collectOutputFmt_spec_witness :
    digitsValue 10 ("hfp16".toList.filter isDecimalDigit) < 2 ^ 63 ∧
    collectOutputFmt ⟨[], "hfp16".toList⟩
      = (specOutFormat "hfp16".toList, ⟨"hfp16".toList.reverse ++ [], []⟩) ∧
    specOutFormat "hfp16".toList = ⟨['0', 'x'], true, ['X'], false, true, false, 16⟩ :=
  ⟨by decide, collectOutputFmt_spec [] "hfp16".toList (by decide), by decide⟩

/-- The fields of the format that `collectOutputFmt` returns, for any directive:
all but the width are those of the fold, and the width is below `2 ^ 63`. -/
theorem collectOutputFmt_fields (before s : List Char) :
    (collectOutputFmt ⟨before, s⟩).1.prefixStr = (s.foldl specFormatStep defaultOutFormat).prefixStr ∧
    (collectOutputFmt ⟨before, s⟩).1.fmt = (s.foldl specFormatStep defaultOutFormat).fmt ∧
    (collectOutputFmt ⟨before, s⟩).1.padding = (s.foldl specFormatStep defaultOutFormat).padding ∧
    (collectOutputFmt ⟨before, s⟩).1.bitmaskWidth < 2 ^ 63 := by
  have hw : (s.foldl specFormatStep defaultOutFormat).bitmaskWidth = 64 :=
    foldl_specFormatStep_width s defaultOutFormat
  unfold collectOutputFmt
  simp only [collectOutputFmtLoop_eq, List.nil_append]
  by_cases hd : s.filter isDecimalDigit = []
  · simp [hd, hw]
  · simp only [hd, ne_eq, not_false_eq_true, if_true, true_and]
    have hr := ParseInt_range (s.filter isDecimalDigit) 10 (by
      intro t e
      have := mem_filter_decimalDigit s '-' (by rw [e]; exact List.mem_cons_self _ _)
      revert this
      decide)
    unfold toUint64
    omega

/-! ## A directive without a base -/

theorem foldl_specFormatStep_no_base (s : List Char) (h : ∀ c ∈ s, c ∉ ['b', 'o', 'd', 'h']) :
    ∀ f : OutFormat, (s.foldl specFormatStep f).fmt = f.fmt ∧
      (s.foldl specFormatStep f).prefixStr = f.prefixStr := by
  induction s with
  | nil => intro f; exact ⟨rfl, rfl⟩
  | cons c s ih =>
    intro f
    have hc := h c (List.mem_cons_self _ _)
    simp only [List.mem_cons, List.mem_singleton, List.not_mem_nil, or_false, not_or] at hc
    rw [List.foldl_cons]
    have := ih (fun c hc => h c (List.mem_cons_of_mem _ hc)) (specFormatStep f c)
    rw [this.1, this.2]
    unfold specFormatStep
    simp only [hc.1, hc.2.1, hc.2.2.1, hc.2.2.2, if_false]
    split_ifs <;> exact ⟨rfl, rfl⟩

set_option maxRecDepth 4000 in
/-- C4 as stated fails: the empty directive of `td80=` gives no error; the call of
`Sprintf` with the format `%` renders a text, which is printed. -/
theorem no_base_counterexample :
    evaluateExpr "td80=".toList = .done ⟨"%!(NOVERB)%!(EXTRA uint64=80)\n".toList, []⟩ ∧
    evaluateExpr "td80=p16".toList = .done ⟨"%!(NOVERB)%!(EXTRA uint64=80)\n".toList, []⟩ := by
  decide

/-- C4 (amended): for every directive without any of b, o, d, h, formatting the
accumulator gives no error: the format string is `%` alone and the text is
`%!(NOVERB)%!(EXTRA uint64=N)`, with N the decimal digits of the accumulator
cut to the bit width of the directive. -/
theorem formatValue_no_base (before s : List Char) (acc : Nat)
    (h : ∀ c ∈ s, c ∉ ['b', 'o', 'd', 'h']) :
    formatValue acc (collectOutputFmt ⟨before, s⟩).1
      = "%!(NOVERB)%!(EXTRA uint64=".toList
        ++ Nat.toDigits 10 (acc % 2 ^ min (collectOutputFmt ⟨before, s⟩).1.bitmaskWidth 64)
        ++ [')'] := by
  obtain ⟨hp, hf, _, hw⟩ := collectOutputFmt_fields before s
  obtain ⟨h1, h2⟩ := foldl_specFormatStep_no_base s h defaultOutFormat
  rw [h1] at hf
  rw [h2] at hp
  unfold formatValue
  simp only [bitmask_of_width _ hw, Nat.and_pow_two_sub_one_eq_mod, hf, hp]
  simp [defaultOutFormat, Sprintf, doPrintf, extraArg, fmtInteger, fmtDigits_ten, Nat.toDigits]

/-- The directive `p16` has no base character; by `formatValue_no_base` the
accumulator 80 is rendered as the text `%!(NOVERB)%!(EXTRA uint64=80)`. -/
theorem formatValue_no_base_witness :
    (∀ c ∈ "p16".toList, c ∉ ['b', 'o', 'd', 'h']) ∧
    formatValue 80 (collectOutputFmt ⟨[], "p16".toList⟩).1
      = "%!(NOVERB)%!(EXTRA uint64=80)".toList :=
  ⟨by decide, formatValue_no_base [] "p16".toList 80 (by decide)⟩

/-! ## Masking and padding -/

/-- For a width below `2 ^ 63` the number that `formatValue` renders is the input
cut to its low `min W 64` bits. -/
theorem formatValue_mask (V : Nat) (cfg : OutFormat) (hW : cfg.bitmaskWidth < 2 ^ 63) :
    formatValue V cfg
      = Sprintf (cfg.prefixStr ++ "%".toList
          ++ (if cfg.padding then
                if cfg.fmt = ['b'] then '0' :: Sprintf "%d".toList cfg.bitmaskWidth
                else if cfg.fmt = ['o'] then '0' :: Sprintf "%d".toList cfg.bitmaskWidth
                else if cfg.fmt = ['d'] then '0' :: Sprintf "%d".toList cfg.bitmaskWidth
                else if cfg.fmt = ['X'] then '0' :: Sprintf "%d".toList (cfg.bitmaskWidth / 4)
                else []
              else [])
          ++ cfg.fmt) (V % 2 ^ min cfg.bitmaskWidth 64) := by
  unfold formatValue
  simp only [bitmask_of_width _ hW, Nat.and_pow_two_sub_one_eq_mod]

/-- C6: for every value V and every format `cfg` that `formatValue` is given, that
is every format that `collectOutputFmt` builds from a directive, the width W
of `cfg` is below `2 ^ 63`, the mask built by the loop has exactly the low
`min W 64` bits set (the full register when W is 64 or more), the number that
`formatValue` hands to `Sprintf` is V AND that mask, and for W up to 64 that
number does not exceed `2 ^ W - 1`. -/
theorem formatValue_masks (V : Nat) (before s : List Char) (cfg : OutFormat)
    (hcfg : cfg = (collectOutputFmt ⟨before, s⟩).1) :
    cfg.bitmaskWidth < 2 ^ 63 ∧
    bitmaskLoop (toInt64 cfg.bitmaskWidth).toNat 0 0 = 2 ^ min cfg.bitmaskWidth 64 - 1 ∧
    formatValue V cfg
      = Sprintf (cfg.prefixStr ++ "%".toList
          ++ (if cfg.padding then
                if cfg.fmt = ['b'] then '0' :: Sprintf "%d".toList cfg.bitmaskWidth
                else if cfg.fmt = ['o'] then '0' :: Sprintf "%d".toList cfg.bitmaskWidth
                else if cfg.fmt = ['d'] then '0' :: Sprintf "%d".toList cfg.bitmaskWidth
                else if cfg.fmt = ['X'] then '0' :: Sprintf "%d".toList (cfg.bitmaskWidth / 4)
                else []
              else [])
          ++ cfg.fmt) (V &&& (2 ^ min cfg.bitmaskWidth 64 - 1)) ∧
    (cfg.bitmaskWidth ≤ 64 →
      V &&& (2 ^ min cfg.bitmaskWidth 64 - 1) ≤ 2 ^ cfg.bitmaskWidth - 1) := by
  have hW : cfg.bitmaskWidth < 2 ^ 63 := by
    rw [hcfg]
    exact (collectOutputFmt_fields before s).2.2.2
  refine ⟨hW, bitmask_of_width _ hW, ?_, ?_⟩
  · unfold formatValue
    simp only [bitmask_of_width _ hW]
  · intro h64
    rw [Nat.min_eq_left h64]
    exact Nat.and_le_right

set_option maxRecDepth 8000 in
/-- The directive `d4` gives the width 4: by `formatValue_masks` the mask is 15 and
the value 255 is rendered as 15; the directive `d` keeps the width 64 and
the value is rendered whole. -/
theorem formatValue_masks_witness :
    ((collectOutputFmt ⟨[], "d4".toList⟩).1.bitmaskWidth = 4 ∧
      bitmaskLoop (toInt64 (collectOutputFmt ⟨[], "d4".toList⟩).1.bitmaskWidth).toNat 0 0 = 15 ∧
      formatValue 255 (collectOutputFmt ⟨[], "d4".toList⟩).1 = "15".toList) ∧
    ((collectOutputFmt ⟨[], "d".toList⟩).1.bitmaskWidth = 64 ∧
      bitmaskLoop (toInt64 (collectOutputFmt ⟨[], "d".toList⟩).1.bitmaskWidth).toNat 0 0
        = 2 ^ 64 - 1 ∧
      formatValue 255 (collectOutputFmt ⟨[], "d".toList⟩).1 = "255".toList) := by
  have h4 : (collectOutputFmt ⟨[], "d4".toList⟩).1.bitmaskWidth = 4 := by decide
  have h64 : (collectOutputFmt ⟨[], "d".toList⟩).1.bitmaskWidth = 64 := by decide
  obtain ⟨_, m1, f1, _⟩ := formatValue_masks 255 [] "d4".toList _ rfl
  obtain ⟨_, m2, f2, _⟩ := formatValue_masks 255 [] "d".toList _ rfl
  refine ⟨⟨h4, ?_, ?_⟩, ⟨h64, ?_, ?_⟩⟩
  · rw [m1, h4]; rfl
  · rw [f1]; decide
  · rw [m2, h64]; rfl
  · rw [f2]; decide

/-- A format that `collectOutputFmt` does not build: with the width `2 ^ 63`, which
is negative as an `int64`, the mask loop does not run, the mask is 0 and the
value 5 is rendered as 0. -/
theorem formatValue_width_overflow :
    formatValue 5 { defaultOutFormat with fmt := ['d'], bitmaskWidth := 2 ^ 63 } = ['0'] ∧
    5 &&& (2 ^ min (2 ^ 63) 64 - 1) = 5 := by
  decide

theorem udigits_hexDigitUpper (d : Nat) (h : d < 16) :
    udigits.getD d '0' = hexDigitUpper d := by
  interval_cases d <;> rfl

theorem digitValue_hexDigitUpper (d : Nat) (h : d < 16) : digitValue (hexDigitUpper d) = d := by
  interval_cases d <;> rfl

/-- The four upper-case hexadecimal digits of a number below `2 ^ 16`, as
`fmtInteger` writes them with the flag `0` and the width 4. -/
theorem fmtInteger_hex4 (v : Nat) (hv : v < 65536) :
    fmtInteger true true 4 v 16 udigits
      = [hexDigitUpper (v / 4096), hexDigitUpper (v / 256 % 16), hexDigitUpper (v / 16 % 16),
          hexDigitUpper (v % 16)] := by
  unfold fmtInteger
  rcases Nat.lt_or_ge v 16 with h1 | h1
  · rw [fmtDigits_lt _ _ _ _ h1]
    have e1 : v / 4096 = 0 := by omega
    have e2 : v / 256 % 16 = 0 := by omega
    have e3 : v / 16 % 16 = 0 := by omega
    have e4 : v % 16 = v := by omega
    rw [e1, e2, e3, e4, udigits_hexDigitUpper _ h1]
    rfl
  · rw [fmtDigits_ge _ (by norm_num) _ _ _ h1]
    rcases Nat.lt_or_ge (v / 16) 16 with h2 | h2
    · rw [fmtDigits_lt _ _ _ _ h2]
      have e1 : v / 4096 = 0 := by omega
      have e2 : v / 256 % 16 = 0 := by omega
      have e3 : v / 16 % 16 = v / 16 := by omega
      rw [e1, e2, e3, udigits_hexDigitUpper _ h2,
        udigits_hexDigitUpper _ (Nat.mod_lt _ (by norm_num))]
      rfl
    · rw [fmtDigits_ge _ (by norm_num) _ _ _ h2]
      have e0 : v / 16 / 16 = v / 256 := by omega
      rcases Nat.lt_or_ge (v / 16 / 16) 16 with h3 | h3
      · rw [fmtDigits_lt _ _ _ _ h3]
        have e1 : v / 4096 = 0 := by omega
        have e2 : v / 256 % 16 = v / 256 := by omega
        rw [e1, e2, e0, udigits_hexDigitUpper _ (by omega),
          udigits_hexDigitUpper _ (Nat.mod_lt _ (by norm_num)),
          udigits_hexDigitUpper _ (Nat.mod_lt _ (by norm_num))]
        rfl
      · rw [fmtDigits_ge _ (by norm_num) _ _ _ h3]
        have h4 : v / 16 / 16 / 16 < 16 := by omega
        rw [fmtDigits_lt _ _ _ _ h4]
        have e1 : v / 16 / 16 / 16 = v / 4096 := by omega
        have e2 : v / 16 / 16 % 16 = v / 256 % 16 := by omega
        rw [e1, e2, udigits_hexDigitUpper _ (by omega),
          udigits_hexDigitUpper _ (Nat.mod_lt _ (by norm_num)),
          udigits_hexDigitUpper _ (Nat.mod_lt _ (by norm_num)),
          udigits_hexDigitUpper _ (Nat.mod_lt _ (by norm_num))]
        rfl

/-- C7: For every value `V`, formatting `V` in upper-case hexadecimal with the prefix
`0x`, zero padding and the bit width 16 gives `0x` followed by exactly four
upper-case hexadecimal digits, zeros on the left included, and these four digits
denote `V mod 2 ^ 16`. -/
theorem formatValue_hex_pad16 (V : Nat) (sign format color : Bool) :
    formatValue V ⟨['0', 'x'], true, ['X'], sign, format, color, 16⟩
      = ['0', 'x', hexDigitUpper (V % 2 ^ 16 / 4096), hexDigitUpper (V % 2 ^ 16 / 256 % 16),
          hexDigitUpper (V % 2 ^ 16 / 16 % 16), hexDigitUpper (V % 2 ^ 16 % 16)] ∧
    digitsValue 16 [hexDigitUpper (V % 2 ^ 16 / 4096), hexDigitUpper (V % 2 ^ 16 / 256 % 16),
          hexDigitUpper (V % 2 ^ 16 / 16 % 16), hexDigitUpper (V % 2 ^ 16 % 16)] = V % 2 ^ 16 := by
  have hv : V % 2 ^ 16 < 65536 := Nat.mod_lt _ (by norm_num)
  constructor
  · rw [formatValue_mask _ _ (by norm_num)]
    have hpad : Sprintf "%d".toList (16 / 4) = ['4'] := by decide
    simp only [if_true, hpad]
    show doPrintf (V % 2 ^ 16) ['0', 'x', '%', '0', '4', 'X'] .text false = _
    simp only [doPrintf, verbStep, printArg, extraArg]
    simp
    exact fmtInteger_hex4 _ (by omega)
  · simp only [digitsValue, List.foldl_cons, List.foldl_nil]
    rw [digitValue_hexDigitUpper _ (by omega), digitValue_hexDigitUpper _ (by omega),
      digitValue_hexDigitUpper _ (by omega), digitValue_hexDigitUpper _ (by omega)]
    omega

/-! ## Formatting and reading back -/

/-- The flag `0` and the decimal digits of a width from 1 to 64, as `formatValue`
writes them into the format, are read back by `doPrintf` as that width. -/
theorem doPrintf_width (v : Nat) (w : Nat) (h1 : 1 ≤ w) (h2 : w ≤ 64) (rest : List Char)
    (used : Bool) :
    doPrintf v ('0' :: Sprintf "%d".toList w ++ rest) (.flags false) used
      = doPrintf v rest (.width true w) used := by
  interval_cases w <;> rfl

/-- The text `Sprintf` gives for the format `%`, optional zero padding to a width up
to 64, and the verb of a base: the digits of the value, with zeros on the left
up to the width. -/
theorem Sprintf_base (code : Char) (hcode : code ∈ ['b', 'o', 'd', 'h']) (v w : Nat)
    (hw : w ≤ 64) (padding : Bool) :
    Sprintf ("%".toList ++ (if padding then '0' :: Sprintf "%d".toList w else []) ++ fmtOf code) v
      = List.replicate ((if padding then w else 0)
            - (fmtDigits (baseOf code) (digitsOf code) (v + 1) v []).length) '0'
          ++ fmtDigits (baseOf code) (digitsOf code) (v + 1) v [] := by
  have hflags : ∀ z : Bool,
      doPrintf v (fmtOf code) (.flags z) false
        = fmtInteger z false 0 v (baseOf code) (digitsOf code) := by
    intro z
    simp only [List.mem_cons, List.mem_singleton, List.not_mem_nil, or_false] at hcode
    rcases hcode with rfl | rfl | rfl | rfl <;>
      simp [fmtOf, doPrintf, verbStep, printArg, extraArg, baseOf, digitsOf]
  have hwidth : ∀ (z : Bool) (n : Nat),
      doPrintf v (fmtOf code) (.width z n) false
        = fmtInteger z true n v (baseOf code) (digitsOf code) := by
    intro z n
    simp only [List.mem_cons, List.mem_singleton, List.not_mem_nil, or_false] at hcode
    rcases hcode with rfl | rfl | rfl | rfl <;>
      simp [fmtOf, doPrintf, verbStep, printArg, extraArg, baseOf, digitsOf]
  cases padding with
  | false =>
    simp only [Bool.false_eq_true, if_false, List.append_nil]
    show doPrintf v (fmtOf code) (.flags false) false = _
    rw [hflags]
    simp [fmtInteger]
  | true =>
    simp only [if_true]
    rcases Nat.eq_zero_or_pos w with h0 | h0
    · subst h0
      show doPrintf v (fmtOf code) (.flags true) false = _
      rw [hflags]
      simp [fmtInteger]
    · show doPrintf v ('0' :: Sprintf "%d".toList w ++ fmtOf code) (.flags false) false = _
      rw [doPrintf_width v w h0 hw, hwidth]
      simp only [fmtInteger, Bool.and_self, if_true]
      simp
      omega

/-- The chars written by the digit loop are digits of the digit string. -/
theorem fmtDigits_mem (base : Nat) (digits : List Char) (P : Char → Prop)
    (hP : ∀ d, d < base → P (digits.getD d '0')) (hb : 0 < base) :
    ∀ (fuel u : Nat) (buf : List Char), (∀ c ∈ buf, P c) →
      ∀ c ∈ fmtDigits base digits fuel u buf, P c := by
  intro fuel
  induction fuel with
  | zero => intro u buf hbuf c hc; exact hbuf c hc
  | succ n ih =>
    intro u buf hbuf c hc
    unfold fmtDigits at hc
    split_ifs at hc with h
    · refine ih (u / base) _ ?_ c hc
      intro x hx
      rcases List.mem_cons.1 hx with rfl | hx
      · exact hP _ (Nat.mod_lt _ hb)
      · exact hbuf x hx
    · rcases List.mem_cons.1 hc with rfl | hc
      · exact hP _ (by omega)
      · exact hbuf c hc

theorem fmtDigits_ne_nil (base : Nat) (digits : List Char) :
    ∀ (fuel u : Nat) (buf : List Char), 0 < fuel → fmtDigits base digits fuel u buf ≠ [] := by
  intro fuel
  induction fuel with
  | zero => intro u buf h; omega
  | succ n ih =>
    intro u buf _
    unfold fmtDigits
    split_ifs with h
    · cases n with
      | zero => simp [fmtDigits]
      | succ m => exact ih _ _ (by omega)
    · simp

/-- The value of the digits written by the digit loop is the number written. -/
theorem digitsValue_fmtDigits (base : Nat) (hb : 2 ≤ base) (digits : List Char)
    (hd : ∀ d, d < base → digitValue (digits.getD d '0') = d) :
    ∀ (fuel u : Nat) (buf : List Char), u < fuel →
      (fmtDigits base digits fuel u buf).foldl (fun n c => n * base + digitValue c) 0
        = buf.foldl (fun n c => n * base + digitValue c) u := by
  intro fuel
  induction fuel with
  | zero => intro u buf h; omega
  | succ n ih =>
    intro u buf hu
    unfold fmtDigits
    split_ifs with h
    · have h1 : u / base < u := Nat.div_lt_self (by omega) (by omega)
      rw [ih (u / base) _ (by omega)]
      simp only [List.foldl_cons]
      rw [hd _ (Nat.mod_lt _ (by omega)), Nat.div_add_mod']
    · simp only [List.foldl_cons]
      rw [hd _ (by omega)]
      simp

theorem digitsValue_zeros (base : Nat) (k : Nat) (l : List Char) :
    (List.replicate k '0' ++ l).foldl (fun n c => n * base + digitValue c) 0
      = l.foldl (fun n c => n * base + digitValue c) 0 := by
  induction k with
  | zero => rfl
  | succ k ih =>
    simp only [List.replicate_succ, List.cons_append, List.foldl_cons]
    have : 0 * base + digitValue '0' = 0 := by
      have : digitValue '0' = 0 := by decide
      omega
    rw [this]
    exact ih

/-- The digit that `fmtInteger` writes for a number below the base: it is a
character of the alphabet of `collectValue`, not a sign, and `ParseUint` reads it
back as that number. -/
theorem digitsOf_facts (code : Char) (hcode : code ∈ ['b', 'o', 'd', 'h']) (d : Nat)
    (hd : d < baseOf code) :
    (digitsOf code).getD d '0' ∈ hexDigits ∧
      digitVal ((digitsOf code).getD d '0') = some (digitValue ((digitsOf code).getD d '0')) ∧
      digitValue ((digitsOf code).getD d '0') = d ∧
      (digitsOf code).getD d '0' ≠ '+' ∧ (digitsOf code).getD d '0' ≠ '-' := by
  simp only [List.mem_cons, List.mem_singleton, List.not_mem_nil, or_false] at hcode
  rcases hcode with rfl | rfl | rfl | rfl
  · have : d < 2 := hd
    interval_cases d <;> decide
  · have : d < 8 := hd
    interval_cases d <;> decide
  · have : d < 10 := hd
    interval_cases d <;> decide
  · have : d < 16 := hd
    interval_cases d <;> decide

/-- The text that `Sprintf` writes for a value below `2 ^ 63` in a base, with or
without zeros on the left, is read back by `readValue` as that value. -/
theorem readValue_rendered (code : Char) (hcode : code ∈ ['b', 'o', 'd', 'h']) (v k : Nat)
    (hv : v < 2 ^ 63) :
    (readValue (NewReader (List.replicate k '0'
        ++ fmtDigits (baseOf code) (digitsOf code) (v + 1) v [])) [code]).1 = (v : Int) := by
  have hb := baseOf_pos code
  have hbody : ∀ P : Char → Prop, (∀ d, d < baseOf code → P ((digitsOf code).getD d '0')) →
      ∀ c ∈ fmtDigits (baseOf code) (digitsOf code) (v + 1) v [], P c := by
    intro P hP
    exact fmtDigits_mem _ _ P hP (by omega) _ _ _ (by simp)
  have hall : ∀ P : Char → Prop, P '0' →
      (∀ d, d < baseOf code → P ((digitsOf code).getD d '0')) →
      ∀ c ∈ List.replicate k '0' ++ fmtDigits (baseOf code) (digitsOf code) (v + 1) v [],
        P c := by
    intro P h0 hP c hc
    rcases List.mem_append.1 hc with hc | hc
    · rw [(List.mem_replicate.1 hc).2]; exact h0
    · exact hbody P hP c hc
  have hne : List.replicate k '0' ++ fmtDigits (baseOf code) (digitsOf code) (v + 1) v [] ≠ [] := by
    intro h
    exact fmtDigits_ne_nil _ _ _ _ _ (by omega) (List.append_eq_nil.1 h).2
  have h0 : digitVal '0' = some (digitValue '0') ∧ digitValue '0' < baseOf code := by
    refine ⟨by decide, ?_⟩
    have : digitValue '0' = 0 := by decide
    omega
  have hval : digitsValue (baseOf code)
      (List.replicate k '0' ++ fmtDigits (baseOf code) (digitsOf code) (v + 1) v []) = v := by
    unfold digitsValue
    rw [digitsValue_zeros, digitsValue_fmtDigits _ hb _
      (fun d hd => (digitsOf_facts code hcode d hd).2.2.1) _ _ _ (by omega)]
    rfl
  rw [readValue_code _ _ hcode]
  have hcollect : (collectValue (NewReader (List.replicate k '0'
      ++ fmtDigits (baseOf code) (digitsOf code) (v + 1) v []))).1
      = List.replicate k '0' ++ fmtDigits (baseOf code) (digitsOf code) (v + 1) v [] := by
    unfold collectValue NewReader
    rw [collectValueLoop_eof _ (hall (· ∈ hexDigits) (by decide)
      (fun d hd => (digitsOf_facts code hcode d hd).1))]
    rfl
  simp only [hcollect]
  rw [ParseInt_unsigned _ (by omega) _ hne
    (hall (fun c => digitVal c = some (digitValue c) ∧ digitValue c < baseOf code) h0
      (fun d hd => ⟨(digitsOf_facts code hcode d hd).2.1, by
        rw [(digitsOf_facts code hcode d hd).2.2.1]; exact hd⟩))
    (hall (fun c => c ≠ '+' ∧ c ≠ '-') (by decide)
      (fun d hd => (digitsOf_facts code hcode d hd).2.2.2))
    (by rw [hval]; exact hv)]
  simp only [hval]

set_option maxRecDepth 8000 in
/-- C8 as stated fails, in two ways.  A value from `2 ^ 63` on is read back as
`2 ^ 63 - 1`, because `ParseInt` is signed: so for `2 ^ 63` in decimal with the
width 64.  And the prefix that the directives `h` and `b` add ends the literal
after its first `0`: `0x50`, the rendering of 80 for the directive `h`, is read
back as 0. -/
theorem roundtrip_counterexample :
    (formatValue (2 ^ 63) ⟨[], false, ['d'], false, false, false, 64⟩
        = "9223372036854775808".toList ∧
      toUint64 (readValue (NewReader
        (formatValue (2 ^ 63) ⟨[], false, ['d'], false, false, false, 64⟩)) ['d']).1
        = 2 ^ 63 - 1 ∧
      2 ^ 63 &&& (2 ^ 64 - 1) = 2 ^ 63) ∧
    (formatValue 80 (collectOutputFmt ⟨[], ['h']⟩).1 = "0x50".toList ∧
      toUint64 (readValue (NewReader (formatValue 80 (collectOutputFmt ⟨[], ['h']⟩).1)) ['h']).1
        = 0 ∧
      80 &&& (2 ^ 64 - 1) = 80) := by
  decide

/-- C8 (amended): for every base (b, o, d, h), every value `V` and every bit width
`W ≤ 64` such that `V AND (2 ^ W - 1)` is below `2 ^ 63`, formatting `V` in that
base without prefix, with or without zero padding, and reading the text back
with `readValue` under the same operand type gives `V AND (2 ^ W - 1)`. -/
theorem format_read_roundtrip (code : Char) (hcode : code ∈ ['b', 'o', 'd', 'h']) (V W : Nat)
    (padding sign format color : Bool) (hW : W ≤ 64) (hv : V &&& (2 ^ W - 1) < 2 ^ 63) :
    toUint64 (readValue (NewReader
        (formatValue V ⟨[], padding, fmtOf code, sign, format, color, W⟩)) [code]).1
      = V &&& (2 ^ W - 1) := by
  rw [Nat.and_pow_two_sub_one_eq_mod] at hv ⊢
  have hfmt : formatValue V ⟨[], padding, fmtOf code, sign, format, color, W⟩
      = Sprintf ("%".toList
          ++ (if padding then '0' :: Sprintf "%d".toList (if code = 'h' then W / 4 else W)
              else [])
          ++ fmtOf code) (V % 2 ^ W) := by
    rw [formatValue_mask _ _ (by simp only; omega)]
    have hmin : min W 64 = W := by omega
    simp only [hmin, List.nil_append]
    simp only [List.mem_cons, List.mem_singleton, List.not_mem_nil, or_false] at hcode
    rcases hcode with rfl | rfl | rfl | rfl <;> cases padding <;> simp [fmtOf]
  rw [hfmt, Sprintf_base code hcode _ _ (by split_ifs <;> omega),
    readValue_rendered code hcode _ _ hv]
  unfold toUint64
  omega

/-- The value 80 in hexadecimal with zero padding and the width 16 meets the
conditions of `format_read_roundtrip`: the text `0050` is read back as 80. -/
theorem format_read_roundtrip_witness :
    'h' ∈ ['b', 'o', 'd', 'h'] ∧ 16 ≤ 64 ∧ 80 &&& (2 ^ 16 - 1) < 2 ^ 63 ∧
    formatValue 80 ⟨[], true, fmtOf 'h', false, false, false, 16⟩ = "0050".toList ∧
    toUint64 (readValue (NewReader
        (formatValue 80 ⟨[], true, fmtOf 'h', false, false, false, 16⟩)) ['h']).1
      = 80 &&& (2 ^ 16 - 1) :=
  ⟨by decide, by decide, by decide, by decide,
    format_read_roundtrip 'h' (by decide) 80 16 true false false false (by decide) (by decide)⟩

/-! ## The alphabet of a literal -/

theorem alphabet_cases : ∀ c ∈ alphabet, c ∈ hexDigits ∨ c = '+' ∨ c = '-' := by decide

/-- What the loop of `collectValue` collects: a segment of the bytes left to read,
made of hexadecimal digits after at most one sign (a sign only when nothing
was collected before), which ends at the end of the input, at a byte outside
the alphabet or at a later sign; that byte is left unread. -/
theorem collectValueLoop_spec (after : List Char) :
    ∀ (before value : List Char),
      ∃ sg ds rest, after = sg ++ ds ++ rest ∧
        (collectValueLoop after before value).1 = value ++ (sg ++ ds) ∧
        (sg = [] ∨ (value = [] ∧ (sg = ['+'] ∨ sg = ['-']))) ∧
        (∀ c ∈ ds, c ∈ hexDigits) ∧
        (rest = [] ∨ ∃ c rest1, rest = c :: rest1 ∧
          (c ∉ alphabet ∨ (value ++ (sg ++ ds) ≠ [] ∧ (c = '+' ∨ c = '-')))) ∧
        (rest ≠ [] →
          (collectValueLoop after before value).2 = ⟨(sg ++ ds).reverse ++ before, rest⟩) := by
  induction after with
  | nil =>
    intro before value
    exact ⟨[], [], [], rfl, by simp [collectValueLoop], Or.inl rfl, by simp, Or.inl rfl,
      by simp⟩
  | cons c rest0 ih =>
    intro before value
    unfold collectValueLoop
    by_cases h1 : value ≠ [] ∧ (c = '+' ∨ c = '-')
    · rw [if_pos h1]
      refine ⟨[], [], c :: rest0, rfl, by simp, Or.inl rfl, by simp, Or.inr ⟨c, rest0, rfl, ?_⟩,
        fun _ => by simp [unreadByte_cons]⟩
      exact Or.inr ⟨by simpa using h1.1, h1.2⟩
    · rw [if_neg h1]
      by_cases h2 : c ∈ alphabet
      · rw [if_pos h2]
        obtain ⟨sg1, ds1, rest, e, hv, hsg, hds, hstop, hreader⟩ :=
          ih (c :: before) (value ++ [c])
        have hsg1 : sg1 = [] := by
          rcases hsg with h | ⟨h, _⟩
          · exact h
          · simp at h
        subst hsg1
        simp only [List.nil_append] at e hv hstop hreader
        rcases alphabet_cases c h2 with hc | hc
        · refine ⟨[], c :: ds1, rest, by simp [e], by simp [hv], Or.inl rfl, ?_, ?_, ?_⟩
          · intro x hx
            rcases List.mem_cons.1 hx with rfl | hx
            · exact hc
            · exact hds x hx
          · simpa using hstop
          · intro hr
            simp [hreader hr]
        · have hval : value = [] := by
            by_contra hne
            exact h1 ⟨hne, hc⟩
          refine ⟨[c], ds1, rest, by simp [e], by simp [hv], Or.inr ⟨hval, ?_⟩, hds, ?_, ?_⟩
          · rcases hc with rfl | rfl
            · exact Or.inl rfl
            · exact Or.inr rfl
          · simpa using hstop
          · intro hr
            simp [hreader hr]
      · rw [if_neg h2]
        exact ⟨[], [], c :: rest0, rfl, by simp, Or.inl rfl, by simp,
          Or.inr ⟨c, rest0, rfl, Or.inl h2⟩, fun _ => by simp [unreadByte_cons]⟩

/-- C10 as stated fails: for `tb12=d` the literal collected after `tb` is `12`, not
`1`, although 2 is not a binary digit, and the reader is left at `=`; with `tb12`
alone the literal is `12` too. -/
theorem collectValue_alphabet_counterexample :
    collectValue ⟨"bt".toList, "12=d".toList⟩ = ("12".toList, ⟨"21bt".toList, "=d".toList⟩) ∧
    (collectValue ⟨"bt".toList, "12".toList⟩).1 = "12".toList ∧
    '2' ∉ digitAlphabet 'b' := by
  decide

/-- C10 (amended): for every operand type and every input, the scan of the literal
does not depend on the operand type; it keeps collecting while the byte is one
of `0-9a-fA-F`, after at most one sign in first position.  The collected literal
is a sign or none followed by hexadecimal digits only, a segment of the input
from the position of the reader; it ends at the end of the input, at the first
byte outside the alphabet, or at a sign met after something was collected,
and that byte is left unread. -/
theorem collectValue_shared_alphabet (reader : Reader) (opType : List Char) :
    (readValue reader opType).2 = (collectValue reader).2 ∧
    ∃ sg ds rest, reader.after = sg ++ ds ++ rest ∧
      (collectValue reader).1 = sg ++ ds ∧
      sg ∈ [[], ['+'], ['-']] ∧
      (∀ c ∈ ds, c ∈ hexDigits) ∧
      (rest = [] ∨ ∃ c rest1, rest = c :: rest1 ∧
        (c ∉ alphabet ∨ (sg ++ ds ≠ [] ∧ (c = '+' ∨ c = '-')))) ∧
      (rest ≠ [] → (collectValue reader).2 = ⟨(sg ++ ds).reverse ++ reader.before, rest⟩) := by
  refine ⟨rfl, ?_⟩
  obtain ⟨sg, ds, rest, e, hv, hsg, hds, hstop, hreader⟩ :=
    collectValueLoop_spec reader.after reader.before []
  refine ⟨sg, ds, rest, e, by simpa [collectValue] using hv, ?_, hds, by simpa using hstop,
    hreader⟩
  rcases hsg with h | ⟨_, h | h⟩ <;> simp [h]

/-! ## Spaces in the input -/

theorem filter_space (a b : List Char) :
    (a ++ ' ' :: b).filter (fun c => c ≠ ' ') = (a ++ b).filter (fun c => c ≠ ' ') := by
  simp [List.filter_append, List.filter_cons]

theorem spaceEdit_filter (e e1 : List Char) (h : SpaceEdit e e1) :
    e1.filter (fun c => c ≠ ' ') = e.filter (fun c => c ≠ ' ') := by
  induction h with
  | refl => rfl
  | insert a b _ ih => rw [filter_space, ih]
  | delete a b _ ih => rw [← filter_space, ih]

/-- C11: For every expression `e` and every string `e1` obtained from `e` by inserting
or deleting space characters at any positions, `evaluateExpr` does the same on
`e1` as on `e`: the same printed text and result, or the same panic. -/
theorem evaluateExpr_spaces (e e1 : List Char) (h : SpaceEdit e e1) :
    evaluateExpr e1 = evaluateExpr e := by
  unfold evaluateExpr initialState
  rw [spaceEdit_filter e e1 h]

/-- The string `td 1 0+td5 =h p8`, with spaces inside a literal and inside the
directive, is obtained from `td10+td5=hp8` by inserting spaces; both print
`0x0F`. -/
theorem evaluateExpr_spaces_witness :
    SpaceEdit "td10+td5=hp8".toList "td 1 0+td5 =h p8".toList ∧
    evaluateExpr "td 1 0+td5 =h p8".toList = evaluateExpr "td10+td5=hp8".toList ∧
    evaluateExpr "td10+td5=hp8".toList = .done ⟨"0x0F\n".toList, []⟩ :=
  ⟨SpaceEdit.insert _ "td".toList "1 0+td5 =h p8".toList
      (SpaceEdit.insert _ "td1".toList "0+td5 =h p8".toList
        (SpaceEdit.insert _ "td10+td5".toList "=h p8".toList
          (SpaceEdit.insert _ "td10+td5=h".toList "p8".toList (SpaceEdit.refl _)))),
    evaluateExpr_spaces _ _
      (SpaceEdit.insert _ "td".toList "1 0+td5 =h p8".toList
        (SpaceEdit.insert _ "td1".toList "0+td5 =h p8".toList
          (SpaceEdit.insert _ "td10+td5".toList "=h p8".toList
            (SpaceEdit.insert _ "td10+td5=h".toList "p8".toList (SpaceEdit.refl _))))),
    by decide⟩

/-! ## The flags that rendering does not use -/

theorem formatValue_renderFields (V : Nat) (cfg1 cfg2 : OutFormat)
    (h : cfg1.renderFields = cfg2.renderFields) : formatValue V cfg1 = formatValue V cfg2 := by
  simp only [OutFormat.renderFields, Prod.mk.injEq] at h
  obtain ⟨h1, h2, h3, h4⟩ := h
  unfold formatValue
  rw [h1, h2, h3, h4]

theorem specFormatStep_renderFields (f g : OutFormat) (c : Char)
    (h : f.renderFields = g.renderFields) :
    (specFormatStep f c).renderFields = (specFormatStep g c).renderFields := by
  simp only [OutFormat.renderFields, Prod.mk.injEq] at h ⊢
  obtain ⟨h1, h2, h3, h4⟩ := h
  unfold specFormatStep
  split_ifs <;> simp [h1, h2, h3, h4]

theorem specFormatStep_flag (f : OutFormat) (c : Char) (hc : notFlagChar c = false) :
    (specFormatStep f c).renderFields = f.renderFields := by
  have : c = 's' ∨ c = 'f' ∨ c = 'c' := by
    have h1 : ¬ (c ∉ ['s', 'f', 'c']) := by
      intro h
      simp [notFlagChar, h] at hc
    have h2 : c ∈ ['s', 'f', 'c'] := not_not.1 h1
    simpa using h2
  rcases this with rfl | rfl | rfl <;> rfl

theorem foldl_specFormatStep_filter (d : List Char) :
    ∀ f g : OutFormat, f.renderFields = g.renderFields →
      (d.foldl specFormatStep f).renderFields
        = ((d.filter notFlagChar).foldl specFormatStep g).renderFields := by
  induction d with
  | nil => intro f g h; exact h
  | cons c d ih =>
    intro f g h
    rw [List.foldl_cons, List.filter_cons]
    cases hc : notFlagChar c with
    | true =>
      simp only [if_true, List.foldl_cons]
      exact ih _ _ (specFormatStep_renderFields f g c h)
    | false =>
      simp only [Bool.false_eq_true, if_false]
      exact ih _ _ ((specFormatStep_flag f c hc).trans h)

theorem filter_digit_filter_flag (d : List Char) :
    (d.filter notFlagChar).filter isDecimalDigit = d.filter isDecimalDigit := by
  rw [List.filter_filter]
  apply List.filter_congr
  intro c _
  by_cases h : isDecimalDigit c = true
  · have h1 : c ∈ "0123456789".toList := by simpa [isDecimalDigit] using h
    have h3 : ∀ x ∈ "0123456789".toList, notFlagChar x = true := by decide
    have h2 : notFlagChar c = true := h3 c h1
    simp [h, h2]
  · simp [h]

/-- What `collectOutputFmt` returns, by the fold of `specFormatStep` and the digits
of the directive. -/
theorem collectOutputFmt_eq (before d : List Char) :
    (collectOutputFmt ⟨before, d⟩).1
      = if d.filter isDecimalDigit ≠ [] then
          { d.foldl specFormatStep defaultOutFormat with
            bitmaskWidth := toUint64 (ParseInt (d.filter isDecimalDigit) 10).1 }
        else d.foldl specFormatStep defaultOutFormat := by
  unfold collectOutputFmt
  simp only [collectOutputFmtLoop_eq, List.nil_append]
  split_ifs <;> rfl

/-- The fields that rendering depends on are the same for a directive and for the
directive without its characters `s`, `f`, `c`. -/
theorem collectOutputFmt_filter (before1 before2 d : List Char) :
    (collectOutputFmt ⟨before1, d⟩).1.renderFields
      = (collectOutputFmt ⟨before2, d.filter notFlagChar⟩).1.renderFields := by
  have h := foldl_specFormatStep_filter d defaultOutFormat defaultOutFormat rfl
  rw [collectOutputFmt_eq, collectOutputFmt_eq, filter_digit_filter_flag]
  simp only [OutFormat.renderFields, Prod.mk.injEq] at h ⊢
  obtain ⟨h1, h2, h3, h4⟩ := h
  split_ifs
  · exact ⟨h1, h2, h3, rfl⟩
  · exact ⟨h1, h2, h3, h4⟩

/-- The iterations on `=` and what follows it: the rest of the input is read as the
directive, the accumulator is formatted, and the loop ends at the next
iteration. -/
theorem evalLoop_eq_sign (n : Nat) (b d : List Char) (acc : Nat) (op : OperationType)
    (fd : List Char) :
    evalLoop (n + 2) ⟨⟨b, '=' :: d⟩, acc, op, fd⟩
      = .done ⟨⟨d.reverse ++ '=' :: b, []⟩, acc, op,
          formatValue acc (collectOutputFmt ⟨'=' :: b, d⟩).1⟩ := by
  have h1 : loopBody ⟨⟨b, '=' :: d⟩, acc, op, fd⟩
      = .next ⟨(collectOutputFmt ⟨'=' :: b, d⟩).2, acc, op,
          formatValue acc (collectOutputFmt ⟨'=' :: b, d⟩).1⟩ := rfl
  rw [evalLoop_succ, h1]
  simp only
  rw [collectOutputFmt_reader, evalLoop_succ, loopBody_eof]

/-- C12: For every value and every two formats that agree on prefix, zero padding,
base code and bit width, `formatValue` returns the same string.  So for every
two directives that differ only by characters `s`, `f`, `c`, the formats that
`collectOutputFmt` builds render every value alike, and the loop that reads
`=` in front of one or the other ends with the same formatted text. -/
theorem formatValue_ignores_flags (V : Nat) (cfg1 cfg2 : OutFormat) (d1 d2 : List Char)
    (hcfg : cfg1.renderFields = cfg2.renderFields)
    (hd : d1.filter notFlagChar = d2.filter notFlagChar) :
    formatValue V cfg1 = formatValue V cfg2 ∧
    (∀ b1 b2 : List Char,
      formatValue V (collectOutputFmt ⟨b1, d1⟩).1 = formatValue V (collectOutputFmt ⟨b2, d2⟩).1) ∧
    (∀ (n : Nat) (b : List Char) (op : OperationType) (fd : List Char),
      ∃ text, evalLoop (n + 2) ⟨⟨b, '=' :: d1⟩, V, op, fd⟩
          = .done ⟨⟨d1.reverse ++ '=' :: b, []⟩, V, op, text⟩ ∧
        evalLoop (n + 2) ⟨⟨b, '=' :: d2⟩, V, op, fd⟩
          = .done ⟨⟨d2.reverse ++ '=' :: b, []⟩, V, op, text⟩) := by
  have key : ∀ b1 b2 : List Char,
      formatValue V (collectOutputFmt ⟨b1, d1⟩).1
        = formatValue V (collectOutputFmt ⟨b2, d2⟩).1 := by
    intro b1 b2
    apply formatValue_renderFields
    rw [collectOutputFmt_filter b1 b2 d1, hd, ← collectOutputFmt_filter b2 b2 d2]
  refine ⟨formatValue_renderFields V cfg1 cfg2 hcfg, key, ?_⟩
  intro n b op fd
  refine ⟨formatValue V (collectOutputFmt ⟨'=' :: b, d1⟩).1, evalLoop_eq_sign _ _ _ _ _ _, ?_⟩
  rw [evalLoop_eq_sign, key ('=' :: b) ('=' :: b)]

/-- The directives `hfp16` and `hp16` differ by the character `f` only, and their
formats by the field `format` only; both render 80 as `0x0050`, and so do the
expressions that end in them. -/
theorem formatValue_ignores_flags_witness :
    (collectOutputFmt ⟨[], "hfp16".toList⟩).1.renderFields
      = (collectOutputFmt ⟨[], "hp16".toList⟩).1.renderFields ∧
    "hfp16".toList.filter notFlagChar = "hp16".toList.filter notFlagChar ∧
    formatValue 80 (collectOutputFmt ⟨[], "hfp16".toList⟩).1
      = formatValue 80 (collectOutputFmt ⟨[], "hp16".toList⟩).1 ∧
    evaluateExpr "td80=hfp16".toList = .done ⟨"0x0050\n".toList, []⟩ ∧
    evaluateExpr "td80=hp16".toList = .done ⟨"0x0050\n".toList, []⟩ :=
  ⟨by decide, by decide,
    (formatValue_ignores_flags 80 (collectOutputFmt ⟨[], "hfp16".toList⟩).1
      (collectOutputFmt ⟨[], "hp16".toList⟩).1 "hfp16".toList "hp16".toList
      (by decide) (by decide)).1,
    by decide, by decide⟩

/-! ## The result of `evaluateExpr` -/

/-- C14, at the failing input and in general: on `td10+td20+td50=hfp16`, which
reaches `=`, `evaluateExpr` prints the rendered accumulator `0x0050` and returns
the empty string; whenever it ends normally its result is the empty
string. -/
theorem evaluateExpr_returns_empty :
    evaluateExpr "td10+td20+td50=hfp16".toList = .done ⟨"0x0050\n".toList, []⟩ ∧
    ∀ (input : List Char) (r : EvalResult), evaluateExpr input = .done r → r.result = [] := by
  refine ⟨by decide, ?_⟩
  intro input r h
  unfold evaluateExpr at h
  split at h
  · cases h; rfl
  · cases h
  · cases h

/-! ## Termination -/

theorem collectOutputFmtReads_eq (l : List Char) : collectOutputFmtReads l = l.length + 1 := by
  induction l with
  | nil => rfl
  | cons c l ih => simp [collectOutputFmtReads, ih]; omega

/-- The scan of `collectValue` reads at least once, and every read but the last two
moves the reader forward for good. -/
theorem collectValueReads_bound (after : List Char) :
    ∀ (before value : List Char),
      1 ≤ collectValueReads after value ∧
      collectValueReads after value + (collectValueLoop after before value).2.after.length
        ≤ after.length + 2 := by
  induction after with
  | nil =>
    intro before value
    have := unreadByte_after_length (Reader.mk before [])
    simp only [collectValueReads, collectValueLoop, List.length_nil] at this ⊢
    omega
  | cons c rest ih =>
    intro before value
    unfold collectValueReads collectValueLoop
    split_ifs
    · simp [unreadByte_cons]
      omega
    · have := ih (c :: before) (value ++ [c])
      simp only [List.length_cons]
      omega
    · simp [unreadByte_cons]
      omega

theorem loopBodyReads_nil (b : List Char) (acc : Nat) (op : OperationType) (fd : List Char) :
    loopBodyReads ⟨⟨b, []⟩, acc, op, fd⟩ = 1 := rfl

theorem loopBodyReads_t (b : List Char) (code : Char) (a : List Char) (acc : Nat)
    (op : OperationType) (fd : List Char) :
    loopBodyReads ⟨⟨b, 't' :: code :: a⟩, acc, op, fd⟩ = 2 + collectValueReads a [] := rfl

theorem loopBodyReads_t_eof (b : List Char) (acc : Nat) (op : OperationType) (fd : List Char) :
    loopBodyReads ⟨⟨b, ['t']⟩, acc, op, fd⟩ = 2 := rfl

theorem loopBodyReads_eq_sign (b a : List Char) (acc : Nat) (op : OperationType)
    (fd : List Char) :
    loopBodyReads ⟨⟨b, '=' :: a⟩, acc, op, fd⟩ = 1 + collectOutputFmtReads a := rfl

theorem loopBodyReads_other (b : List Char) (c : Char) (a : List Char) (acc : Nat)
    (op : OperationType) (fd : List Char) (h1 : c ≠ 't') (h2 : c ≠ '=') :
    loopBodyReads ⟨⟨b, c :: a⟩, acc, op, fd⟩ = 1 := by
  unfold loopBodyReads
  simp [readSymbolsFromStream_cons, h1, h2]

/-- The reads of one iteration are at most three times the bytes it moves the reader
forward, and at most three times the bytes left, plus one, in any case. -/
theorem loopBodyReads_bound (s : LoopState) :
    loopBodyReads s ≤ 3 * s.reader.after.length + 1 ∧
    ∀ s1, loopBody s = .next s1 →
      loopBodyReads s + 3 * s1.reader.after.length ≤ 3 * s.reader.after.length := by
  obtain ⟨⟨b, after⟩, acc, op, fd⟩ := s
  cases after with
  | nil =>
    refine ⟨by simp [loopBodyReads_nil], ?_⟩
    intro s1 h
    rw [loopBody_eof] at h
    cases h
  | cons c a =>
    by_cases ht : c = 't'
    · subst ht
      cases a with
      | nil =>
        refine ⟨by simp [loopBodyReads_t_eof], ?_⟩
        intro s1 h
        have hp := loopBody_progress _ s1 h
        simp only [List.length_cons, List.length_nil] at hp
        simp only [loopBodyReads_t_eof, List.length_cons, List.length_nil]
        omega
      | cons code a =>
        have hr := collectValueReads_bound a (code :: 't' :: b) []
        refine ⟨?_, ?_⟩
        · simp only [loopBodyReads_t, List.length_cons]
          omega
        · intro s1 h
          have hs1 : s1.reader = (collectValue ⟨code :: 't' :: b, a⟩).2 := by
            rw [loopBody_t] at h
            split_ifs at h
            · split at h
              · cases h
              · cases h; rfl
            · cases h; rfl
          rw [hs1]
          simp only [loopBodyReads_t, List.length_cons]
          have : (collectValue ⟨code :: 't' :: b, a⟩).2 =
              (collectValueLoop a (code :: 't' :: b) []).2 := rfl
          rw [this]
          omega
    · by_cases he : c = '='
      · subst he
        refine ⟨?_, ?_⟩
        · simp only [loopBodyReads_eq_sign, collectOutputFmtReads_eq, List.length_cons]
          omega
        · intro s1 h
          have hp := loopBody_progress _ s1 h
          have h1 : loopBody ⟨⟨b, '=' :: a⟩, acc, op, fd⟩
              = .next ⟨(collectOutputFmt ⟨'=' :: b, a⟩).2, acc, op,
                  formatValue acc (collectOutputFmt ⟨'=' :: b, a⟩).1⟩ := rfl
          rw [h1] at h
          cases h
          simp only [loopBodyReads_eq_sign, collectOutputFmtReads_eq, List.length_cons,
            collectOutputFmt_reader, List.length_nil]
          omega
      · refine ⟨?_, ?_⟩
        · simp only [loopBodyReads_other _ _ _ _ _ _ ht he, List.length_cons]
          omega
        · intro s1 h
          have hp := loopBody_progress _ s1 h
          simp only [List.length_cons] at hp
          simp only [loopBodyReads_other _ _ _ _ _ _ ht he, List.length_cons]
          omega

/-- The reads of the loop from a state are at most three times the bytes left to
read, plus one. -/
theorem evalLoopReads_bound (fuel : Nat) :
    ∀ s : LoopState, evalLoopReads fuel s ≤ 3 * s.reader.after.length + 1 := by
  induction fuel with
  | zero => intro s; simp [evalLoopReads]
  | succ n ih =>
    intro s
    unfold evalLoopReads
    have hb := loopBodyReads_bound s
    cases h : loopBody s with
    | next s1 =>
      have := hb.2 s1 h
      have := ih s1
      simp only
      omega
    | exit s1 => simp only; omega
    | panic p => simp only; omega

/-- C13: For every input, the loop of `evaluateExpr` halts: it ends (normally or by a
panic) within one iteration per byte of the input without its spaces and one
more, the scans of `collectValue` and `collectOutputFmt` and their push-backs
included; and the reads it makes in all, those of the two scans included, are
at most three times the length of the input, plus one. -/
theorem evaluateExpr_terminates (input : List Char) :
    evaluateExpr input ≠ .outOfFuel ∧
    evalLoop ((input.filter (fun c => c ≠ ' ')).length + 1) (initialState input) ≠ .outOfFuel ∧
    evalLoopReads ((input.filter (fun c => c ≠ ' ')).length + 1) (initialState input)
      ≤ 3 * input.length + 1 := by
  have hlen : (initialState input).reader.after.length
      = (input.filter (fun c => c ≠ ' ')).length := rfl
  have ht := evalLoop_total ((input.filter (fun c => c ≠ ' ')).length + 1) (initialState input)
    (by rw [hlen]; omega)
  refine ⟨?_, ht, ?_⟩
  · unfold evaluateExpr
    split
    · simp
    · simp
    · rename_i h
      exact absurd h ht
  · have h1 := evalLoopReads_bound ((input.filter (fun c => c ≠ ' ')).length + 1)
      (initialState input)
    have h2 : (input.filter (fun c => c ≠ ' ')).length ≤ input.length := List.length_filter_le _ _
    rw [hlen] at h1
    omega

/-! ## The format marker ends the evaluation -/

theorem runSteps_succ_next (k : Nat) (s s1 : LoopState) (h : loopBody s = .next s1) :
    runSteps (k + 1) s = runSteps k s1 := by
  simp [runSteps, h]

theorem runSteps_add (a : Nat) :
    ∀ (b : Nat) (s : LoopState), runSteps (a + b) s = (runSteps a s).bind (runSteps b) := by
  induction a with
  | zero => intro b s; simp [runSteps]
  | succ a ih =>
    intro b s
    have e : a + 1 + b = (a + b) + 1 := by omega
    rw [e]
    cases h : loopBody s with
    | next s1 => rw [runSteps_succ_next _ _ _ h, runSteps_succ_next _ _ _ h, ih]
    | exit s1 => simp [runSteps, h]
    | panic p => simp [runSteps, h]

/-- A byte that is neither `t` nor `=` is read in one iteration, which leaves the
accumulator and the formatted text as they are. -/
theorem loopBody_plain (q : List Char) (c : Char) (a : List Char) (acc : Nat)
    (op : OperationType) (fd : List Char) (h1 : c ≠ 't') (h2 : c ≠ '=') :
    loopBody ⟨⟨q, c :: a⟩, acc, op, fd⟩
      = .next ⟨⟨c :: q, a⟩, acc,
          if c ∈ ['+', '-', '*', '/'] then operationOf c else op, fd⟩ := by
  by_cases hc : c ∈ ['+', '-', '*', '/']
  · rw [loopBody_operator c hc, if_pos hc]
  · rw [if_neg hc]
    simp only [List.mem_cons, List.mem_singleton, List.not_mem_nil, or_false, not_or] at hc
    unfold loopBody
    simp [readSymbolsFromStream_cons, hc.1, hc.2.1, hc.2.2.1, hc.2.2.2, h1, h2]

/-- In front of a `=` the scan of `collectValue` stops at the `=` at the latest, and
leaves the reader there or before. -/
theorem collectValueLoop_before_eq (sfx : List Char) (r : List Char) :
    ∀ (before value : List Char),
      ∃ v r3, r = v ++ r3 ∧
        (collectValueLoop (r ++ '=' :: sfx) before value).2
          = ⟨v.reverse ++ before, r3 ++ '=' :: sfx⟩ := by
  induction r with
  | nil =>
    intro before value
    refine ⟨[], [], rfl, ?_⟩
    have h1 : ('=' : Char) ∉ alphabet := by decide
    simp [collectValueLoop, h1, unreadByte_cons]
  | cons c r ih =>
    intro before value
    simp only [List.cons_append]
    unfold collectValueLoop
    split_ifs with h1 h2
    · exact ⟨[], c :: r, rfl, by simp [unreadByte_cons]⟩
    · obtain ⟨v, r3, e, hr⟩ := ih (c :: before) (value ++ [c])
      exact ⟨c :: v, r3, by simp [e], by simp [hr]⟩
    · exact ⟨[], c :: r, rfl, by simp [unreadByte_cons]⟩

/-- The scan of a prefix without `=` in front of a `=`: the loop panics on a
division, or comes to read a `t` right in front of the `=`, or comes to stand
right in front of the `=`. -/
theorem scan_prefix (sfx : List Char) (n : Nat) :
    ∀ (r : List Char), r.length ≤ n → '=' ∉ r →
      ∀ (q : List Char) (acc : Nat) (op : OperationType) (fd : List Char),
        (∃ k st1, runSteps k ⟨⟨q, r ++ '=' :: sfx⟩, acc, op, fd⟩ = some st1 ∧
          loopBody st1 = .panic .integerDivideByZero) ∨
        (∃ k st1, runSteps k ⟨⟨q, r ++ '=' :: sfx⟩, acc, op, fd⟩ = some st1 ∧
          st1.reader.after = 't' :: '=' :: sfx) ∨
        (∃ k st1, runSteps k ⟨⟨q, r ++ '=' :: sfx⟩, acc, op, fd⟩ = some st1 ∧
          st1.reader = ⟨r.reverse ++ q, '=' :: sfx⟩) := by
  induction n with
  | zero =>
    intro r hr _ q acc op fd
    have : r = [] := List.length_eq_zero.1 (by omega)
    subst this
    exact Or.inr (Or.inr ⟨0, _, rfl, rfl⟩)
  | succ n ih =>
    intro r hr hne q acc op fd
    cases r with
    | nil => exact Or.inr (Or.inr ⟨0, _, rfl, rfl⟩)
    | cons c r =>
      have hce : c ≠ '=' := fun e => hne (by rw [e]; exact List.mem_cons_self _ _)
      have hr1 : '=' ∉ r := fun h => hne (List.mem_cons_of_mem _ h)
      simp only [List.length_cons] at hr
      -- lifting the three cases over one iteration
      have lift : ∀ (s1 : LoopState) (r3 q3 : List Char),
          loopBody ⟨⟨q, c :: r ++ '=' :: sfx⟩, acc, op, fd⟩ = .next s1 →
          s1.reader = ⟨q3, r3 ++ '=' :: sfx⟩ → r3.length ≤ n → '=' ∉ r3 →
          r3.reverse ++ q3 = (c :: r).reverse ++ q →
          (∃ k st1, runSteps k ⟨⟨q, c :: r ++ '=' :: sfx⟩, acc, op, fd⟩ = some st1 ∧
            loopBody st1 = .panic .integerDivideByZero) ∨
          (∃ k st1, runSteps k ⟨⟨q, c :: r ++ '=' :: sfx⟩, acc, op, fd⟩ = some st1 ∧
            st1.reader.after = 't' :: '=' :: sfx) ∨
          (∃ k st1, runSteps k ⟨⟨q, c :: r ++ '=' :: sfx⟩, acc, op, fd⟩ = some st1 ∧
            st1.reader = ⟨(c :: r).reverse ++ q, '=' :: sfx⟩) := by
        intro s1 r3 q3 hb hrd hlen hne3 hq
        obtain ⟨rd, a1, o1, f1⟩ := s1
        simp only at hrd
        subst hrd
        rcases ih r3 hlen hne3 q3 a1 o1 f1 with ⟨k, st1, h1, h2⟩ | ⟨k, st1, h1, h2⟩ |
          ⟨k, st1, h1, h2⟩
        · exact Or.inl ⟨k + 1, st1, by rw [runSteps_succ_next _ _ _ hb]; exact h1, h2⟩
        · exact Or.inr (Or.inl ⟨k + 1, st1, by rw [runSteps_succ_next _ _ _ hb]; exact h1, h2⟩)
        · exact Or.inr (Or.inr ⟨k + 1, st1, by rw [runSteps_succ_next _ _ _ hb]; exact h1,
            by rw [h2, hq]⟩)
      by_cases ht : c = 't'
      · subst ht
        cases r with
        | nil => exact Or.inr (Or.inl ⟨0, _, rfl, rfl⟩)
        | cons code r2 =>
          have hr2 : '=' ∉ r2 := fun h => hr1 (List.mem_cons_of_mem _ h)
          obtain ⟨v, r3, e, hrd⟩ := collectValueLoop_before_eq sfx r2 (code :: 't' :: q) []
          have hrd2 : (readValue ⟨code :: 't' :: q, r2 ++ '=' :: sfx⟩ [code]).2
              = ⟨v.reverse ++ code :: 't' :: q, r3 ++ '=' :: sfx⟩ := hrd
          have hlen3 : r3.length ≤ n := by
            have : r2.length = v.length + r3.length := by rw [e]; simp
            simp only [List.length_cons] at hr
            omega
          have hne3 : '=' ∉ r3 := fun h => hr2 (by rw [e]; exact List.mem_append_right _ h)
          have hq : r3.reverse ++ (v.reverse ++ code :: 't' :: q)
              = ('t' :: code :: r2).reverse ++ q := by
            rw [e]; simp
          have hbody := loopBody_t q code (r2 ++ '=' :: sfx) acc op fd
          by_cases hop : op ≠ .Unknown
          · rw [if_pos hop] at hbody
            cases hds : doSingleOperation acc op
                (toUint64 (readValue ⟨code :: 't' :: q, r2 ++ '=' :: sfx⟩ [code]).1) with
            | error p =>
              rw [hds] at hbody
              cases p
              exact Or.inl ⟨0, _, rfl, hbody⟩
            | ok x =>
              rw [hds] at hbody
              exact lift _ r3 _ hbody hrd2 hlen3 hne3 hq
          · rw [if_neg hop] at hbody
            exact lift _ r3 _ hbody hrd2 hlen3 hne3 hq
      · have hbody := loopBody_plain q c (r ++ '=' :: sfx) acc op fd ht hce
        exact lift _ r (c :: q) hbody rfl (by omega) hr1 (by simp)

/-- The loop reads `=` as a symbol at one iteration at most. -/
theorem runSteps_eq_sign_unique (s0 : LoopState) (j k : Nat) (sj sk : LoopState)
    (dj dk : List Char) (hj : runSteps j s0 = some sj) (haj : sj.reader.after = '=' :: dj)
    (hk : runSteps k s0 = some sk) (hak : sk.reader.after = '=' :: dk) : j = k := by
  have key : ∀ (a m : Nat) (sa sb : LoopState) (da db : List Char),
      runSteps a s0 = some sa → sa.reader.after = '=' :: da →
      runSteps (a + (m + 1)) s0 = some sb → sb.reader.after = '=' :: db → False := by
    intro a m sa sb da db h1 h2 h3 h4
    rw [runSteps_add, h1] at h3
    change runSteps (m + 1) sa = some sb at h3
    obtain ⟨⟨b, after⟩, acc, op, fd⟩ := sa
    simp only at h2
    subst h2
    have hb : loopBody ⟨⟨b, '=' :: da⟩, acc, op, fd⟩
        = .next ⟨(collectOutputFmt ⟨'=' :: b, da⟩).2, acc, op,
            formatValue acc (collectOutputFmt ⟨'=' :: b, da⟩).1⟩ := rfl
    rw [runSteps_succ_next _ _ _ hb, collectOutputFmt_reader] at h3
    cases m with
    | zero =>
      simp only [runSteps, Option.some.injEq] at h3
      rw [← h3] at h4
      simp at h4
    | succ m =>
      simp [runSteps, loopBody_eof] at h3
  rcases Nat.lt_trichotomy j k with h | h | h
  · obtain ⟨m, hm⟩ : ∃ m, k = j + (m + 1) := ⟨k - j - 1, by omega⟩
    subst hm
    exact (key j m sj sk dj dk hj haj hk hak).elim
  · exact h
  · obtain ⟨m, hm⟩ : ∃ m, j = k + (m + 1) := ⟨j - k - 1, by omega⟩
    subst hm
    exact (key k m sk sj dk dj hk hak hj haj).elim

/-- When the loop comes to read `=` as a symbol, what follows is the directive: the
loop ends with the accumulator as it is and with the accumulator formatted by
the directive. -/
theorem evalLoop_at_eq_sign (input : List Char) (k : Nat) (st : LoopState) (d : List Char)
    (hreach : runSteps k (initialState input) = some st)
    (hafter : st.reader.after = '=' :: d) :
    evalLoop ((input.filter (fun c => c ≠ ' ')).length + 1) (initialState input)
      = .done ⟨⟨d.reverse ++ '=' :: st.reader.before, []⟩, st.accumulator, st.operationType,
          formatValue st.accumulator (collectOutputFmt ⟨'=' :: st.reader.before, d⟩).1⟩ := by
  have hp := runSteps_progress k _ _ hreach
  have hlen : (initialState input).reader.after.length
      = (input.filter (fun c => c ≠ ' ')).length := rfl
  rw [hafter, hlen] at hp
  simp only [List.length_cons] at hp
  obtain ⟨n, hn⟩ : ∃ n, (input.filter (fun c => c ≠ ' ')).length + 1 = k + (n + 2) :=
    ⟨(input.filter (fun c => c ≠ ' ')).length - k - 1, by omega⟩
  rw [hn, evalLoop_runSteps k (n + 2) _ st hreach]
  obtain ⟨⟨b, after⟩, acc, op, fd⟩ := st
  simp only at hafter
  subst hafter
  exact evalLoop_eq_sign n b d acc op fd

/-- C15 as stated fails: `t` has no `=`, scanning it leaves the accumulator 0, and the
directive `d` renders 0 as `0`; but in `t=d` the `=` is read as the operand type
of the `t`, no format is read, and the formatted output is empty. -/
theorem eq_terminal_counterexample :
    '=' ∉ "t".toList ∧
    evalLoop 2 (initialState "t".toList) = .done ⟨⟨['t'], []⟩, 0, .Unknown, []⟩ ∧
    formatValue 0 (collectOutputFmt ⟨[], "d".toList⟩).1 = "0".toList ∧
    evaluateExpr "t=d".toList = .done ⟨"\n".toList, []⟩ := by
  decide

/-- C15 (amended): for every prefix `p` without `=` and every suffix `s`, the evaluation
of `p=s` goes one of three ways.  The scan of `p` is cut short by the
divide-by-zero panic; or the loop reads a `t` at the end of `p`, which takes the
`=` as its operand type; or the loop comes to stand right after `p` with an
accumulator `A`, and then it reads `=` as a symbol at that iteration only, all of
`s` is the directive, the loop ends with the accumulator still `A`, and the
formatted output is `formatValue A F` with `F` the format that
`collectOutputFmt` builds from `s`. -/
theorem eq_is_terminal (p s : List Char) (hp : '=' ∉ p) :
    evaluateExpr (p ++ '=' :: s) = .panicked .integerDivideByZero ∨
    (∃ k st, runSteps k (initialState (p ++ '=' :: s)) = some st ∧
      st.reader.after = 't' :: '=' :: s.filter (fun c => c ≠ ' ')) ∨
    (∃ k st, runSteps k (initialState (p ++ '=' :: s)) = some st ∧
      st.reader = ⟨(p.filter (fun c => c ≠ ' ')).reverse, '=' :: s.filter (fun c => c ≠ ' ')⟩ ∧
      (∀ j sj d, runSteps j (initialState (p ++ '=' :: s)) = some sj →
        sj.reader.after = '=' :: d → j = k) ∧
      evalLoop (((p ++ '=' :: s).filter (fun c => c ≠ ' ')).length + 1)
          (initialState (p ++ '=' :: s))
        = .done ⟨⟨((p ++ '=' :: s).filter (fun c => c ≠ ' ')).reverse, []⟩, st.accumulator,
            st.operationType,
            formatValue st.accumulator
              (collectOutputFmt ⟨'=' :: (p.filter (fun c => c ≠ ' ')).reverse,
                s.filter (fun c => c ≠ ' ')⟩).1⟩ ∧
      evaluateExpr (p ++ '=' :: s)
        = .done ⟨Println (formatValue st.accumulator
            (collectOutputFmt ⟨'=' :: (p.filter (fun c => c ≠ ' ')).reverse,
              s.filter (fun c => c ≠ ' ')⟩).1), []⟩) := by
  have hfilter : (p ++ '=' :: s).filter (fun c => c ≠ ' ')
      = p.filter (fun c => c ≠ ' ') ++ '=' :: s.filter (fun c => c ≠ ' ') := by
    simp [List.filter_append, List.filter_cons]
  have hinit : initialState (p ++ '=' :: s)
      = ⟨⟨[], p.filter (fun c => c ≠ ' ') ++ '=' :: s.filter (fun c => c ≠ ' ')⟩,
          0, .Unknown, []⟩ := by
    unfold initialState NewReader
    rw [hfilter]
  have hp1 : '=' ∉ p.filter (fun c => c ≠ ' ') := fun h => hp (List.mem_filter.1 h).1
  rcases scan_prefix (s.filter (fun c => c ≠ ' ')) _ (p.filter (fun c => c ≠ ' '))
      (le_refl _) hp1 [] 0 .Unknown [] with ⟨k, st, h1, h2⟩ | ⟨k, st, h1, h2⟩ | ⟨k, st, h1, h2⟩
  · left
    rw [← hinit] at h1
    have hpr := runSteps_progress k _ _ h1
    have hlen : (initialState (p ++ '=' :: s)).reader.after.length
        = ((p ++ '=' :: s).filter (fun c => c ≠ ' ')).length := rfl
    rw [hlen] at hpr
    obtain ⟨n, hn⟩ : ∃ n, ((p ++ '=' :: s).filter (fun c => c ≠ ' ')).length + 1
        = k + (n + 1) :=
      ⟨((p ++ '=' :: s).filter (fun c => c ≠ ' ')).length - k, by omega⟩
    unfold evaluateExpr
    rw [hn, evalLoop_runSteps k (n + 1) _ st h1, evalLoop_succ, h2]
  · right; left
    rw [← hinit] at h1
    exact ⟨k, st, h1, h2⟩
  · right; right
    rw [← hinit] at h1
    have hafter : st.reader.after = '=' :: s.filter (fun c => c ≠ ' ') := by rw [h2]
    have hbefore : st.reader.before = (p.filter (fun c => c ≠ ' ')).reverse := by
      rw [h2]; simp
    have hloop := evalLoop_at_eq_sign (p ++ '=' :: s) k st _ h1 hafter
    rw [hbefore] at hloop
    refine ⟨k, st, h1, by rw [h2]; simp, ?_, ?_, ?_⟩
    · intro j sj d hj hd
      exact runSteps_eq_sign_unique _ j k sj st d _ hj hd h1 hafter
    · rw [hloop, hfilter]
      simp
    · unfold evaluateExpr
      rw [hloop]

/-- The prefix `td5+td7` has no `=`; by `eq_is_terminal` the evaluation of
`td5+td7=h+t7=` panics, or reads a `t` in front of the `=`, or formats the
accumulator reached after the prefix by the directive `h+t7=`; it prints
`0xC`, the rendering of 12, so the operator, the `t`, the digit and the second
`=` of the suffix change nothing. -/
theorem eq_is_terminal_witness :
    '=' ∉ "td5+td7".toList ∧
    (runSteps 3 (initialState "td5+td7=h+t7=".toList)).map
        (fun st => (st.accumulator, st.reader.after)) = some (12, "=h+t7=".toList) ∧
    evaluateExpr "td5+td7=h+t7=".toList = .done ⟨"0xC\n".toList, []⟩ ∧
    (evaluateExpr ("td5+td7".toList ++ '=' :: "h+t7=".toList)
        = .panicked .integerDivideByZero ∨
      (∃ k st, runSteps k (initialState ("td5+td7".toList ++ '=' :: "h+t7=".toList))
          = some st ∧
        st.reader.after = 't' :: '=' :: "h+t7=".toList.filter (fun c => c ≠ ' ')) ∨
      (∃ k st, runSteps k (initialState ("td5+td7".toList ++ '=' :: "h+t7=".toList))
          = some st ∧
        st.reader = ⟨("td5+td7".toList.filter (fun c => c ≠ ' ')).reverse,
          '=' :: "h+t7=".toList.filter (fun c => c ≠ ' ')⟩ ∧
        (∀ j sj d, runSteps j (initialState ("td5+td7".toList ++ '=' :: "h+t7=".toList))
            = some sj → sj.reader.after = '=' :: d → j = k) ∧
        evalLoop ((("td5+td7".toList ++ '=' :: "h+t7=".toList).filter
            (fun c => c ≠ ' ')).length + 1)
            (initialState ("td5+td7".toList ++ '=' :: "h+t7=".toList))
          = .done ⟨⟨(("td5+td7".toList ++ '=' :: "h+t7=".toList).filter
              (fun c => c ≠ ' ')).reverse, []⟩, st.accumulator, st.operationType,
              formatValue st.accumulator
                (collectOutputFmt ⟨'=' :: ("td5+td7".toList.filter (fun c => c ≠ ' ')).reverse,
                  "h+t7=".toList.filter (fun c => c ≠ ' ')⟩).1⟩ ∧
        evaluateExpr ("td5+td7".toList ++ '=' :: "h+t7=".toList)
          = .done ⟨Println (formatValue st.accumulator
              (collectOutputFmt ⟨'=' :: ("td5+td7".toList.filter (fun c => c ≠ ' ')).reverse,
                "h+t7=".toList.filter (fun c => c ≠ ' ')⟩).1), []⟩)) :=
  ⟨by decide, by decide, by decide, eq_is_terminal "td5+td7".toList "h+t7=".toList (by decide)⟩

/-! ## Signs -/

/-- A sign or none and hexadecimal digits, in front of a byte outside the alphabet or
of a sign that comes after something, are collected whole, and that byte is
left unread. -/
theorem collectValue_signed (before sg ds : List Char) (c : Char) (r : List Char)
    (hsg : sg ∈ [[], ['+'], ['-']]) (hds : ∀ x ∈ ds, x ∈ hexDigits)
    (hc : c ∉ alphabet ∨ ((c = '+' ∨ c = '-') ∧ sg ++ ds ≠ [])) :
    collectValue ⟨before, sg ++ ds ++ c :: r⟩
      = (sg ++ ds, ⟨(sg ++ ds).reverse ++ before, c :: r⟩) := by
  simp only [List.mem_cons, List.mem_singleton, List.not_mem_nil, or_false] at hsg
  unfold collectValue
  rcases hsg with hs | hs | hs
  · subst hs
    simp only [List.nil_append] at hc ⊢
    rw [collectValueLoop_stop ds hds before [] c r (by simpa using hc)]
    simp
  · subst hs
    simp only [List.cons_append, List.nil_append]
    unfold collectValueLoop
    have h1 : ('+' : Char) ∈ alphabet := by decide
    simp only [ne_eq, not_true_eq_false, false_and, if_false, h1, if_true, List.nil_append]
    rw [collectValueLoop_stop ds hds _ ['+'] c r (by
      rcases hc with hc | ⟨hc, _⟩
      · exact Or.inl hc
      · exact Or.inr ⟨hc, by simp⟩)]
    simp
  · subst hs
    simp only [List.cons_append, List.nil_append]
    unfold collectValueLoop
    have h1 : ('-' : Char) ∈ alphabet := by decide
    simp only [ne_eq, not_true_eq_false, false_and, if_false, h1, if_true, List.nil_append]
    rw [collectValueLoop_stop ds hds _ ['-'] c r (by
      rcases hc with hc | ⟨hc, _⟩
      · exact Or.inl hc
      · exact Or.inr ⟨hc, by simp⟩)]
    simp

/-- C16: For every input, the literal that `collectValue` returns has `+` or `-` at no
index other than 0.  A sign met after a sign or none and hexadecimal digits, at
least one character in all, ends the scan and is left unread, and the next
iteration of the loop reads it as an operator.  So `td5-td3=d` prints 2 and
`td5-td-3=d` prints 8. -/
theorem collectValue_sign_first (reader : Reader) :
    (∀ (i : Nat) (c : Char), (collectValue reader).1[i]? = some c → c = '+' ∨ c = '-' → i = 0) ∧
    (∀ (sg ds : List Char) (c : Char) (rest : List Char),
      reader.after = sg ++ ds ++ c :: rest → sg ∈ [[], ['+'], ['-']] →
      (∀ x ∈ ds, x ∈ hexDigits) → sg ++ ds ≠ [] → c = '+' ∨ c = '-' →
      collectValue reader = (sg ++ ds, ⟨(sg ++ ds).reverse ++ reader.before, c :: rest⟩) ∧
      ∀ (acc : Nat) (op : OperationType) (fd : List Char),
        loopBody ⟨(collectValue reader).2, acc, op, fd⟩
          = .next ⟨⟨c :: ((sg ++ ds).reverse ++ reader.before), rest⟩, acc, operationOf c, fd⟩) ∧
    evaluateExpr "td5-td3=d".toList = .done ⟨"2\n".toList, []⟩ ∧
    evaluateExpr "td5-td-3=d".toList = .done ⟨"8\n".toList, []⟩ := by
  refine ⟨?_, ?_, by decide, by decide⟩
  · intro i c hi hc
    obtain ⟨sg, ds, rest, _, hv, hsg, hds, _, _⟩ :=
      collectValueLoop_spec reader.after reader.before []
    have hv1 : (collectValue reader).1 = sg ++ ds := by simpa [collectValue] using hv
    rw [hv1] at hi
    have hnot : c ∉ ds := by
      intro hmem
      have := hexDigits_facts c (hds c hmem)
      rcases hc with h | h
      · exact this.2.1 h
      · exact this.2.2 h
    cases i with
    | zero => rfl
    | succ i =>
      exfalso
      rcases hsg with h | ⟨_, h | h⟩
      · subst h
        exact hnot (List.getElem?_mem hi)
      · subst h
        simp only [List.singleton_append, List.getElem?_cons_succ] at hi
        exact hnot (List.getElem?_mem hi)
      · subst h
        simp only [List.singleton_append, List.getElem?_cons_succ] at hi
        exact hnot (List.getElem?_mem hi)
  · intro sg ds c rest hafter hsg hds hne hc
    have hcv : collectValue reader
        = (sg ++ ds, ⟨(sg ++ ds).reverse ++ reader.before, c :: rest⟩) := by
      obtain ⟨b, a⟩ := reader
      simp only at hafter
      subst hafter
      exact collectValue_signed b sg ds c rest hsg hds (Or.inr ⟨hc, hne⟩)
    refine ⟨hcv, ?_⟩
    intro acc op fd
    rw [hcv]
    exact loopBody_operator c (by
      rcases hc with rfl | rfl <;> decide) _ _ _ _ _

/-! ## The pending operator -/

/-- The scan of a string without `t` and `=` leaves the accumulator and the formatted
text as they are; the pending operation becomes the one named by the last
operator character of the string. -/
theorem runSteps_plain (w : List Char) (hw : ∀ c ∈ w, c ≠ 't' ∧ c ≠ '=') :
    ∀ (b rest : List Char) (acc : Nat) (op0 : OperationType) (fd : List Char),
      runSteps w.length ⟨⟨b, w ++ rest⟩, acc, op0, fd⟩
        = some ⟨⟨w.reverse ++ b, rest⟩, acc, pendingAfter op0 w, fd⟩ := by
  induction w with
  | nil => intro b rest acc op0 fd; rfl
  | cons c w ih =>
    intro b rest acc op0 fd
    have hc := hw c (List.mem_cons_self _ _)
    have hw1 : ∀ x ∈ w, x ≠ 't' ∧ x ≠ '=' := fun x hx => hw x (List.mem_cons_of_mem _ hx)
    simp only [List.cons_append, List.length_cons]
    rw [runSteps_succ_next _ _ _ (loopBody_plain b c (w ++ rest) acc op0 fd hc.1 hc.2), ih hw1]
    simp [pendingAfter, operators]

/-- C17: After any string of characters other than `t` and `=`, the accumulator is
unchanged and the pending operation is the one named by the last operator
character of the string (the one pending before it when it has none).  When a
typed value follows, that operation is applied to the accumulator and the value
read, once, and no operation is pending afterwards; with no operation pending
the value is loaded.  When the end of the input or `=` follows, the loop ends
with the accumulator unchanged. -/
theorem pending_operator (w : List Char) (hw : ∀ c ∈ w, c ≠ 't' ∧ c ≠ '=')
    (b rest : List Char) (acc : Nat) (op0 : OperationType) (fd : List Char) :
    runSteps w.length ⟨⟨b, w ++ rest⟩, acc, op0, fd⟩
      = some ⟨⟨w.reverse ++ b, rest⟩, acc, pendingAfter op0 w, fd⟩ ∧
    (∀ (code : Char) (a : List Char), rest = 't' :: code :: a →
      loopBody ⟨⟨w.reverse ++ b, rest⟩, acc, pendingAfter op0 w, fd⟩ =
        if pendingAfter op0 w ≠ .Unknown then
          match doSingleOperation acc (pendingAfter op0 w)
              (toUint64 (readValue ⟨code :: 't' :: (w.reverse ++ b), a⟩ [code]).1) with
          | .error p => .panic p
          | .ok x => .next ⟨(readValue ⟨code :: 't' :: (w.reverse ++ b), a⟩ [code]).2, x,
              .Unknown, fd⟩
        else .next ⟨(readValue ⟨code :: 't' :: (w.reverse ++ b), a⟩ [code]).2,
          toUint64 (readValue ⟨code :: 't' :: (w.reverse ++ b), a⟩ [code]).1, .Unknown, fd⟩) ∧
    (∀ n : Nat, rest = [] →
      evalLoop (w.length + (n + 1)) ⟨⟨b, w ++ rest⟩, acc, op0, fd⟩
        = .done ⟨⟨w.reverse ++ b, []⟩, acc, pendingAfter op0 w, fd⟩) ∧
    (∀ (n : Nat) (d : List Char), rest = '=' :: d →
      evalLoop (w.length + (n + 2)) ⟨⟨b, w ++ rest⟩, acc, op0, fd⟩
        = .done ⟨⟨d.reverse ++ '=' :: (w.reverse ++ b), []⟩, acc, pendingAfter op0 w,
            formatValue acc (collectOutputFmt ⟨'=' :: (w.reverse ++ b), d⟩).1⟩) := by
  have hrun := runSteps_plain w hw b rest acc op0 fd
  refine ⟨hrun, ?_, ?_, ?_⟩
  · intro code a hrest
    subst hrest
    rw [loopBody_t]
    by_cases hop : pendingAfter op0 w = .Unknown
    · simp [hop]
    · simp [hop]
  · intro n hrest
    subst hrest
    rw [evalLoop_runSteps _ _ _ _ hrun, evalLoop_succ, loopBody_eof]
  · intro n d hrest
    subst hrest
    rw [evalLoop_runSteps _ _ _ _ hrun, evalLoop_eq_sign]

/-- The strings `+*` and `+` have neither `t` nor `=`.  In `td6+*td2=d` the operation
pending after `+*` is Multiply and the output is 12; in `td5+=d` the `+` is
followed by no literal and the output is 5. -/
theorem pending_operator_witness :
    (∀ c ∈ "+*".toList, c ≠ 't' ∧ c ≠ '=') ∧
    runSteps "+*".toList.length ⟨⟨"6dt".toList, "+*".toList ++ "td2=d".toList⟩, 6, .Unknown, []⟩
      = some ⟨⟨"+*".toList.reverse ++ "6dt".toList, "td2=d".toList⟩, 6,
          pendingAfter .Unknown "+*".toList, []⟩ ∧
    pendingAfter .Unknown "+*".toList = .Multiply ∧
    evaluateExpr "td6+*td2=d".toList = .done ⟨"12\n".toList, []⟩ ∧
    evaluateExpr "td5+=d".toList = .done ⟨"5\n".toList, []⟩ :=
  ⟨by decide,
    (pending_operator "+*".toList (by decide) "6dt".toList "td2=d".toList 6 .Unknown []).1,
    by decide, by decide, by decide⟩

/-! ## Literals that do not parse -/

/-- The digit loop of `ParseUint` over valid digits that fit 64 bits goes on with
their value. -/
theorem parseUintLoop_append (base : Nat) (hb : 0 < base) (ds : List Char)
    (hds : ∀ c ∈ ds, digitVal c = some (digitValue c) ∧ digitValue c < base) :
    ∀ (n : Nat) (l : List Char), ds.foldl (fun n c => n * base + digitValue c) n ≤ maxUint64 →
      parseUintLoop base (ds ++ l) n
        = parseUintLoop base l (ds.foldl (fun n c => n * base + digitValue c) n) := by
  induction ds with
  | nil => intro n l _; rfl
  | cons d ds ih =>
    intro n l hn
    have hd := hds d (List.mem_cons_self _ _)
    have hds1 : ∀ c ∈ ds, digitVal c = some (digitValue c) ∧ digitValue c < base :=
      fun c h => hds c (List.mem_cons_of_mem _ h)
    simp only [List.foldl_cons, List.cons_append] at hn ⊢
    have h1 := foldl_digits_ge base hb ds (n * base + digitValue d)
    have h2 : n * base + digitValue d ≤ maxUint64 := le_trans h1 hn
    have h3 : n ≤ maxUint64 / base := (Nat.le_div_iff_mul_le hb).2 (by omega)
    have h4 : (n * base + digitValue d) % 2 ^ 64 = n * base + digitValue d :=
      Nat.mod_eq_of_lt (by unfold maxUint64 at h2; omega)
    conv_lhs => unfold parseUintLoop
    simp only [hd.1]
    have h5 : ¬ digitValue d ≥ base := by omega
    have h6 : ¬ n ≥ maxUint64 / base + 1 := by omega
    simp only [h5, h6, if_false, h4]
    have h7 : ¬ (n * base + digitValue d < n * base ∨ n * base + digitValue d > maxUint64) := by
      omega
    simp only [h7, if_false]
    exact ih hds1 _ l hn

/-- The digit loop of `ParseUint` over valid digits whose value does not fit 64 bits
reports a range error. -/
theorem parseUintLoop_overflow (base : Nat) (hb : 2 ≤ base) (hb2 : base ≤ 36) (ds : List Char)
    (hds : ∀ c ∈ ds, digitVal c = some (digitValue c) ∧ digitValue c < base) :
    ∀ (n : Nat), n ≤ maxUint64 →
      maxUint64 < ds.foldl (fun n c => n * base + digitValue c) n →
      parseUintLoop base ds n = (maxUint64, some .ErrRange) := by
  induction ds with
  | nil => intro n h1 h2; simp only [List.foldl_nil] at h2; omega
  | cons d ds ih =>
    intro n hn hover
    have hd := hds d (List.mem_cons_self _ _)
    have hds1 : ∀ c ∈ ds, digitVal c = some (digitValue c) ∧ digitValue c < base :=
      fun c h => hds c (List.mem_cons_of_mem _ h)
    simp only [List.foldl_cons] at hover
    unfold parseUintLoop
    simp only [hd.1]
    have h5 : ¬ digitValue d ≥ base := by omega
    simp only [h5, if_false]
    by_cases h6 : n ≥ maxUint64 / base + 1
    · simp only [h6, if_true]
    · simp only [h6, if_false]
      have h3 : n * base ≤ maxUint64 := by
        have : n ≤ maxUint64 / base := by omega
        exact (Nat.le_div_iff_mul_le (by omega)).1 this
      by_cases h7 : n * base + digitValue d ≤ maxUint64
      · have h4 : (n * base + digitValue d) % 2 ^ 64 = n * base + digitValue d :=
          Nat.mod_eq_of_lt (by unfold maxUint64 at h7; omega)
        have h8 : ¬ (n * base + digitValue d < n * base ∨
            n * base + digitValue d > maxUint64) := by omega
        simp only [h4, h8, if_false]
        exact ih hds1 _ h7 hover
      · have hbase : base ≤ maxUint64 := by
          unfold maxUint64
          omega
        have h4 : (n * base + digitValue d) % 2 ^ 64 = n * base + digitValue d - 2 ^ 64 := by
          unfold maxUint64 at h3 h7 hbase
          omega
        have h8 : (n * base + digitValue d - 2 ^ 64 < n * base ∨
            n * base + digitValue d - 2 ^ 64 > maxUint64) := by
          unfold maxUint64 at h3 h7 hbase ⊢
          omega
        simp only [h4, h8, if_true]

theorem hexDigits_not_of_base (code : Char) (hcode : code ∈ ['b', 'o', 'd', 'h']) :
    ∀ c ∈ hexDigits, c ∉ digitAlphabet code →
      digitVal c = some (digitValue c) ∧ baseOf code ≤ digitValue c := by
  simp only [List.mem_cons, List.mem_singleton, List.not_mem_nil, or_false] at hcode
  rcases hcode with rfl | rfl | rfl | rfl <;> decide

/-- The collected literal is made of bytes of the alphabet. -/
theorem collectValue_mem_alphabet (reader : Reader) :
    ∀ c ∈ (collectValue reader).1, c ∈ alphabet := by
  obtain ⟨sg, ds, rest, _, hv, hsg, hds, _, _⟩ :=
    collectValueLoop_spec reader.after reader.before []
  have hv1 : (collectValue reader).1 = sg ++ ds := by simpa [collectValue] using hv
  intro c hc
  rw [hv1] at hc
  rcases List.mem_append.1 hc with h | h
  · rcases hsg with h1 | ⟨_, h1 | h1⟩
    · rw [h1] at h; simp at h
    · rw [h1] at h
      have : c = '+' := by simpa using h
      subst this
      decide
    · rw [h1] at h
      have : c = '-' := by simpa using h
      subst this
      decide
  · exact (hexDigits_facts c (hds c h)).1

/-- The function `ParseUint` on valid digits that fit 64 bits followed by a character
that is no digit of the base reports a syntax error. -/
theorem ParseUint_bad_digit (base : Nat) (hb : 0 < base) (good : List Char) (bad : Char)
    (rest : List Char)
    (hgood : ∀ c ∈ good, digitVal c = some (digitValue c) ∧ digitValue c < base)
    (hfit : digitsValue base good ≤ maxUint64)
    (hbad : digitVal bad = some (digitValue bad) ∧ base ≤ digitValue bad) :
    ParseUint (good ++ bad :: rest) base = (0, some .ErrSyntax) := by
  unfold ParseUint
  have hne : good ++ bad :: rest ≠ [] := by simp
  simp only [hne, if_false]
  rw [parseUintLoop_append base hb good hgood 0 _ hfit]
  unfold parseUintLoop
  simp only [hbad.1]
  have : digitValue bad ≥ base := hbad.2
  simp only [this, if_true]

theorem ParseInt_syntax_unsigned (s : List Char) (base : Nat)
    (hns : ∀ c t, s = c :: t → c ≠ '+' ∧ c ≠ '-')
    (hU : ParseUint s base = (0, some .ErrSyntax)) : (ParseInt s base).1 = 0 := by
  cases s with
  | nil => rfl
  | cons c t =>
    have hc := hns c t rfl
    have hc2 : ¬ (c = '+' ∨ c = '-') := by
      rintro (h | h)
      · exact hc.1 h
      · exact hc.2 h
    unfold ParseInt
    simp only [hc2, if_false, hU, if_true]

theorem ParseInt_syntax_signed (s : List Char) (base : Nat)
    (hU : ParseUint s base = (0, some .ErrSyntax)) :
    (ParseInt ('+' :: s) base).1 = 0 ∧ (ParseInt ('-' :: s) base).1 = 0 := by
  refine ⟨?_, ?_⟩
  · unfold ParseInt
    simp [hU]
  · unfold ParseInt
    simp [hU]

set_option maxRecDepth 8000 in
/-- C18 as stated fails: in `td99999999999999999999a=d` the collected literal contains
`a`, which is no decimal digit, but the twenty digits before it already
overflow 64 bits; `ParseInt` reports the range error first and `readValue` yields
`2 ^ 63 - 1`, not 0. -/
theorem malformed_counterexample :
    (collectValue ⟨"dt".toList, "99999999999999999999a=d".toList⟩).1
      = "99999999999999999999a".toList ∧
    'a' ∉ digitAlphabet 'd' ∧
    (readValue ⟨"dt".toList, "99999999999999999999a=d".toList⟩ ['d']).1 = 2 ^ 63 - 1 ∧
    evaluateExpr "td99999999999999999999a=d".toList
      = .done ⟨"9223372036854775807\n".toList, []⟩ := by
  decide

/-- C18 (amended): for every operand type b, o, d, h and every reader, when the
collected literal is empty, or a lone sign, or has after its sign a character
that is no digit of the base, preceded only by digits of the base whose value
fits 64 bits, `readValue` yields 0 (it has no error result); and the iteration of
the loop that reads it goes on with 0 as the value. -/
theorem readValue_malformed (reader : Reader) (code : Char)
    (hcode : code ∈ ['b', 'o', 'd', 'h'])
    (h : (collectValue reader).1 = [] ∨ (collectValue reader).1 = ['+'] ∨
      (collectValue reader).1 = ['-'] ∨
      ∃ sg good bad rest, (collectValue reader).1 = sg ++ good ++ bad :: rest ∧
        sg ∈ [[], ['+'], ['-']] ∧ (∀ c ∈ good, c ∈ digitAlphabet code) ∧
        bad ∉ digitAlphabet code ∧ bad ≠ '+' ∧ bad ≠ '-' ∧
        digitsValue (baseOf code) good ≤ maxUint64) :
    (readValue reader [code]).1 = 0 ∧
    ∀ (b : List Char) (acc : Nat) (op : OperationType) (fd : List Char),
      reader.before = code :: 't' :: b →
      loopBody ⟨⟨b, 't' :: code :: reader.after⟩, acc, op, fd⟩ =
        if op ≠ .Unknown then
          match doSingleOperation acc op 0 with
          | .error p => .panic p
          | .ok x => .next ⟨(collectValue reader).2, x, .Unknown, fd⟩
        else .next ⟨(collectValue reader).2, 0, op, fd⟩ := by
  have hb := baseOf_pos code
  have hval : (readValue reader [code]).1 = 0 := by
    rw [readValue_code _ _ hcode]
    simp only
    rcases h with h | h | h | ⟨sg, good, bad, rest, hv, hsg, hgood, hbad, hb1, hb2, hfit⟩
    · rw [h]; rfl
    · rw [h]; simp [ParseInt, ParseUint]
    · rw [h]; simp [ParseInt, ParseUint]
    · have hmem : bad ∈ alphabet :=
        collectValue_mem_alphabet reader bad (by rw [hv]; simp)
      have hhex : bad ∈ hexDigits := by
        rcases alphabet_cases bad hmem with h1 | h1 | h1
        · exact h1
        · exact absurd h1 hb1
        · exact absurd h1 hb2
      have hgood2 : ∀ c ∈ good,
          digitVal c = some (digitValue c) ∧ digitValue c < baseOf code :=
        fun c hc => digitAlphabet_digitVal code hcode c (hgood c hc)
      have hU := ParseUint_bad_digit (baseOf code) (by omega) good bad rest hgood2 hfit
        (hexDigits_not_of_base code hcode bad hhex hbad)
      rw [hv]
      simp only [List.mem_cons, List.mem_singleton, List.not_mem_nil, or_false] at hsg
      rcases hsg with hs | hs | hs
      · subst hs
        simp only [List.nil_append]
        apply ParseInt_syntax_unsigned _ _ _ hU
        intro c t e
        cases good with
        | nil =>
          simp only [List.nil_append, List.cons.injEq] at e
          rw [← e.1]
          exact ⟨hb1, hb2⟩
        | cons g good =>
          simp only [List.cons_append, List.cons.injEq] at e
          rw [← e.1]
          exact (hexDigits_facts g
            (digitAlphabet_sub code g (hgood g (List.mem_cons_self _ _)))).2
      · subst hs
        exact (ParseInt_syntax_signed _ _ hU).1
      · subst hs
        exact (ParseInt_syntax_signed _ _ hU).2
  refine ⟨hval, ?_⟩
  intro b acc op fd hbefore
  obtain ⟨rb, ra⟩ := reader
  simp only at hbefore
  subst hbefore
  rw [loopBody_t]
  have hz : toUint64 (readValue ⟨code :: 't' :: b, ra⟩ [code]).1 = 0 := by
    rw [hval]; rfl
  simp only [hz, readValue_reader]

/-- In `tb12=d` the literal collected for the operand type `b` is `12`: the digit 1,
then the character 2, which is no binary digit.  By `readValue_malformed` the
value read is 0.  The expressions `td=d`, `tb12=d` and `td7+td=d` print 0, 0 and
7. -/
theorem readValue_malformed_witness :
    (collectValue ⟨"bt".toList, "12=d".toList⟩).1 = [] ++ ['1'] ++ '2' :: [] ∧
    (readValue ⟨"bt".toList, "12=d".toList⟩ ['b']).1 = 0 ∧
    evaluateExpr "td=d".toList = .done ⟨"0\n".toList, []⟩ ∧
    evaluateExpr "tb12=d".toList = .done ⟨"0\n".toList, []⟩ ∧
    evaluateExpr "td7+td=d".toList = .done ⟨"7\n".toList, []⟩ :=
  ⟨by decide,
    (readValue_malformed ⟨"bt".toList, "12=d".toList⟩ 'b' (by decide)
      (Or.inr (Or.inr (Or.inr ⟨[], ['1'], '2', [], by decide, by decide, by decide,
        by decide, by decide, by decide, by decide⟩)))).1,
    by decide, by decide, by decide⟩

/-! ## Literals out of range -/

/-- The function `ParseUint` on valid digits returns their value when it fits 64 bits
and `maxUint64` otherwise, and no syntax error. -/
theorem ParseUint_valid_or_range (base : Nat) (hb : 2 ≤ base) (hb2 : base ≤ 36)
    (ds : List Char) (hne : ds ≠ [])
    (hds : ∀ c ∈ ds, digitVal c = some (digitValue c) ∧ digitValue c < base) :
    (ParseUint ds base).2 ≠ some .ErrSyntax ∧
    (ParseUint ds base).1 = min (digitsValue base ds) maxUint64 := by
  by_cases h : digitsValue base ds ≤ maxUint64
  · rw [ParseUint_valid base (by omega) ds hne hds h]
    exact ⟨by simp, by simp [h]⟩
  · have hov : maxUint64 < digitsValue base ds := by omega
    have : ParseUint ds base = (maxUint64, some .ErrRange) := by
      unfold ParseUint
      simp only [hne, if_false]
      exact parseUintLoop_overflow base hb hb2 ds hds 0 (by unfold maxUint64; omega) hov
    rw [this]
    exact ⟨by simp, by simp; omega⟩

theorem baseOf_le (code : Char) : baseOf code ≤ 36 := by
  unfold baseOf
  split_ifs <;> omega

/-- C19: For every literal with valid digits for its operand type (b, o, d, h) whose
value lies outside the signed 64-bit range, `readValue` yields `2 ^ 63 - 1` when
the literal has no minus sign and `-2 ^ 63` when it has one. -/
theorem readValue_saturates (reader : Reader) (l : Literal) (hl : l.ValidDigits)
    (hlit : (collectValue reader).1 = l.sign ++ l.digits)
    (hout : l.value < -(2 ^ 63) ∨ 2 ^ 63 ≤ l.value) :
    (readValue reader [l.code]).1 = if l.sign = ['-'] then -(2 ^ 63) else 2 ^ 63 - 1 := by
  obtain ⟨hcode, hsign, hne, hds⟩ := hl
  have hb := baseOf_pos l.code
  have hv : ∀ c ∈ l.digits, digitVal c = some (digitValue c) ∧ digitValue c < baseOf l.code :=
    fun c hc => digitAlphabet_digitVal l.code hcode c (hds c hc)
  obtain ⟨hU1, hU2⟩ := ParseUint_valid_or_range (baseOf l.code) hb (baseOf_le l.code)
    l.digits hne hv
  rw [readValue_code _ _ hcode, hlit]
  simp only
  simp only [List.mem_cons, List.mem_singleton, List.not_mem_nil, or_false] at hsign
  unfold Literal.value at hout
  unfold maxUint64 at hU2
  rcases hsign with hs | hs | hs
  · rw [hs] at hout ⊢
    have hne0 : ¬ (([] : List Char) = ['-']) := by decide
    simp only [hne0, if_false, List.nil_append] at hout ⊢
    obtain ⟨d, t, hd⟩ := List.exists_cons_of_ne_nil hne
    have hdn := (hexDigits_facts d (digitAlphabet_sub l.code d
      (hds d (by rw [hd]; exact List.mem_cons_self _ _)))).2
    have hc2 : ¬ (d = '+' ∨ d = '-') := by
      rintro (h | h)
      · exact hdn.1 h
      · exact hdn.2 h
    rw [hd] at hU1 hU2 hout ⊢
    unfold ParseInt
    have hc3 : ¬ (d = '+') := hdn.1
    simp only [hc3, or_false, false_or, hdn.2, if_false, hU1, decide_False, Bool.not_false,
      true_and, Bool.false_eq_true, false_and]
    have h1 : (ParseUint (d :: t) (baseOf l.code)).1 ≥ 2 ^ 63 := by omega
    rw [if_pos h1]
  · rw [hs] at hout ⊢
    have hne2 : ¬ (['+'] = ['-']) := by decide
    simp only [hne2, if_false] at hout ⊢
    unfold ParseInt
    simp only [List.singleton_append, true_or, if_true, hU1, if_false]
    have h1 : (ParseUint l.digits (baseOf l.code)).1 ≥ 2 ^ 63 := by omega
    have h2 : ¬ (('+' : Char) = '-') := by decide
    simp only [h2, decide_False, Bool.not_false, true_and, Bool.false_eq_true, false_and]
    rw [if_pos h1]
  · rw [hs] at hout ⊢
    simp only [if_true] at hout ⊢
    unfold ParseInt
    simp only [List.singleton_append, or_true, if_true, hU1, if_false]
    have h1 : (ParseUint l.digits (baseOf l.code)).1 > 2 ^ 63 := by omega
    simp only [decide_True, Bool.not_true, Bool.false_eq_true, false_and, if_false, true_and]
    rw [if_pos h1]

set_option maxRecDepth 8000 in
/-- In `thFFFFFFFFFFFFFFFF=h` the collected literal is the valid hexadecimal literal
`FFFFFFFFFFFFFFFF`, whose value `2 ^ 64 - 1` is out of range: by
`readValue_saturates` the value read is `2 ^ 63 - 1`.  The expressions
`thFFFFFFFFFFFFFFFF=h` and `td18446744073709551615=d` print `0x7FFFFFFFFFFFFFFF`
and `9223372036854775807`, and `td-9223372036854775809=d` prints `2 ^ 63`, the
unsigned value of `-2 ^ 63`. -/
theorem readValue_saturates_witness :
    (Literal.mk 'h' [] "FFFFFFFFFFFFFFFF".toList).ValidDigits ∧
    (collectValue ⟨"ht".toList, "FFFFFFFFFFFFFFFF=h".toList⟩).1
      = [] ++ "FFFFFFFFFFFFFFFF".toList ∧
    2 ^ 63 ≤ (Literal.mk 'h' [] "FFFFFFFFFFFFFFFF".toList).value ∧
    (readValue ⟨"ht".toList, "FFFFFFFFFFFFFFFF=h".toList⟩ ['h']).1 = 2 ^ 63 - 1 ∧
    evaluateExpr "thFFFFFFFFFFFFFFFF=h".toList = .done ⟨"0x7FFFFFFFFFFFFFFF\n".toList, []⟩ ∧
    evaluateExpr "td18446744073709551615=d".toList
      = .done ⟨"9223372036854775807\n".toList, []⟩ ∧
    evaluateExpr "td-9223372036854775809=d".toList
      = .done ⟨"9223372036854775808\n".toList, []⟩ :=
  ⟨by decide, by decide, by decide,
    readValue_saturates ⟨"ht".toList, "FFFFFFFFFFFFFFFF=h".toList⟩
      (Literal.mk 'h' [] "FFFFFFFFFFFFFFFF".toList) (by decide) (by decide)
      (Or.inr (by decide)),
    by decide, by decide, by decide⟩

/-! ## The prefix stays -/

theorem specFormatStep_prefix_other (f : OutFormat) (a : Char) (hb : a ≠ 'b') (hh : a ≠ 'h') :
    (specFormatStep f a).prefixStr = f.prefixStr := by
  unfold specFormatStep
  simp only [hb, hh, if_false]
  split_ifs <;> rfl

theorem specFormatStep_fmt_other (f : OutFormat) (a : Char) (hb : a ≠ 'b') (ho : a ≠ 'o')
    (hd : a ≠ 'd') (hh : a ≠ 'h') : (specFormatStep f a).fmt = f.fmt := by
  unfold specFormatStep
  simp only [hb, ho, hd, hh, if_false]
  split_ifs <;> rfl

theorem foldl_specFormatStep_prefix (s : List Char) (f : OutFormat) :
    (s.foldl specFormatStep f).prefixStr
      = match s.reverse.find? (fun c => decide (c = 'b' ∨ c = 'h')) with
        | some c => if c = 'b' then ['0', 'b'] else ['0', 'x']
        | none => f.prefixStr := by
  induction s using List.reverseRecOn with
  | nil => rfl
  | append_singleton l a ih =>
    rw [List.foldl_append, List.reverse_append]
    simp only [List.foldl_cons, List.foldl_nil, List.reverse_cons, List.reverse_nil,
      List.nil_append, List.singleton_append, List.find?_cons]
    by_cases hb : a = 'b'
    · subst hb; simp [specFormatStep]
    by_cases hh : a = 'h'
    · subst hh; simp [specFormatStep]
    rw [specFormatStep_prefix_other _ a hb hh, ih]
    simp [hb, hh]

theorem foldl_specFormatStep_fmt (s : List Char) (f : OutFormat) :
    (s.foldl specFormatStep f).fmt
      = match s.reverse.find? (fun c => decide (c ∈ ['b', 'o', 'd', 'h'])) with
        | some c => fmtOf c
        | none => f.fmt := by
  induction s using List.reverseRecOn with
  | nil => rfl
  | append_singleton l a ih =>
    rw [List.foldl_append, List.reverse_append]
    simp only [List.foldl_cons, List.foldl_nil, List.reverse_cons, List.reverse_nil,
      List.nil_append, List.singleton_append, List.find?_cons]
    by_cases hb : a = 'b'
    · subst hb; simp [specFormatStep, fmtOf]
    by_cases ho : a = 'o'
    · subst ho; simp [specFormatStep, fmtOf]
    by_cases hd : a = 'd'
    · subst hd; simp [specFormatStep, fmtOf]
    by_cases hh : a = 'h'
    · subst hh; simp [specFormatStep, fmtOf]
    rw [specFormatStep_fmt_other _ a hb ho hd hh, ih]
    simp [hb, ho, hd, hh]

/-- Text without `%` in front of a format is copied in front of the output. -/
theorem doPrintf_literal (v : Nat) (p : List Char) (hp : '%' ∉ p) (f : List Char)
    (used : Bool) :
    doPrintf v (p ++ f) .text used = p ++ doPrintf v f .text used := by
  induction p with
  | nil => rfl
  | cons c p ih =>
    have hc : c ≠ '%' := fun e => hp (by rw [e]; exact List.mem_cons_self _ _)
    have hp1 : '%' ∉ p := fun h => hp (List.mem_cons_of_mem _ h)
    simp only [List.cons_append]
    conv_lhs => unfold doPrintf
    simp only [hc, if_false, ih hp1]

/-- The function `formatValue` writes the prefix of the format, when it has no `%`,
in front of what it writes for the format without prefix. -/
theorem formatValue_prefix (V : Nat) (cfg : OutFormat) (hp : '%' ∉ cfg.prefixStr) :
    formatValue V cfg = cfg.prefixStr ++ formatValue V { cfg with prefixStr := [] } := by
  unfold formatValue Sprintf
  simp only [List.append_assoc, List.nil_append]
  rw [doPrintf_literal _ _ hp]

theorem stickyPrefix_no_percent (s : List Char) : '%' ∉ stickyPrefix s := by
  unfold stickyPrefix
  split
  · split_ifs <;> decide
  · decide

/-- C20: For every directive, the prefix of the format that `collectOutputFmt` builds
is the one of the last `b` or `h` of the directive (none without them), the
verb is the one of the last base character, whichever it is, and
`formatValue` writes that prefix in front of the number rendered with that verb.
So `td80=hd` prints `0x80` and `td5=bd` prints `0b5`, while `td80=dh` prints
`0x50`. -/
theorem sticky_prefix (before s : List Char) (acc : Nat) :
    (collectOutputFmt ⟨before, s⟩).1.prefixStr = stickyPrefix s ∧
    (collectOutputFmt ⟨before, s⟩).1.fmt = lastBase s ∧
    formatValue acc (collectOutputFmt ⟨before, s⟩).1
      = stickyPrefix s ++ formatValue acc { (collectOutputFmt ⟨before, s⟩).1 with
          prefixStr := [] } ∧
    evaluateExpr "td80=hd".toList = .done ⟨"0x80\n".toList, []⟩ ∧
    evaluateExpr "td5=bd".toList = .done ⟨"0b5\n".toList, []⟩ ∧
    evaluateExpr "td80=dh".toList = .done ⟨"0x50\n".toList, []⟩ := by
  obtain ⟨h1, h2, _, _⟩ := collectOutputFmt_fields before s
  have hp : (collectOutputFmt ⟨before, s⟩).1.prefixStr = stickyPrefix s := by
    rw [h1, foldl_specFormatStep_prefix]
    unfold stickyPrefix
    split <;> rfl
  have hf : (collectOutputFmt ⟨before, s⟩).1.fmt = lastBase s := by
    rw [h2, foldl_specFormatStep_fmt]
    unfold lastBase
    split <;> rfl
  refine ⟨hp, hf, ?_, by decide, by decide, by decide⟩
  have := formatValue_prefix acc (collectOutputFmt ⟨before, s⟩).1
    (by rw [hp]; exact stickyPrefix_no_percent s)
  rw [hp] at this
  exact this

end Calc
